import Mathlib

set_option maxRecDepth 200000

/-!
Verification of the poker-game engine specification against a shallow
embedding of the source.

The embedding covers:
* `app/core/pot.py` — `PotManager`, `SidePot`, side-pot decomposition;
* `app/core/card.py` / `app/core/hand_evaluator.py` — the Cactus Kev
  5-card evaluator and its lookup tables;
* `app/game/betting.py` — `BettingRound`;
* `app/game/rules.py` — blind seat derivation;
* `app/game/game.py` — the `game_state` payload factory and the showdown
  award loop.

Python `dict`s (insertion ordered, unique keys) are embedded as ordered
association lists; Python's unbounded `int` is embedded as `Int` (or as
`Nat` where the source only ever stores non-negative counters); a Python
function that can raise is embedded as `Except String`/`Option`.
-/

namespace Poker

/-! ### Ordered dictionaries (insertion-ordered, unique keys)

Python `dict`s keyed by player-id strings.  `dictSet` updates an existing
key in place (preserving its position) or appends a fresh key at the end,
matching `d[k] = v`; `dictGet` is `d.get(k, 0)`. -/

def dictGet (d : List (String × Int)) (k : String) : Int :=
  (d.lookup k).getD 0

def dictSet (d : List (String × Int)) (k : String) (v : Int) : List (String × Int) :=
  if d.any (fun p => p.1 == k) then
    d.map (fun p => if p.1 == k then (k, v) else p)
  else
    d ++ [(k, v)]

/-! ### `app/core/pot.py` -/

/-- `SidePot` dataclass: an amount together with the ordered list of
eligible player ids. -/
structure SidePot where
  amount : Int
  eligible_player_ids : List String
deriving DecidableEq, Repr

/-- `PotManager` state: the contribution ledger (`_contributions`), the
recorded all-in caps (`_all_in_amounts`) and the running total
(`_total`). -/
structure PotManager where
  contributions : List (String × Int)
  all_in_amounts : List (String × Int)
  total : Int
deriving DecidableEq, Repr

/-- `PotManager.__init__`. -/
def PotManager.empty : PotManager := ⟨[], [], 0⟩

/-- `PotManager.add_contribution`.  Raising `ValueError` is embedded as
`Except.error`; the Python guard runs before any mutation, so the error
case produces no successor state. -/
def PotManager.add_contribution (pm : PotManager) (player_id : String) (amount : Int)
    (is_all_in : Bool := false) : Except String PotManager :=
  if amount < 0 then
    .error "Contribution cannot be negative"
  else
    let contributions :=
      dictSet pm.contributions player_id (dictGet pm.contributions player_id + amount)
    let total := pm.total + amount
    let all_in_amounts :=
      if is_all_in then
        dictSet pm.all_in_amounts player_id (dictGet contributions player_id)
      else
        pm.all_in_amounts
    .ok ⟨contributions, all_in_amounts, total⟩

/-- `PotManager.get_contribution`. -/
def PotManager.get_contribution (pm : PotManager) (player_id : String) : Int :=
  dictGet pm.contributions player_id

/-- `sorted` on a list of ints (ascending), used for `sorted(set(...))`. -/
def sortInts (l : List Int) : List Int :=
  l.insertionSort (· ≤ ·)

/-- The body of the `for pid, total_contrib in contributors.items()` loop
inside `calculate_side_pots`, for one cap: returns the pot amount, the
eligible ids (in iteration order) and the updated `already_taken` map
(embedded as a function, read only at contributor keys). -/
def potForCap (active : List String) (cap : Int) :
    List (String × Int) → (String → Int) → Int × List String × (String → Int)
  | [], taken => (0, [], taken)
  | (pid, total_contrib) :: rest, taken =>
    let contribution_to_this_pot := min total_contrib cap - taken pid
    if contribution_to_this_pot > 0 then
      let taken' := fun x => if x = pid then taken pid + contribution_to_this_pot else taken x
      let r := potForCap active cap rest taken'
      (contribution_to_this_pot + r.1,
        (if active.contains pid then pid :: r.2.1 else r.2.1), r.2.2)
    else
      potForCap active cap rest taken

/-- The `for cap in remaining_caps` loop: emits one pot per cap, dropping
pots whose amount is zero. -/
def runCaps (contributors : List (String × Int)) (active : List String) :
    List Int → (String → Int) → List SidePot × (String → Int)
  | [], taken => ([], taken)
  | cap :: rest, taken =>
    let r := potForCap active cap contributors taken
    let rest' := runCaps contributors active rest r.2.2
    ((if r.1 > 0 then [SidePot.mk r.1 r.2.1] else []) ++ rest'.1, rest'.2)

/-- The main-pot loop: whatever remains above all caps. -/
def mainPot (active : List String) :
    List (String × Int) → (String → Int) → Int × List String
  | [], _ => (0, [])
  | (pid, total_contrib) :: rest, taken =>
    let leftover := total_contrib - taken pid
    let r := mainPot active rest taken
    if leftover > 0 then
      (leftover + r.1, if active.contains pid then pid :: r.2 else r.2)
    else
      r

/-- `PotManager.calculate_side_pots`. -/
def PotManager.calculate_side_pots (pm : PotManager)
    (active_player_ids : Option (List String) := none) : List SidePot :=
  if pm.contributions.isEmpty then [] else
  let active := active_player_ids.getD (pm.contributions.map Prod.fst)
  let contributors := pm.contributions.filter (fun p => p.2 > 0)
  if contributors.isEmpty then [] else
  let all_in_caps := sortInts (pm.all_in_amounts.map Prod.snd).dedup
  let r := runCaps contributors active all_in_caps (fun _ => 0)
  let m := mainPot active contributors r.2
  r.1 ++ (if m.1 > 0 then [SidePot.mk m.1 m.2] else [])

/-- Variant of the caps loop that records, next to each emitted pot, the
cap it was collected at.  Used to state eligibility claims that mention
"that pot's cap". -/
def runCapsAnn (contributors : List (String × Int)) (active : List String) :
    List Int → (String → Int) → List (SidePot × Int) × (String → Int)
  | [], taken => ([], taken)
  | cap :: rest, taken =>
    let r := potForCap active cap contributors taken
    let rest' := runCapsAnn contributors active rest r.2.2
    ((if r.1 > 0 then [(SidePot.mk r.1 r.2.1, cap)] else []) ++ rest'.1, rest'.2)

/-- `calculate_side_pots`, but with each pot annotated by its cap
(`none` for the final main pot). -/
def PotManager.calculate_side_pots_annotated (pm : PotManager)
    (active_player_ids : Option (List String) := none) : List (SidePot × Option Int) :=
  if pm.contributions.isEmpty then [] else
  let active := active_player_ids.getD (pm.contributions.map Prod.fst)
  let contributors := pm.contributions.filter (fun p => p.2 > 0)
  if contributors.isEmpty then [] else
  let all_in_caps := sortInts (pm.all_in_amounts.map Prod.snd).dedup
  let r := runCapsAnn contributors active all_in_caps (fun _ => 0)
  let m := mainPot active contributors r.2
  (r.1.map (fun p => (p.1, some p.2))) ++ (if m.1 > 0 then [(SidePot.mk m.1 m.2, none)] else [])

/-! ### Well-formedness of `PotManager` states -/

/-- Invariants of every `PotManager` state produced by `add_contribution`:
the ledger has unique keys, ledger values are non-negative, and recorded
all-in caps are non-negative. -/
def PotWF (pm : PotManager) : Prop :=
  (pm.contributions.map Prod.fst).Nodup ∧
  (∀ p ∈ pm.contributions, 0 ≤ p.2) ∧
  (∀ p ∈ pm.all_in_amounts, 0 ≤ p.2)

/-- States reachable from a fresh (or just-reset) `PotManager` by
successful `add_contribution` calls. -/
inductive PotReachable : PotManager → Prop
  | empty : PotReachable PotManager.empty
  | step {pm pm' : PotManager} {pid : String} {amount : Int} {flag : Bool} :
      PotReachable pm → pm.add_contribution pid amount flag = .ok pm' → PotReachable pm'

theorem lookup_mem {d : List (String × Int)} {k : String} {v : Int}
    (h : d.lookup k = some v) : (k, v) ∈ d := by
  induction d with
  | nil => simp [List.lookup] at h
  | cons p rest ih =>
    rcases p with ⟨a, b⟩
    rw [List.lookup] at h
    by_cases hk : k = a
    · subst hk
      simp only [beq_self_eq_true] at h
      simp only [Option.some.injEq] at h
      subst h
      exact List.mem_cons_self _ _
    · have hbeq : (k == a) = false := beq_false_of_ne hk
      rw [hbeq] at h
      exact List.mem_cons_of_mem _ (ih h)

theorem dictGet_nonneg {d : List (String × Int)} (h : ∀ p ∈ d, 0 ≤ p.2) (k : String) :
    0 ≤ dictGet d k := by
  unfold dictGet
  cases hl : d.lookup k with
  | none => simp
  | some v => simpa using h _ (lookup_mem hl)

theorem dictGet_of_mem {d : List (String × Int)} {k : String} {v : Int}
    (hnd : (d.map Prod.fst).Nodup) (h : (k, v) ∈ d) : dictGet d k = v := by
  induction d with
  | nil => simp at h
  | cons p rest ih =>
    rcases p with ⟨a, b⟩
    simp only [List.map_cons, List.nodup_cons] at hnd
    rw [List.mem_cons] at h
    rcases h with h | h
    · rw [Prod.mk.injEq] at h
      rw [h.1, h.2]
      simp [dictGet, List.lookup]
    · have hne : k ≠ a := by
        intro he
        exact hnd.1 (he ▸ (List.mem_map.mpr ⟨(k, v), h, rfl⟩))
      have hbeq : (k == a) = false := beq_false_of_ne hne
      rw [dictGet, List.lookup, hbeq]
      exact ih hnd.2 h

theorem dictSet_keys_of_present {d : List (String × Int)} {k : String} (v : Int)
    (h : d.any (fun p => p.1 == k)) :
    (dictSet d k v).map Prod.fst = d.map Prod.fst := by
  unfold dictSet
  rw [if_pos h, List.map_map]
  apply List.map_congr_left
  intro p _
  show (if p.1 == k then (k, v) else p).1 = p.1
  split
  · rename_i hc
    have : p.1 = k := by simpa using hc
    simp [this]
  · rfl

theorem dictSet_keys_nodup {d : List (String × Int)} {k : String} {v : Int}
    (hnd : (d.map Prod.fst).Nodup) : ((dictSet d k v).map Prod.fst).Nodup := by
  by_cases h : d.any (fun p => p.1 == k)
  · rwa [dictSet_keys_of_present v h]
  · unfold dictSet
    rw [if_neg h, List.map_append]
    rw [List.nodup_append]
    refine ⟨hnd, by simp, ?_⟩
    intro x hx
    simp only [List.mem_map] at hx
    obtain ⟨p, hp, hpx⟩ := hx
    simp only [List.any_eq_true, not_exists, not_and] at h
    have := h p hp
    simp only [List.map_cons, List.map_nil, List.mem_singleton]
    intro hxk
    rw [hxk] at hpx
    exact this (by simp [hpx])

theorem dictSet_values {d : List (String × Int)} {k : String} {v : Int}
    (hd : ∀ p ∈ d, 0 ≤ p.2) (hv : 0 ≤ v) :
    ∀ q ∈ dictSet d k v, 0 ≤ q.2 := by
  intro q hq
  unfold dictSet at hq
  by_cases h : d.any (fun p => p.1 == k)
  · rw [if_pos h, List.mem_map] at hq
    obtain ⟨p, hp, hpq⟩ := hq
    split at hpq
    · rw [← hpq]; exact hv
    · rw [← hpq]; exact hd p hp
  · rw [if_neg h, List.mem_append] at hq
    rcases hq with hq | hq
    · exact hd q hq
    · rw [List.mem_singleton] at hq
      rw [hq]; exact hv

/-- `add_contribution` preserves the ledger invariants. -/
theorem add_contribution_WF {pm pm' : PotManager} {pid : String} {amount : Int} {flag : Bool}
    (hwf : PotWF pm) (h : pm.add_contribution pid amount flag = .ok pm') : PotWF pm' := by
  unfold PotManager.add_contribution at h
  by_cases hneg : amount < 0
  · simp [hneg] at h
  · simp only [hneg, if_false, Except.ok.injEq] at h
    obtain ⟨hk, hv, hc⟩ := hwf
    have hamt : 0 ≤ amount := le_of_not_lt hneg
    have hval : 0 ≤ dictGet pm.contributions pid + amount :=
      add_nonneg (dictGet_nonneg hv pid) hamt
    have hv' : ∀ p ∈ dictSet pm.contributions pid (dictGet pm.contributions pid + amount),
        0 ≤ p.2 := dictSet_values hv hval
    refine ⟨?_, ?_, ?_⟩ <;> rw [← h]
    · exact dictSet_keys_nodup hk
    · exact hv'
    · cases flag with
      | false => simpa using hc
      | true =>
        simp only [if_true]
        exact dictSet_values hc (dictGet_nonneg hv' pid)

theorem potReachable_WF {pm : PotManager} (h : PotReachable pm) : PotWF pm := by
  induction h with
  | empty => exact ⟨List.nodup_nil, by simp [PotManager.empty], by simp [PotManager.empty]⟩
  | step _ hstep ih => exact add_contribution_WF ih hstep

/-! ### Behaviour of the side-pot loops -/

theorem sum_map_add_sum_map {α : Type} (l : List α) (f g : α → Int) :
    (l.map f).sum + (l.map g).sum = (l.map (fun x => f x + g x)).sum := by
  induction l with
  | nil => simp
  | cons x xs ih => simp only [List.map_cons, List.sum_cons, ← ih]; ring

/-- A cap at or below the level already collected collects nothing. -/
theorem potForCap_le (active : List String) (cap prev : Int)
    (contributors : List (String × Int)) (taken : String → Int)
    (hcap : cap ≤ prev)
    (htaken : ∀ p ∈ contributors, taken p.1 = min p.2 prev) :
    potForCap active cap contributors taken = (0, [], taken) := by
  induction contributors with
  | nil => rfl
  | cons p rest ih =>
    rcases p with ⟨pid, t⟩
    have ht : taken pid = min t prev := htaken (pid, t) (List.mem_cons_self _ _)
    have hminle : min t cap ≤ min t prev := min_le_min (le_refl t) hcap
    have hnp : ¬ (min t cap - taken pid > 0) := by rw [ht]; omega
    simp only [potForCap, hnp, if_false]
    exact ih (fun q hq => htaken q (List.mem_cons_of_mem _ hq))

/-- One pass of the contributor loop: amount collected, eligibility and
the updated `already_taken` map, given that `taken` records collection up
to level `prev < cap`. -/
theorem potForCap_spec (active : List String) (cap prev : Int)
    (contributors : List (String × Int)) (taken : String → Int)
    (hnodup : (contributors.map Prod.fst).Nodup)
    (hcap : prev < cap)
    (htaken : ∀ p ∈ contributors, taken p.1 = min p.2 prev) :
    (potForCap active cap contributors taken).1 =
      (contributors.map (fun p => min p.2 cap - min p.2 prev)).sum ∧
    (potForCap active cap contributors taken).2.1 =
      (contributors.filter (fun p => decide (prev < p.2) && active.contains p.1)).map Prod.fst ∧
    (∀ p ∈ contributors, (potForCap active cap contributors taken).2.2 p.1 = min p.2 cap) ∧
    (∀ x, x ∉ contributors.map Prod.fst →
      (potForCap active cap contributors taken).2.2 x = taken x) := by
  induction contributors generalizing taken with
  | nil => simp [potForCap]
  | cons p rest ih =>
    rcases p with ⟨pid, t⟩
    simp only [List.map_cons, List.nodup_cons] at hnodup
    have hpid_notin : pid ∉ rest.map Prod.fst := hnodup.1
    have ht : taken pid = min t prev := htaken (pid, t) (List.mem_cons_self _ _)
    have htrest : ∀ q ∈ rest, taken q.1 = min q.2 prev :=
      fun q hq => htaken q (List.mem_cons_of_mem _ hq)
    by_cases hgt : prev < t
    · -- this contributor still owes chips to this layer
      have hmp : min t prev = prev := min_eq_right (le_of_lt hgt)
      have hdelta : 0 < min t cap - taken pid := by
        rw [ht, hmp]
        have := lt_min hgt hcap
        omega
      have htaken' : ∀ q ∈ rest,
          (fun x => if x = pid then taken pid + (min t cap - taken pid) else taken x) q.1 =
            min q.2 prev := by
        intro q hq
        have hq1 : q.1 ∈ rest.map Prod.fst := List.mem_map.mpr ⟨q, hq, rfl⟩
        have : q.1 ≠ pid := fun he => hpid_notin (he ▸ hq1)
        simp only [this, if_false]
        exact htrest q hq
      obtain ⟨ih1, ih2, ih3, ih4⟩ :=
        ih (fun x => if x = pid then taken pid + (min t cap - taken pid) else taken x)
          hnodup.2 htaken'
      simp only [potForCap, if_pos hdelta]
      refine ⟨?_, ?_, ?_, ?_⟩
      · simp only [List.map_cons, List.sum_cons, ih1]
        rw [ht]
      · have hfilter : decide (prev < t) = true := decide_eq_true hgt
        by_cases hact : active.contains pid
        · simp only [List.filter_cons, hfilter, hact, Bool.true_and, if_pos hact,
            List.map_cons, ih2]
          simp [hact]
        · have : active.contains pid = false := Bool.eq_false_iff.mpr hact
          simp only [List.filter_cons, hfilter, this, Bool.true_and, List.map_cons, ih2]
          simp [this]
      · intro q hq
        rw [List.mem_cons] at hq
        rcases hq with hq | hq
        · rw [hq]
          rw [ih4 pid hpid_notin]
          show (if pid = pid then taken pid + (min t cap - taken pid) else taken pid) = min t cap
          rw [if_pos rfl, ht, hmp]
          omega
        · exact ih3 q hq
      · intro x hx
        simp only [List.map_cons, List.mem_cons] at hx
        push_neg at hx
        rw [ih4 x hx.2]
        simp [hx.1]
    · -- already fully collected at this layer
      have hle : t ≤ prev := le_of_not_lt hgt
      have hmp : min t prev = t := min_eq_left hle
      have hmc : min t cap = t := min_eq_left (le_of_lt (lt_of_le_of_lt hle hcap))
      have hnp : ¬ (min t cap - taken pid > 0) := by rw [ht, hmp, hmc]; omega
      obtain ⟨ih1, ih2, ih3, ih4⟩ := ih taken hnodup.2 htrest
      simp only [potForCap, hnp, if_false]
      refine ⟨?_, ?_, ?_, ?_⟩
      · simp only [List.map_cons, List.sum_cons, ih1, hmp, hmc]
        omega
      · have hfilter : decide (prev < t) = false := decide_eq_false hgt
        simp only [List.filter_cons, hfilter, Bool.false_and, ih2]
        simp
      · intro q hq
        rw [List.mem_cons] at hq
        rcases hq with hq | hq
        · rw [hq]
          simp only
          rw [ih4 pid hpid_notin, ht, hmp, hmc]
        · exact ih3 q hq
      · intro x hx
        simp only [List.map_cons, List.mem_cons] at hx
        push_neg at hx
        exact ih4 x hx.2

/-- The main-pot loop: collects everything above level `M` and marks the
active contributors strictly above `M` eligible. -/
theorem mainPot_spec (active : List String) (M : Int)
    (contributors : List (String × Int)) (taken : String → Int)
    (htaken : ∀ p ∈ contributors, taken p.1 = min p.2 M) :
    (mainPot active contributors taken).1 =
      (contributors.map (fun p => p.2 - min p.2 M)).sum ∧
    (mainPot active contributors taken).2 =
      (contributors.filter (fun p => decide (M < p.2) && active.contains p.1)).map Prod.fst := by
  induction contributors with
  | nil => simp [mainPot]
  | cons p rest ih =>
    rcases p with ⟨pid, t⟩
    have ht : taken pid = min t M := htaken (pid, t) (List.mem_cons_self _ _)
    obtain ⟨ih1, ih2⟩ := ih (fun q hq => htaken q (List.mem_cons_of_mem _ hq))
    by_cases hgt : M < t
    · have hmp : min t M = M := min_eq_right (le_of_lt hgt)
      have hpos : t - taken pid > 0 := by rw [ht, hmp]; omega
      simp only [mainPot, if_pos hpos]
      constructor
      · simp only [List.map_cons, List.sum_cons, ih1, ht]
      · have hfilter : decide (M < t) = true := decide_eq_true hgt
        simp only [List.filter_cons, hfilter, Bool.true_and, ih2]
        by_cases hact : pid ∈ active <;> simp [hact]
    · have hle : t ≤ M := le_of_not_lt hgt
      have hmp : min t M = t := min_eq_left hle
      have hnp : ¬ (t - taken pid > 0) := by rw [ht, hmp]; omega
      simp only [mainPot, hnp, if_false]
      constructor
      · simp only [List.map_cons, List.sum_cons, ih1, hmp]
        omega
      · have hfilter : decide (M < t) = false := decide_eq_false hgt
        simp only [List.filter_cons, hfilter, Bool.false_and, ih2]
        simp

/-- `Adjacent l a b`: `a` and `b` occur at consecutive positions of `l`. -/
def Adjacent (l : List Int) (a b : Int) : Prop :=
  ∃ (i : Nat) (h1 : i < l.length) (h2 : i + 1 < l.length),
    l.get ⟨i, h1⟩ = a ∧ l.get ⟨i + 1, h2⟩ = b

theorem Adjacent.cons {l : List Int} {a b x : Int} (h : Adjacent l a b) :
    Adjacent (x :: l) a b := by
  obtain ⟨i, h1, h2, ha, hb⟩ := h
  exact ⟨i + 1, by simpa using h1, by simpa using h2, by simpa using ha, by simpa using hb⟩

theorem Adjacent.head (a b : Int) (l : List Int) : Adjacent (a :: b :: l) a b :=
  ⟨0, by simp, by simp, rfl, rfl⟩

/-- The annotated caps loop: chip amounts telescope between consecutive
cap levels, the final `already_taken` map records collection up to the
largest cap, and each emitted pot's eligible list is exactly the active
contributors strictly above the preceding cap level. -/
theorem runCapsAnn_spec (contributors : List (String × Int)) (active : List String)
    (caps : List Int) (prev : Int) (taken : String → Int)
    (hnodup : (contributors.map Prod.fst).Nodup)
    (hsort : List.Pairwise (· < ·) caps)
    (hge : ∀ c ∈ caps, prev ≤ c)
    (htaken : ∀ p ∈ contributors, taken p.1 = min p.2 prev) :
    (((runCapsAnn contributors active caps taken).1.map (fun q => q.1.amount)).sum =
      (contributors.map (fun p => min p.2 (caps.getLastD prev) - min p.2 prev)).sum) ∧
    (∀ p ∈ contributors,
      (runCapsAnn contributors active caps taken).2 p.1 = min p.2 (caps.getLastD prev)) ∧
    (∀ pot cap, (pot, cap) ∈ (runCapsAnn contributors active caps taken).1 →
      ∃ pcap, Adjacent (prev :: caps) pcap cap ∧ pcap < cap ∧
        pot.eligible_player_ids =
          (contributors.filter (fun p => decide (pcap < p.2) && active.contains p.1)).map
            Prod.fst) := by
  induction caps generalizing prev taken with
  | nil =>
    refine ⟨?_, ?_, ?_⟩
    · simp only [runCapsAnn, List.map_nil, List.sum_nil]
      symm
      apply List.sum_eq_zero
      intro x hx
      rw [List.mem_map] at hx
      obtain ⟨p, hp, hpx⟩ := hx
      rw [← hpx]
      simp [List.getLastD]
    · intro p hp
      simpa [runCapsAnn, List.getLastD] using htaken p hp
    · intro pot cap h
      simp [runCapsAnn] at h
  | cons c rest ih =>
    rw [List.pairwise_cons] at hsort
    by_cases hlt : prev < c
    · obtain ⟨hamt, helig, htk, _⟩ :=
        potForCap_spec active c prev contributors taken hnodup hlt htaken
      obtain ⟨ihA, ihT, ihE⟩ :=
        ih c ((potForCap active c contributors taken).2.2) hsort.2
          (fun c' hc' => le_of_lt (hsort.1 c' hc')) htk
      have hnn : 0 ≤ (potForCap active c contributors taken).1 := by
        rw [hamt]
        apply List.sum_nonneg
        intro x hx
        rw [List.mem_map] at hx
        obtain ⟨p, _, hpx⟩ := hx
        rw [← hpx]
        have : min p.2 prev ≤ min p.2 c := min_le_min (le_refl p.2) (le_of_lt hlt)
        omega
      refine ⟨?_, ?_, ?_⟩
      · simp only [runCapsAnn]
        rw [List.map_append, List.sum_append]
        have hhead : (((if (potForCap active c contributors taken).1 > 0 then
            [(SidePot.mk (potForCap active c contributors taken).1
              (potForCap active c contributors taken).2.1, c)] else []).map
                (fun q => q.1.amount)).sum) = (potForCap active c contributors taken).1 := by
          split
          · simp
          · simp only [List.map_nil, List.sum_nil]
            omega
        rw [hhead, ihA, hamt, sum_map_add_sum_map]
        rw [List.getLastD_cons]
        refine congrArg List.sum (List.map_congr_left ?_)
        intro p _
        omega
      · intro p hp
        simp only [runCapsAnn]
        rw [List.getLastD_cons]
        exact ihT p hp
      · intro pot cap h
        simp only [runCapsAnn] at h
        rw [List.mem_append] at h
        rcases h with h | h
        · split at h
          · rw [List.mem_singleton, Prod.mk.injEq] at h
            obtain ⟨h1, h2⟩ := h
            subst h1
            rw [h2]
            exact ⟨prev, Adjacent.head prev c rest, hlt, helig⟩
          · simp at h
        · obtain ⟨pcap, hadj, hplt, helig'⟩ := ihE pot cap h
          exact ⟨pcap, hadj.cons, hplt, helig'⟩
    · have hceq : c = prev := le_antisymm (le_of_not_lt hlt) (hge c (List.mem_cons_self _ _))
      have hr : potForCap active c contributors taken = (0, [], taken) :=
        potForCap_le active c prev contributors taken (le_of_eq hceq) htaken
      obtain ⟨ihA, ihT, ihE⟩ :=
        ih prev taken hsort.2
          (fun c' hc' => le_of_lt (hceq ▸ hsort.1 c' hc')) htaken
      refine ⟨?_, ?_, ?_⟩
      · simp only [runCapsAnn]
        rw [hr]
        simp only [gt_iff_lt, lt_self_iff_false, if_false, List.nil_append]
        rw [ihA, List.getLastD_cons, hceq]
      · intro p hp
        simp only [runCapsAnn]
        rw [hr, List.getLastD_cons, hceq]
        exact ihT p hp
      · intro pot cap h
        simp only [runCapsAnn] at h
        rw [hr] at h
        simp only [gt_iff_lt, lt_self_iff_false, if_false, List.nil_append] at h
        obtain ⟨pcap, hadj, hplt, helig'⟩ := ihE pot cap h
        refine ⟨pcap, ?_, hplt, helig'⟩
        rw [hceq]
        exact hadj.cons

theorem if_singleton_map_fst (P : Prop) [Decidable P] (s : SidePot) :
    (if P then [s] else []) =
      List.map Prod.fst (if P then [(s, (none : Option Int))] else []) := by
  split <;> simp

theorem runCaps_eq_ann (contributors : List (String × Int)) (active : List String)
    (caps : List Int) (taken : String → Int) :
    (runCaps contributors active caps taken).1 =
      (runCapsAnn contributors active caps taken).1.map Prod.fst ∧
    (runCaps contributors active caps taken).2 =
      (runCapsAnn contributors active caps taken).2 := by
  induction caps generalizing taken with
  | nil => exact ⟨rfl, rfl⟩
  | cons c rest ih =>
    obtain ⟨ih1, ih2⟩ := ih ((potForCap active c contributors taken).2.2)
    simp only [runCaps, runCapsAnn]
    constructor
    · rw [List.map_append, ih1]
      congr 1
      split <;> simp
    · exact ih2

theorem calculate_side_pots_eq_annotated (pm : PotManager)
    (act : Option (List String)) :
    pm.calculate_side_pots act = (pm.calculate_side_pots_annotated act).map Prod.fst := by
  unfold PotManager.calculate_side_pots PotManager.calculate_side_pots_annotated
  by_cases h1 : pm.contributions.isEmpty
  · simp [h1]
  · simp only [h1, Bool.false_eq_true, if_false]
    by_cases h2 : (pm.contributions.filter (fun p => p.2 > 0)).isEmpty
    · simp [h2]
    · simp only [h2, Bool.false_eq_true, if_false]
      obtain ⟨hb1, hb2⟩ := runCaps_eq_ann (pm.contributions.filter (fun p => p.2 > 0))
        (act.getD (pm.contributions.map Prod.fst))
        (sortInts (pm.all_in_amounts.map Prod.snd).dedup) (fun _ => 0)
      rw [hb1, hb2, List.map_append, ← if_singleton_map_fst]
      congr 1
      rw [List.map_map]
      apply List.map_congr_left
      intro p _
      rfl

/-- The cap levels used by `calculate_side_pots`. -/
def capsOf (pm : PotManager) : List Int :=
  sortInts (pm.all_in_amounts.map Prod.snd).dedup

theorem capsOf_sorted (pm : PotManager) : List.Pairwise (· < ·) (capsOf pm) := by
  have hsorted : List.Pairwise (· ≤ ·) (capsOf pm) :=
    List.sorted_insertionSort (· ≤ ·) (pm.all_in_amounts.map Prod.snd).dedup
  have hperm : (capsOf pm).Perm (pm.all_in_amounts.map Prod.snd).dedup :=
    List.perm_insertionSort (· ≤ ·) (pm.all_in_amounts.map Prod.snd).dedup
  have hnodup : (capsOf pm).Nodup :=
    hperm.nodup_iff.mpr (List.nodup_dedup _)
  have := List.Pairwise.and hsorted hnodup
  exact this.imp (fun h => lt_of_le_of_ne h.1 h.2)

theorem capsOf_nonneg (pm : PotManager) (hwf : PotWF pm) :
    ∀ c ∈ capsOf pm, 0 ≤ c := by
  intro c hc
  have hperm : (capsOf pm).Perm (pm.all_in_amounts.map Prod.snd).dedup :=
    List.perm_insertionSort (· ≤ ·) (pm.all_in_amounts.map Prod.snd).dedup
  have : c ∈ (pm.all_in_amounts.map Prod.snd).dedup := hperm.mem_iff.mp hc
  rw [List.mem_dedup, List.mem_map] at this
  obtain ⟨p, hp, hpc⟩ := this
  exact hpc ▸ hwf.2.2 p hp

/-- Membership in the eligible list that the loops produce, rephrased via
`get_contribution`.  Requires the threshold `pcap` to be non-negative. -/
theorem mem_elig_iff (pm : PotManager) (hwf : PotWF pm) (act : List String)
    (pcap : Int) (hpcap : 0 ≤ pcap) (pid : String) :
    (pid ∈ ((pm.contributions.filter (fun p => p.2 > 0)).filter
        (fun p => decide (pcap < p.2) && act.contains p.1)).map Prod.fst) ↔
      (pid ∈ act ∧ pcap < pm.get_contribution pid) := by
  constructor
  · intro h
    rw [List.mem_map] at h
    obtain ⟨p, hp, hppid⟩ := h
    rw [List.mem_filter] at hp
    obtain ⟨hp1, hp2⟩ := hp
    rw [List.mem_filter] at hp1
    simp only [Bool.and_eq_true, decide_eq_true_eq] at hp2
    have hget : pm.get_contribution p.1 = p.2 :=
      dictGet_of_mem hwf.1 (by rw [← Prod.mk.eta (p := p)] at hp1; exact hp1.1)
    subst hppid
    refine ⟨?_, by rw [hget]; exact hp2.1⟩
    have := hp2.2
    simpa using this
  · rintro ⟨hact, hgt⟩
    have hpos : 0 < pm.get_contribution pid := lt_of_le_of_lt hpcap hgt
    unfold PotManager.get_contribution dictGet at hgt hpos
    cases hl : pm.contributions.lookup pid with
    | none => rw [hl] at hpos; simp at hpos
    | some t =>
      rw [hl] at hgt hpos
      simp only [Option.getD_some] at hgt hpos
      have hmem : (pid, t) ∈ pm.contributions := lookup_mem hl
      rw [List.mem_map]
      refine ⟨(pid, t), ?_, rfl⟩
      rw [List.mem_filter, List.mem_filter]
      refine ⟨⟨hmem, by simpa using hpos⟩, ?_⟩
      simp only [Bool.and_eq_true, decide_eq_true_eq]
      exact ⟨hgt, by simpa using hact⟩

theorem sum_filter_pos (d : List (String × Int)) (h : ∀ p ∈ d, 0 ≤ p.2) :
    ((d.filter (fun p => p.2 > 0)).map Prod.snd).sum = (d.map Prod.snd).sum := by
  induction d with
  | nil => rfl
  | cons p rest ih =>
    have hp := h p (List.mem_cons_self _ _)
    have hrest := ih (fun q hq => h q (List.mem_cons_of_mem _ hq))
    by_cases hpos : p.2 > 0
    · simp [List.filter_cons, hpos, hrest]
    · have hz : p.2 = 0 := le_antisymm (le_of_not_lt hpos) hp
      simp [List.filter_cons, hpos, hrest, hz]

/-- The ledger state after Scenario D's three contributions:
p0 all-in for 30, p1 all-in for 80, p2 (active) for 100. -/
def pmD : PotManager :=
  ⟨[("p0", 30), ("p1", 80), ("p2", 100)], [("p0", 30), ("p1", 80)], 210⟩

/-- A reachable ledger on which the literal "eligible iff contribution ≥
cap" reading fails: p0 all-in for 30, p1 all-in for 100, and p2 active
with only 50 contributed (between the two caps). -/
def pmB : PotManager :=
  ⟨[("p0", 30), ("p1", 100), ("p2", 50)], [("p0", 30), ("p1", 100)], 180⟩

theorem pmD_WF : PotWF pmD := ⟨by decide, by decide, by decide⟩

theorem main_if_sum (a : Int) (e : List String) (hnn : 0 ≤ a) :
    ((if a > 0 then [(SidePot.mk a e, (none : Option Int))] else []).map
      (SidePot.amount ∘ Prod.fst)).sum = a := by
  split
  · simp [Function.comp]
  · simp only [List.map_nil, List.sum_nil]
    omega

/-- C4: for every ledger reachable by `add_contribution` calls (captured
by the `PotWF` invariants) and every choice of active set, the pot
amounts returned by `calculate_side_pots` sum to the ledger total. -/
theorem calculate_side_pots_conserves_chips (pm : PotManager) (hwf : PotWF pm)
    (act : Option (List String)) :
    ((pm.calculate_side_pots act).map SidePot.amount).sum =
      (pm.contributions.map Prod.snd).sum := by
  rw [calculate_side_pots_eq_annotated]
  unfold PotManager.calculate_side_pots_annotated
  by_cases h1 : pm.contributions.isEmpty
  · have he : pm.contributions = [] := List.isEmpty_iff.mp h1
    simp [h1, he]
  · simp only [h1, Bool.false_eq_true, if_false]
    by_cases h2 : (pm.contributions.filter (fun p => p.2 > 0)).isEmpty
    · have hz : (pm.contributions.map Prod.snd).sum = 0 := by
        rw [← sum_filter_pos pm.contributions hwf.2.1, List.isEmpty_iff.mp h2]
        rfl
      simp [h2, hz]
    · simp only [h2, Bool.false_eq_true, if_false]
      have hnodup : ((pm.contributions.filter (fun p => p.2 > 0)).map Prod.fst).Nodup :=
        hwf.1.sublist ((List.filter_sublist _).map Prod.fst)
      have hpos : ∀ p ∈ pm.contributions.filter (fun p => p.2 > 0), 0 < p.2 := by
        intro p hp
        rw [List.mem_filter] at hp
        simpa using hp.2
      have htaken : ∀ p ∈ pm.contributions.filter (fun p => p.2 > 0),
          (fun _ => (0 : Int)) p.1 = min p.2 0 := by
        intro p hp
        have := hpos p hp
        simp only
        omega
      obtain ⟨hA, hT, _⟩ := runCapsAnn_spec (pm.contributions.filter (fun p => p.2 > 0))
        (act.getD (pm.contributions.map Prod.fst))
        (sortInts (pm.all_in_amounts.map Prod.snd).dedup) 0 (fun _ => 0)
        hnodup (capsOf_sorted pm) (capsOf_nonneg pm hwf) htaken
      obtain ⟨hm1, _⟩ := mainPot_spec (act.getD (pm.contributions.map Prod.fst))
        ((sortInts (pm.all_in_amounts.map Prod.snd).dedup).getLastD 0)
        (pm.contributions.filter (fun p => p.2 > 0)) _ hT
      have hmain_nn : 0 ≤ (mainPot (act.getD (pm.contributions.map Prod.fst))
          (pm.contributions.filter (fun p => p.2 > 0))
          (runCapsAnn (pm.contributions.filter (fun p => p.2 > 0))
            (act.getD (pm.contributions.map Prod.fst))
            (sortInts (pm.all_in_amounts.map Prod.snd).dedup) (fun _ => 0)).2).1 := by
        rw [hm1]
        apply List.sum_nonneg
        intro x hx
        rw [List.mem_map] at hx
        obtain ⟨p, _, hpx⟩ := hx
        rw [← hpx]
        have := min_le_left p.2
          ((sortInts (pm.all_in_amounts.map Prod.snd).dedup).getLastD 0)
        omega
      rw [List.map_map, List.map_append, List.sum_append, List.map_map]
      have hfun : ((SidePot.amount ∘ Prod.fst) ∘ (fun p : SidePot × Int => (p.1, some p.2)))
          = (fun q : SidePot × Int => q.1.amount) := rfl
      rw [hfun, hA, main_if_sum _ _ hmain_nn, hm1, sum_map_add_sum_map]
      have hpt : ∀ p ∈ pm.contributions.filter (fun p => p.2 > 0),
          min p.2 ((sortInts (pm.all_in_amounts.map Prod.snd).dedup).getLastD 0) - min p.2 0 +
            (p.2 - min p.2 ((sortInts (pm.all_in_amounts.map Prod.snd).dedup).getLastD 0)) =
            p.2 := by
        intro p hp
        have := hpos p hp
        omega
      rw [List.map_congr_left hpt]
      exact sum_filter_pos pm.contributions hwf.2.1

/-- Witness for `calculate_side_pots_conserves_chips` at Scenario D's ledger. -/
theorem calculate_side_pots_conserves_chips_witness :
    ((pmD.calculate_side_pots (some ["p0", "p1", "p2"])).map SidePot.amount).sum =
      (pmD.contributions.map Prod.snd).sum :=
  calculate_side_pots_conserves_chips pmD pmD_WF (some ["p0", "p1", "p2"])

/-- C5: Scenario D from the spec. Building the ledger by the three source
`add_contribution` calls and decomposing gives exactly the three expected
pots, summing to 210. -/
theorem calculate_side_pots_scenario_D :
    ∃ pm1 pm2 pm3 : PotManager,
      PotManager.empty.add_contribution "p0" 30 true = .ok pm1 ∧
      pm1.add_contribution "p1" 80 true = .ok pm2 ∧
      pm2.add_contribution "p2" 100 false = .ok pm3 ∧
      pm3.calculate_side_pots (some ["p0", "p1", "p2"]) =
        [SidePot.mk 90 ["p0", "p1", "p2"], SidePot.mk 100 ["p1", "p2"],
          SidePot.mk 20 ["p2"]] ∧
      ((pm3.calculate_side_pots (some ["p0", "p1", "p2"])).map SidePot.amount).sum = 210 :=
  ⟨⟨[("p0", 30)], [("p0", 30)], 30⟩,
   ⟨[("p0", 30), ("p1", 80)], [("p0", 30), ("p1", 80)], 110⟩,
   pmD, rfl, rfl, rfl, by decide, by decide⟩

/-- C10: a negative amount is rejected by the guard before any mutation;
in this embedding an error therefore carries no successor state and the
caller keeps the unchanged `PotManager`. -/
theorem add_contribution_negative_rejected (pm : PotManager) (pid : String)
    (amount : Int) (flag : Bool) (h : amount < 0) :
    pm.add_contribution pid amount flag = .error "Contribution cannot be negative" := by
  unfold PotManager.add_contribution
  rw [if_pos h]

theorem add_contribution_negative_rejected_witness :
    ((-5 : Int) < 0) ∧
      PotManager.empty.add_contribution "p7" (-5) false =
        .error "Contribution cannot be negative" :=
  ⟨by decide, add_contribution_negative_rejected PotManager.empty "p7" (-5) false (by decide)⟩

/-- C2 counterexample: on the reachable ledger `pmB` (p0 capped at 30, p1 cap
100, p2 active with 50), the cap-100 pot lists p2 as eligible even though
p2's total contribution 50 is strictly below that pot's cap. -/
theorem side_pot_eligibility_cap_counterexample :
    PotReachable pmB ∧
    (SidePot.mk 90 ["p1", "p2"], some (100 : Int)) ∈
      pmB.calculate_side_pots_annotated (some ["p0", "p1", "p2"]) ∧
    "p2" ∈ (SidePot.mk 90 ["p1", "p2"]).eligible_player_ids ∧
    pmB.get_contribution "p2" < 100 := by
  refine ⟨?_, by decide, by decide, by decide⟩
  have h1 : PotManager.empty.add_contribution "p0" 30 true =
      .ok ⟨[("p0", 30)], [("p0", 30)], 30⟩ := rfl
  have h2 : (PotManager.mk [("p0", 30)] [("p0", 30)] 30).add_contribution "p1" 100 true =
      .ok ⟨[("p0", 30), ("p1", 100)], [("p0", 30), ("p1", 100)], 130⟩ := rfl
  have h3 : (PotManager.mk [("p0", 30), ("p1", 100)] [("p0", 30), ("p1", 100)]
      130).add_contribution "p2" 50 false = .ok pmB := rfl
  exact PotReachable.step (PotReachable.step (PotReachable.step PotReachable.empty h1) h2) h3

theorem adjacent_mem_left {l : List Int} {a b : Int} (h : Adjacent l a b) : a ∈ l := by
  obtain ⟨i, h1, _, ha, _⟩ := h
  exact ha ▸ l.get_mem i h1

theorem getLastD_nonneg {l : List Int} (h : ∀ c ∈ l, 0 ≤ c) (d : Int) (hd : 0 ≤ d) :
    0 ≤ l.getLastD d := by
  induction l generalizing d with
  | nil => exact hd
  | cons c cs ih =>
    rw [List.getLastD_cons]
    exact ih (fun x hx => h x (List.mem_cons_of_mem _ hx)) c (h c (List.mem_cons_self _ _))

/-- C2 (amended): in every reachable ledger, a pot's eligible list holds
exactly the active players whose total contribution strictly exceeds the
preceding cap level (the amount already collected per player), rather
than "at least that pot's cap"; in particular, every pot's eligible list
is contained in the active set, so folded seats never appear. -/
theorem side_pot_eligibility_characterization (pm : PotManager) (act : List String)
    (hwf : PotWF pm) :
    ∀ pq ∈ pm.calculate_side_pots_annotated (some act),
      (∀ pid ∈ pq.1.eligible_player_ids, pid ∈ act) ∧
      (∀ cap, pq.2 = some cap →
        ∃ pcap, 0 ≤ pcap ∧ pcap < cap ∧
          Adjacent (0 :: capsOf pm) pcap cap ∧
          ∀ pid, pid ∈ pq.1.eligible_player_ids ↔
            (pid ∈ act ∧ pcap < pm.get_contribution pid)) ∧
      (pq.2 = none →
        ∀ pid, pid ∈ pq.1.eligible_player_ids ↔
          (pid ∈ act ∧ (capsOf pm).getLastD 0 < pm.get_contribution pid)) := by
  intro pq hpq
  unfold PotManager.calculate_side_pots_annotated at hpq
  by_cases h1 : pm.contributions.isEmpty
  · rw [if_pos h1] at hpq
    simp at hpq
  · rw [if_neg h1] at hpq
    by_cases h2 : (pm.contributions.filter (fun p => p.2 > 0)).isEmpty
    · rw [if_pos h2] at hpq
      simp at hpq
    · rw [if_neg h2] at hpq
      have hnodup : ((pm.contributions.filter (fun p => p.2 > 0)).map Prod.fst).Nodup :=
        hwf.1.sublist ((List.filter_sublist _).map Prod.fst)
      have hpos : ∀ p ∈ pm.contributions.filter (fun p => p.2 > 0), 0 < p.2 := by
        intro p hp
        rw [List.mem_filter] at hp
        simpa using hp.2
      have htaken : ∀ p ∈ pm.contributions.filter (fun p => p.2 > 0),
          (fun _ => (0 : Int)) p.1 = min p.2 0 := by
        intro p hp
        have := hpos p hp
        simp only
        omega
      obtain ⟨_, hT, hE⟩ := runCapsAnn_spec (pm.contributions.filter (fun p => p.2 > 0))
        ((some act).getD (pm.contributions.map Prod.fst))
        (sortInts (pm.all_in_amounts.map Prod.snd).dedup) 0 (fun _ => 0)
        hnodup (capsOf_sorted pm) (capsOf_nonneg pm hwf) htaken
      obtain ⟨_, hm2⟩ := mainPot_spec ((some act).getD (pm.contributions.map Prod.fst))
        ((sortInts (pm.all_in_amounts.map Prod.snd).dedup).getLastD 0)
        (pm.contributions.filter (fun p => p.2 > 0)) _ hT
      rw [List.mem_append] at hpq
      rcases hpq with hpq | hpq
      · -- one of the capped pots
        rw [List.mem_map] at hpq
        obtain ⟨q, hq, hqeq⟩ := hpq
        obtain ⟨pcap, hadj, hlt, helig⟩ := hE q.1 q.2 (by rwa [Prod.mk.eta])
        have hpcap0 : 0 ≤ pcap := by
          have hm := adjacent_mem_left hadj
          rw [List.mem_cons] at hm
          rcases hm with hm | hm
          · omega
          · exact capsOf_nonneg pm hwf pcap hm
        subst hqeq
        refine ⟨?_, ?_, ?_⟩
        · intro pid hpid
          simp only [helig] at hpid
          exact ((mem_elig_iff pm hwf act pcap hpcap0 pid).mp hpid).1
        · intro cap hcap
          simp only [Option.some.injEq] at hcap
          refine ⟨pcap, hpcap0, hcap ▸ hlt, hcap ▸ hadj, ?_⟩
          intro pid
          simp only [helig]
          exact mem_elig_iff pm hwf act pcap hpcap0 pid
        · intro hnone
          simp at hnone
      · -- the main pot
        split at hpq
        · rw [List.mem_singleton] at hpq
          subst hpq
          have hL0 : 0 ≤ (sortInts (pm.all_in_amounts.map Prod.snd).dedup).getLastD 0 :=
            getLastD_nonneg (capsOf_nonneg pm hwf) 0 (le_refl 0)
          refine ⟨?_, ?_, ?_⟩
          · intro pid hpid
            simp only [hm2] at hpid
            exact ((mem_elig_iff pm hwf act _ hL0 pid).mp hpid).1
          · intro cap hcap
            simp at hcap
          · intro _ pid
            simp only [hm2]
            exact mem_elig_iff pm hwf act _ hL0 pid
        · simp at hpq

/-- Witness for `side_pot_eligibility_characterization` at Scenario D's
ledger: the first pot's eligible seats are all active. -/
theorem side_pot_eligibility_characterization_witness :
    "p0" ∈ (["p0", "p1", "p2"] : List String) :=
  (side_pot_eligibility_characterization pmD ["p0", "p1", "p2"] pmD_WF
      (SidePot.mk 90 ["p0", "p1", "p2"], some 30) (by decide)).1 "p0" (by decide)

/-! ### `app/core/card.py` -/

/-- A card: rank 2–14 (ace = 14) and suit 0 = clubs, 1 = diamonds,
2 = hearts, 3 = spades. -/
structure PCard where
  rank : Nat
  suit : Nat
deriving DecidableEq, Repr

/-- The suit bit planted in bits 12–15 of the Cactus Kev encoding. -/
def suitBit : Nat → Nat
  | 0 => 0x8000
  | 1 => 0x4000
  | 2 => 0x2000
  | _ => 0x1000

/-- The prime attached to each rank (`_RANK_PRIMES`). -/
def rankPrime : Nat → Nat
  | 2 => 2
  | 3 => 3
  | 4 => 5
  | 5 => 7
  | 6 => 11
  | 7 => 13
  | 8 => 17
  | 9 => 19
  | 10 => 23
  | 11 => 29
  | 12 => 31
  | 13 => 37
  | 14 => 41
  | _ => 1

/-- Rank symbol used by `str(card)`. -/
def rankSym : Nat → String
  | 2 => "2"
  | 3 => "3"
  | 4 => "4"
  | 5 => "5"
  | 6 => "6"
  | 7 => "7"
  | 8 => "8"
  | 9 => "9"
  | 10 => "10"
  | 11 => "J"
  | 12 => "Q"
  | 13 => "K"
  | 14 => "A"
  | _ => ""

/-- Suit symbol used by `str(card)`. -/
def suitSym : Nat → String
  | 0 => "c"
  | 1 => "d"
  | 2 => "h"
  | _ => "s"

/-- `str(card)`: rank symbol followed by suit symbol. -/
def PCard.str (c : PCard) : String :=
  rankSym c.rank ++ suitSym c.suit

/-- `Card.to_int`: the Cactus Kev 32-bit encoding
`rank_bit ||| suit_bit ||| rank_nibble ||| prime`. -/
def PCard.toInt (c : PCard) : Nat :=
  (1 <<< (16 + (c.rank - 2))) ||| suitBit c.suit ||| ((c.rank - 2) <<< 8) ||| rankPrime c.rank

/-- A valid card: rank in 2..14 and suit in 0..3. -/
def PCard.Valid (c : PCard) : Prop :=
  2 ≤ c.rank ∧ c.rank ≤ 14 ∧ c.suit < 4

instance : DecidablePred PCard.Valid := fun c => by
  unfold PCard.Valid
  infer_instance

/-! ### `app/game/game_state.py` -/

inductive GamePhase
  | waiting | starting | preflop | flop | turn | river | showdown | hand_over
deriving DecidableEq, Repr

/-- `GamePhase.value`. -/
def GamePhase.value : GamePhase → String
  | .waiting => "waiting"
  | .starting => "starting"
  | .preflop => "preflop"
  | .flop => "flop"
  | .turn => "turn"
  | .river => "river"
  | .showdown => "showdown"
  | .hand_over => "hand_over"

inductive GameVariant
  | no_limit | fixed_limit
deriving DecidableEq, Repr

/-- `GameVariant.value`. -/
def GameVariant.value : GameVariant → String
  | .no_limit => "no_limit"
  | .fixed_limit => "fixed_limit"

/-- `PlayerState` dataclass. -/
structure PlayerState where
  player_id : String
  name : String
  chips : Int
  hole_cards : List PCard := []
  bet : Int := 0
  total_bet : Int := 0
  is_folded : Bool := false
  is_all_in : Bool := false
  is_sitting_out : Bool := false
  is_bot : Bool := false
  seat : Nat := 0
deriving DecidableEq, Repr

/-- `GameState` dataclass (fields used by the claims; `side_pots`,
`last_aggressor_index` and the buy-in bounds are never read by the
embedded code paths). -/
structure GameState where
  game_id : String
  variant : GameVariant
  small_blind : Int
  big_blind : Int
  max_players : Nat
  phase : GamePhase := .waiting
  players : List PlayerState := []
  community_cards : List PCard := []
  pot : Int := 0
  dealer_index : Int := 0
  current_player_index : Int := 0
  hand_number : Nat := 0
deriving DecidableEq, Repr

/-- `GameState.get_player`: first seat with the given id. -/
def GameState.get_player (s : GameState) (player_id : String) : Option PlayerState :=
  s.players.find? (fun p => p.player_id == player_id)

/-- `GameState.current_player`. -/
def GameState.current_player (s : GameState) : Option PlayerState :=
  if 0 ≤ s.current_player_index then s.players.get? s.current_player_index.toNat
  else none

/-- `GameState.active_players`: not folded and not sitting out. -/
def GameState.active_players (s : GameState) : List PlayerState :=
  s.players.filter (fun p => !p.is_folded && !p.is_sitting_out)

/-- In-place mutation of the seat found by `get_player`, embedded as a
keyed update (seat ids are unique in every reachable game). -/
def GameState.update_player (s : GameState) (player_id : String)
    (f : PlayerState → PlayerState) : GameState :=
  { s with players := s.players.map (fun p => if p.player_id == player_id then f p else p) }

/-! ### `app/game/betting.py` -/

inductive BettingAction
  | fold | check | call | raise_to | all_in
deriving DecidableEq, Repr

inductive BettingResult
  | cont | round_complete | all_folded
deriving DecidableEq, Repr

/-- `ValidActions` dataclass. -/
structure ValidActions where
  can_check : Bool
  call_amount : Int
  min_raise : Int
  max_raise : Int
  can_raise : Bool
  player_stack : Int
deriving DecidableEq, Repr

/-- `BettingRound` state: the game state plus the street-local fields set
in `__init__`. -/
structure BettingRound where
  state : GameState
  phase : GamePhase
  current_index : Int
  num_raises : Nat
  last_raise_size : Int
  current_bet : Int
  players_acted : List String
  last_aggressor : Option String
  fixed_bet : Int
deriving DecidableEq, Repr

/-- `max(..., default=0)` over the street bets. -/
def listMaxD (l : List Int) (d : Int) : Int :=
  match l with
  | [] => d
  | x :: xs => xs.foldl max x

/-- `BettingRound.FLHE_MAX_RAISES`. -/
def BettingRound.FLHE_MAX_RAISES : Nat := 4

/-- `BettingRound.__init__`. -/
def mkBettingRound (state : GameState) (start_player_index : Int) (phase : GamePhase) :
    BettingRound :=
  { state := state
    phase := phase
    current_index := start_player_index
    num_raises := 0
    last_raise_size := state.big_blind
    current_bet := listMaxD (state.players.map (fun p => p.bet)) 0
    players_acted := []
    last_aggressor := none
    fixed_bet :=
      if state.variant = GameVariant.fixed_limit then
        if phase = GamePhase.preflop ∨ phase = GamePhase.flop then state.big_blind
        else state.big_blind * 2
      else 0 }

/-- The body of `get_valid_actions` once the seat has been found. -/
def validActionsFor (br : BettingRound) (player : PlayerState) : ValidActions :=
  let call_amount := min (max 0 (br.current_bet - player.bet)) player.chips
  let can_check := call_amount = 0
  if br.state.variant = GameVariant.no_limit then
    let min_raise_increment := max br.last_raise_size br.state.big_blind
    { can_check := can_check
      call_amount := call_amount
      min_raise := br.current_bet + min_raise_increment
      max_raise := player.chips + player.bet
      can_raise := player.chips > call_amount
      player_stack := player.chips }
  else
    let min_raise_total := br.current_bet + br.fixed_bet
    { can_check := can_check
      call_amount := call_amount
      min_raise := min_raise_total
      max_raise := min_raise_total
      can_raise := br.num_raises < BettingRound.FLHE_MAX_RAISES ∧ player.chips > call_amount
      player_stack := player.chips }

/-- `BettingRound.get_valid_actions`; a missing player raises `ValueError`. -/
def BettingRound.get_valid_actions (br : BettingRound) (player_id : String) :
    Except String ValidActions :=
  match br.state.get_player player_id with
  | none => .error "Player not found"
  | some player => .ok (validActionsFor br player)

/-- `set.add` on the acted set (embedded as a duplicate-free list). -/
def actedAdd (s : List String) (pid : String) : List String :=
  if s.contains pid then s else s ++ [pid]

/-- The scan inside `_advance_current`: up to `fuel` steps of
`idx = (idx + 1) % n`, stopping at the first seat that can still act. -/
def advanceLoop (players : List PlayerState) : Nat → Int → Option Int
  | 0, _ => none
  | fuel + 1, idx =>
    let idx' := (idx + 1) % (players.length : Int)
    match players.get? idx'.toNat with
    | some p =>
      if !p.is_folded && !p.is_all_in && !p.is_sitting_out then some idx'
      else advanceLoop players fuel idx'
    | none => advanceLoop players fuel idx'

/-- `BettingRound._advance_current`. -/
def BettingRound.advance_current (br : BettingRound) : BettingRound :=
  match advanceLoop br.state.players br.state.players.length br.state.current_player_index with
  | some idx => { br with state := { br.state with current_player_index := idx } }
  | none => { br with state := { br.state with current_player_index := -1 } }

/-- `BettingRound._check_round_complete`. -/
def BettingRound.check_round_complete (br : BettingRound) : BettingResult :=
  let active := br.state.players.filter (fun p => !p.is_folded && !p.is_sitting_out)
  if active.length ≤ 1 then BettingResult.all_folded
  else
    let can_act := active.filter (fun p => !p.is_all_in)
    if can_act.length = 0 then BettingResult.round_complete
    else if can_act.all (fun p =>
        br.players_acted.contains p.player_id && !(decide (p.bet < br.current_bet))) then
      BettingResult.round_complete
    else BettingResult.cont

/-- `BettingRound.apply_action`. `raise_amount` is the total bet target. -/
def BettingRound.apply_action (br : BettingRound) (player_id : String)
    (action : BettingAction) (raise_amount : Int := 0) :
    Except String (BettingRound × BettingResult) :=
  match br.state.get_player player_id with
  | none => .error "Player not found"
  | some player =>
    let valid := validActionsFor br player
    let step : Except String BettingRound :=
      match action with
      | .fold =>
        .ok { br with
          state := br.state.update_player player_id (fun p => { p with is_folded := true })
          players_acted := actedAdd br.players_acted player_id }
      | .check =>
        if !valid.can_check then .error "cannot check"
        else .ok { br with players_acted := actedAdd br.players_acted player_id }
      | .call =>
        let amount := valid.call_amount
        let actual_amount := min amount player.chips
        .ok { br with
          state :=
            { br.state.update_player player_id (fun p =>
                let p := { p with
                  chips := p.chips - actual_amount
                  bet := p.bet + actual_amount
                  total_bet := p.total_bet + actual_amount }
                if p.chips = 0 then { p with is_all_in := true } else p) with
              pot := br.state.pot + actual_amount }
          players_acted := actedAdd br.players_acted player_id }
      | .raise_to | .all_in =>
        if !valid.can_raise ∧ action = BettingAction.raise_to then .error "cannot raise"
        else
          let total_bet :=
            if action = BettingAction.all_in then player.chips + player.bet
            else
              let t :=
                if br.state.variant = GameVariant.fixed_limit then br.current_bet + br.fixed_bet
                else raise_amount
              min (max t valid.min_raise) (player.chips + player.bet)
          let raise_increment := total_bet - br.current_bet
          let chips_to_add := min (total_bet - player.bet) player.chips
          let new_bet := player.bet + chips_to_add
          .ok { br with
            state :=
              { br.state.update_player player_id (fun p =>
                  let p := { p with
                    chips := p.chips - chips_to_add
                    bet := p.bet + chips_to_add
                    total_bet := p.total_bet + chips_to_add }
                  if p.chips = 0 then { p with is_all_in := true } else p) with
                pot := br.state.pot + chips_to_add }
            last_raise_size := raise_increment
            current_bet := new_bet
            num_raises := br.num_raises + 1
            last_aggressor := some player_id
            players_acted := [player_id] }
    match step with
    | .error e => .error e
    | .ok br' =>
      let br'' := br'.advance_current
      .ok (br'', br''.check_round_complete)

/-- A no-limit flop state: p1 has already bet 100 this street, p2 has a
50-chip stack and has not yet matched it. -/
def stateAllInShort : GameState :=
  { game_id := "g"
    variant := GameVariant.no_limit
    small_blind := 10
    big_blind := 20
    max_players := 9
    phase := GamePhase.flop
    players := [
      { player_id := "p1", name := "P1", chips := 900, bet := 100 },
      { player_id := "p2", name := "P2", chips := 50, bet := 0 }]
    pot := 100
    dealer_index := 0
    current_player_index := 1 }

/-- The betting round mid-street: p1 has raised to 100 and is the only
seat in the acted set; p2 (chips 50, bet 0) is to act. -/
def brAllInShort : BettingRound :=
  { state := stateAllInShort
    phase := GamePhase.flop
    current_index := 1
    num_raises := 1
    last_raise_size := 100
    current_bet := 100
    players_acted := ["p1"]
    last_aggressor := some "p1"
    fixed_bet := 0 }

/-- C3: the code treats an all-in below the call amount as a raise.  At
the failing input (p2 all-in for 50 against a 100 high bet, so
`seat.chips + seat.bet = 50 ≤ 100`), the stack is committed and the seat
marked all-in as the claim says, but — contrary to the claim — the street
high bet is overwritten down to 50, the raise counter is incremented, and
the acted set is reset to just the actor, reopening the betting to p1. -/
theorem all_in_below_call_reopens_betting :
    ∃ br' res, brAllInShort.apply_action "p2" BettingAction.all_in 0 = .ok (br', res) ∧
      (br'.state.get_player "p2" =
        some { player_id := "p2", name := "P2", chips := 0, bet := 50,
               total_bet := 50, is_all_in := true }) ∧
      br'.current_bet = 50 ∧
      br'.num_raises = brAllInShort.num_raises + 1 ∧
      br'.players_acted = ["p2"] ∧
      br'.last_raise_size = -50 ∧
      res = BettingResult.cont := by
  refine ⟨_, _, rfl, ?_, ?_, ?_, ?_, ?_, ?_⟩ <;> decide

/-- C9: in a fixed-limit round, once four raises have occurred on the
street, `get_valid_actions` reports `can_raise = false` for every seat. -/
theorem flhe_fifth_raise_disallowed (br : BettingRound) (pid : String) (va : ValidActions)
    (hfl : br.state.variant = GameVariant.fixed_limit)
    (hn : BettingRound.FLHE_MAX_RAISES ≤ br.num_raises)
    (h : br.get_valid_actions pid = .ok va) :
    va.can_raise = false := by
  unfold BettingRound.get_valid_actions at h
  cases hp : br.state.get_player pid with
  | none => rw [hp] at h; exact absurd h (by simp)
  | some player =>
    rw [hp] at h
    simp only [Except.ok.injEq] at h
    subst h
    unfold validActionsFor
    rw [hfl]
    have hnl : ¬ (GameVariant.fixed_limit = GameVariant.no_limit) := by decide
    rw [if_neg hnl]
    simp only [decide_eq_false_iff_not]
    rintro ⟨h4, -⟩
    rw [BettingRound.FLHE_MAX_RAISES] at hn h4
    omega

/-- A fixed-limit round that has already seen four raises this street. -/
def brFLCapped : BettingRound :=
  { state :=
    { game_id := "g"
      variant := GameVariant.fixed_limit
      small_blind := 10
      big_blind := 20
      max_players := 9
      phase := GamePhase.flop
      players := [
        { player_id := "p1", name := "P1", chips := 500, bet := 100 },
        { player_id := "p2", name := "P2", chips := 460, bet := 80 }]
      pot := 180
      dealer_index := 0
      current_player_index := 1 }
    phase := GamePhase.flop
    current_index := 1
    num_raises := 4
    last_raise_size := 20
    current_bet := 100
    players_acted := ["p1"]
    last_aggressor := some "p1"
    fixed_bet := 20 }

theorem flhe_fifth_raise_disallowed_witness :
    brFLCapped.get_valid_actions "p2" =
      .ok { can_check := false, call_amount := 20, min_raise := 120, max_raise := 120,
            can_raise := false, player_stack := 460 } ∧
    ({ can_check := false, call_amount := 20, min_raise := 120, max_raise := 120,
       can_raise := false, player_stack := 460 } : ValidActions).can_raise = false :=
  ⟨rfl, flhe_fifth_raise_disallowed brFLCapped "p2" _ rfl (by decide) rfl⟩

/-! ### `app/game/rules.py` -/

/-- `not p.is_sitting_out and p.chips > 0`: the seat counts as active for
dealer/blind rotation. -/
def activeB (p : PlayerState) : Bool :=
  !p.is_sitting_out && p.chips > 0

/-- The scan of `next_active_seat`: try offsets `offset, offset+1, …`
(`fuel` of them), returning the first index whose seat is active. -/
def nasGo (players : List PlayerState) (from_index : Int) : Nat → Nat → Int
  | _, 0 => -1
  | offset, fuel + 1 =>
    let idx := (from_index + (offset : Int)) % (players.length : Int)
    match players.get? idx.toNat with
    | some p => if activeB p then idx else nasGo players from_index (offset + 1) fuel
    | none => nasGo players from_index (offset + 1) fuel

/-- `next_active_seat`: offsets 1 .. n from `from_index`, or −1. -/
def next_active_seat (players : List PlayerState) (from_index : Int) : Int :=
  nasGo players from_index 1 players.length

/-- `get_blind_indices`. -/
def get_blind_indices (s : GameState) : Int × Int :=
  let n_active := (s.players.filter activeB).length
  let sb_index :=
    if n_active = 2 then s.dealer_index
    else next_active_seat s.players s.dealer_index
  (sb_index, next_active_seat s.players sb_index)

/-- Whether the seat at cyclic offset `off` from `from_index` is active. -/
def activeAtB (players : List PlayerState) (from_index : Int) (off : Nat) : Bool :=
  match players.get? (((from_index + (off : Int)) % (players.length : Int)).toNat) with
  | some p => activeB p
  | none => false

/-- `idx` is the first active seat strictly after `from_index`
(cyclically): witnessed by the minimal positive offset. -/
def NextActiveFrom (players : List PlayerState) (from_index idx : Int) : Prop :=
  ∃ off : Nat, 1 ≤ off ∧ off ≤ players.length ∧
    idx = (from_index + (off : Int)) % (players.length : Int) ∧
    activeAtB players from_index off = true ∧
    ∀ off' : Nat, 1 ≤ off' → off' < off → activeAtB players from_index off' = false

theorem nasGo_succ (players : List PlayerState) (from_index : Int) (offset fuel : Nat) :
    nasGo players from_index offset (fuel + 1) =
      match players.get? (((from_index + (offset : Int)) % (players.length : Int)).toNat) with
      | some p =>
        if activeB p then (from_index + (offset : Int)) % (players.length : Int)
        else nasGo players from_index (offset + 1) fuel
      | none => nasGo players from_index (offset + 1) fuel := rfl

theorem nasGo_found (players : List PlayerState) (from_index : Int) :
    ∀ (fuel offset k : Nat), k < fuel →
      activeAtB players from_index (offset + k) = true →
      (∀ j : Nat, j < k → activeAtB players from_index (offset + j) = false) →
      nasGo players from_index offset fuel =
        (from_index + ((offset + k : Nat) : Int)) % (players.length : Int) := by
  intro fuel
  induction fuel with
  | zero => intro offset k hk; omega
  | succ fuel ih =>
    intro offset k hk hact hmin
    by_cases hk0 : k = 0
    · subst hk0
      rw [Nat.add_zero] at hact
      unfold activeAtB at hact
      rw [nasGo_succ]
      cases hg : players.get? (((from_index + (offset : Int)) % (players.length : Int)).toNat) with
      | none => rw [hg] at hact; exact absurd hact (by simp)
      | some p =>
        rw [hg] at hact
        simp only [hg]
        rw [if_pos hact]
        norm_num
    · have hhead : activeAtB players from_index offset = false := by
        have := hmin 0 (by omega)
        simpa using this
      have hstep : nasGo players from_index offset (fuel + 1) =
          nasGo players from_index (offset + 1) fuel := by
        unfold activeAtB at hhead
        rw [nasGo_succ]
        cases hg : players.get?
            (((from_index + (offset : Int)) % (players.length : Int)).toNat) with
        | none => simp only [hg]
        | some p =>
          rw [hg] at hhead
          simp only [hg]
          have hb : activeB p = false := by simpa using hhead
          rw [if_neg (by simp [hb])]
      rw [hstep]
      have hk' : k - 1 < fuel := by omega
      have hact' : activeAtB players from_index ((offset + 1) + (k - 1)) = true := by
        have : (offset + 1) + (k - 1) = offset + k := by omega
        rw [this]
        exact hact
      have hmin' : ∀ j : Nat, j < k - 1 →
          activeAtB players from_index ((offset + 1) + j) = false := by
        intro j hj
        have : (offset + 1) + j = offset + (j + 1) := by omega
        rw [this]
        exact hmin (j + 1) (by omega)
      have := ih (offset + 1) (k - 1) hk' hact' hmin'
      rw [this]
      congr 2
      omega

theorem int_add_emod_emod (a b n : Int) : (a + b % n) % n = (a + b) % n := by
  rw [Int.add_emod, Int.emod_emod_of_dvd b dvd_rfl, ← Int.add_emod]

/-- If some seat is active, there is a positive offset at most `n` whose
cyclic position from `from_index` is active. -/
theorem exists_active_offset (players : List PlayerState) (from_index : Int)
    (hex : ∃ p ∈ players, activeB p = true) :
    ∃ off : Nat, 1 ≤ off ∧ off ≤ players.length ∧
      activeAtB players from_index off = true := by
  obtain ⟨p, hp, hact⟩ := hex
  obtain ⟨i, hi, hgi⟩ := List.getElem_of_mem hp
  have hn : 0 < players.length := by omega
  set n : Int := (players.length : Int) with hndef
  have hnpos : (0 : Int) < n := by rw [hndef]; exact_mod_cast hn
  set off0 : Int := ((i : Int) - from_index) % n with hoff0
  have hoff0_nonneg : 0 ≤ off0 := Int.emod_nonneg _ (by omega)
  have hoff0_lt : off0 < n := Int.emod_lt_of_pos _ hnpos
  have key : ∀ off : Int, off % n = off0 → (from_index + off) % n = (i : Int) := by
    intro off hoffmod
    have h1 : (from_index + off) % n = (from_index + off % n) % n := by
      rw [int_add_emod_emod]
    rw [h1, hoffmod, hoff0, int_add_emod_emod]
    have : from_index + ((i : Int) - from_index) = (i : Int) := by ring
    rw [this]
    exact Int.emod_eq_of_lt (by omega) (by rw [hndef]; exact_mod_cast hi)
  by_cases hz : off0 = 0
  · -- the active seat is `from_index` itself; offset n wraps to it
    refine ⟨players.length, by omega, le_refl _, ?_⟩
    have hmod : (n : Int) % n = off0 := by rw [hz]; exact Int.emod_self
    have := key n hmod
    unfold activeAtB
    rw [hndef] at this
    rw [this]
    have : ((i : Int)).toNat = i := Int.toNat_natCast i
    rw [this]
    rw [List.get?_eq_getElem?, List.getElem?_eq_getElem hi]
    simpa [hgi] using hact
  · refine ⟨off0.toNat, by omega, by omega, ?_⟩
    have hmod : ((off0.toNat : Nat) : Int) % n = off0 := by
      rw [Int.toNat_of_nonneg hoff0_nonneg]
      exact Int.emod_eq_of_lt hoff0_nonneg hoff0_lt
    have := key _ hmod
    unfold activeAtB
    rw [hndef] at this
    rw [this]
    have : ((i : Int)).toNat = i := Int.toNat_natCast i
    rw [this]
    rw [List.get?_eq_getElem?, List.getElem?_eq_getElem hi]
    simpa [hgi] using hact

/-- `next_active_seat` returns the first active seat clockwise from
`from_index`, whenever any active seat exists. -/
theorem next_active_seat_spec (players : List PlayerState) (from_index : Int)
    (hex : ∃ p ∈ players, activeB p = true) :
    NextActiveFrom players from_index (next_active_seat players from_index) := by
  obtain ⟨off1, hoff1_ge, hoff1_le, hoff1_act⟩ := exists_active_offset players from_index hex
  have hφ : ∃ off : Nat, 1 ≤ off ∧ off ≤ players.length ∧
      activeAtB players from_index off = true := ⟨off1, hoff1_ge, hoff1_le, hoff1_act⟩
  classical
  let offStar := Nat.find hφ
  obtain ⟨hs1, hs2, hs3⟩ := Nat.find_spec hφ
  have hmin : ∀ off' : Nat, 1 ≤ off' → off' < offStar →
      activeAtB players from_index off' = false := by
    intro off' h1 h2
    by_contra hne
    have hact' : activeAtB players from_index off' = true := by
      cases h : activeAtB players from_index off' with
      | false => exact absurd h hne
      | true => rfl
    exact Nat.find_min hφ h2 ⟨h1, by omega, hact'⟩
  have hrun : next_active_seat players from_index =
      (from_index + ((1 + (offStar - 1) : Nat) : Int)) % (players.length : Int) := by
    unfold next_active_seat
    apply nasGo_found players from_index players.length 1 (offStar - 1) (by omega)
    · have : 1 + (offStar - 1) = offStar := by omega
      rw [this]
      exact hs3
    · intro j hj
      exact hmin (1 + j) (by omega) (by omega)
  refine ⟨offStar, hs1, hs2, ?_, hs3, hmin⟩
  rw [hrun]
  congr 2
  omega

/-- C8: with exactly two active seats `get_blind_indices` gives the
dealer's seat as small blind and the first active seat after the dealer
as big blind; with three or more active seats it gives the first active
seat after the dealer as small blind and the first active seat after the
small blind as big blind. -/
theorem get_blind_indices_spec (s : GameState) :
    ((s.players.filter activeB).length = 2 →
      (get_blind_indices s).1 = s.dealer_index ∧
      NextActiveFrom s.players s.dealer_index (get_blind_indices s).2) ∧
    (3 ≤ (s.players.filter activeB).length →
      NextActiveFrom s.players s.dealer_index (get_blind_indices s).1 ∧
      NextActiveFrom s.players (get_blind_indices s).1 (get_blind_indices s).2) := by
  have hex_of : ∀ k, 0 < k → (s.players.filter activeB).length = k →
      ∃ p ∈ s.players, activeB p = true := by
    intro k hk hlen
    have : s.players.filter activeB ≠ [] := by
      intro h
      rw [h] at hlen
      simp at hlen
      omega
    obtain ⟨p, hp⟩ := List.exists_mem_of_ne_nil _ this
    rw [List.mem_filter] at hp
    exact ⟨p, hp.1, hp.2⟩
  constructor
  · intro h2
    have hsb : (get_blind_indices s).1 = s.dealer_index := by
      simp only [get_blind_indices]
      rw [if_pos h2]
    refine ⟨hsb, ?_⟩
    have hex : ∃ p ∈ s.players, activeB p = true := hex_of 2 (by omega) h2
    have hbb : (get_blind_indices s).2 = next_active_seat s.players s.dealer_index := by
      simp only [get_blind_indices]
      rw [if_pos h2]
    rw [hbb]
    exact next_active_seat_spec s.players s.dealer_index hex
  · intro h3
    have hne : ¬ ((s.players.filter activeB).length = 2) := by omega
    have hex : ∃ p ∈ s.players, activeB p = true := by
      apply hex_of (s.players.filter activeB).length (by omega) rfl
    have hsb : (get_blind_indices s).1 = next_active_seat s.players s.dealer_index := by
      simp only [get_blind_indices]
      rw [if_neg hne]
    have hbb : (get_blind_indices s).2 =
        next_active_seat s.players (get_blind_indices s).1 := by
      simp only [get_blind_indices]
    constructor
    · rw [hsb]
      exact next_active_seat_spec s.players s.dealer_index hex
    · rw [hbb]
      exact next_active_seat_spec s.players (get_blind_indices s).1 hex

/-- A three-handed state, everyone active, dealer at seat 0. -/
def sRules : GameState :=
  { game_id := "g"
    variant := GameVariant.no_limit
    small_blind := 10
    big_blind := 20
    max_players := 9
    players := [
      { player_id := "p0", name := "P0", chips := 1000 },
      { player_id := "p1", name := "P1", chips := 1000 },
      { player_id := "p2", name := "P2", chips := 1000 }]
    dealer_index := 0 }

theorem get_blind_indices_spec_witness :
    3 ≤ (sRules.players.filter activeB).length ∧
    NextActiveFrom sRules.players sRules.dealer_index (get_blind_indices sRules).1 :=
  ⟨by decide, ((get_blind_indices_spec sRules).2 (by decide)).1⟩

/-! ### `PokerGame._state_payload_factory` (`app/game/game.py`) -/

/-- One entry of the `players` array in a `game_state` payload. -/
structure PlayerPayload where
  player_id : String
  name : String
  chips : Int
  bet : Int
  total_bet : Int
  is_folded : Bool
  is_all_in : Bool
  is_bot : Bool
  seat : Nat
  is_active : Bool
  hole_cards : List String
deriving DecidableEq, Repr

/-- The full `game_state` payload. -/
structure StatePayload where
  game_id : String
  phase : String
  variant : String
  players : List PlayerPayload
  community_cards : List String
  pot : Int
  hand_number : Nat
  dealer_index : Int
  current_player_index : Int
  small_blind : Int
  big_blind : Int
deriving DecidableEq, Repr

/-- The per-seat dict built in the loop of `_state_payload_factory`:
hole cards are revealed only when the seat belongs to the recipient,
otherwise one `"??"` token is emitted per held card. -/
def payloadOfSeat (state : GameState) (player_id : String) (p : PlayerState) : PlayerPayload :=
  { player_id := p.player_id
    name := p.name
    chips := p.chips
    bet := p.bet
    total_bet := p.total_bet
    is_folded := p.is_folded
    is_all_in := p.is_all_in
    is_bot := p.is_bot
    seat := p.seat
    is_active :=
      match state.current_player with
      | some cp => p.player_id == cp.player_id
      | none => false
    hole_cards :=
      if p.player_id = player_id then p.hole_cards.map PCard.str
      else p.hole_cards.map (fun _ => "??") }

/-- `PokerGame._state_payload_factory` (also used verbatim for the
`hand_starting` and `hand_over` events and for mid-hand snapshots). -/
def state_payload_factory (state : GameState) (player_id : String) : StatePayload :=
  { game_id := state.game_id
    phase := state.phase.value
    variant := state.variant.value
    players := state.players.map (payloadOfSeat state player_id)
    community_cards := state.community_cards.map PCard.str
    pot := state.pot
    hand_number := state.hand_number
    dealer_index := state.dealer_index
    current_player_index := state.current_player_index
    small_blind := state.small_blind
    big_blind := state.big_blind }

/-- Two seats that agree on everything a recipient `pid` may see: all
fields except that hole cards of seats other than `pid`'s may differ as
long as their count agrees. -/
def SeatAgrees (pid : String) (p q : PlayerState) : Prop :=
  p.player_id = q.player_id ∧ p.name = q.name ∧ p.chips = q.chips ∧ p.bet = q.bet ∧
  p.total_bet = q.total_bet ∧ p.is_folded = q.is_folded ∧ p.is_all_in = q.is_all_in ∧
  p.is_sitting_out = q.is_sitting_out ∧ p.is_bot = q.is_bot ∧ p.seat = q.seat ∧
  p.hole_cards.length = q.hole_cards.length ∧
  (p.player_id = pid → p.hole_cards = q.hole_cards)

/-- Two game states that agree on everything a recipient `pid` may see. -/
def SameExceptOtherHoles (pid : String) (s1 s2 : GameState) : Prop :=
  s1.game_id = s2.game_id ∧ s1.variant = s2.variant ∧ s1.small_blind = s2.small_blind ∧
  s1.big_blind = s2.big_blind ∧ s1.max_players = s2.max_players ∧ s1.phase = s2.phase ∧
  s1.community_cards = s2.community_cards ∧ s1.pot = s2.pot ∧
  s1.dealer_index = s2.dealer_index ∧ s1.current_player_index = s2.current_player_index ∧
  s1.hand_number = s2.hand_number ∧
  List.Forall₂ (SeatAgrees pid) s1.players s2.players

theorem payloadOfSeat_congr {pid : String} {s1 s2 : GameState}
    (hcpid : s1.current_player.map PlayerState.player_id =
      s2.current_player.map PlayerState.player_id)
    {p q : PlayerState} (hr : SeatAgrees pid p q) :
    payloadOfSeat s1 pid p = payloadOfSeat s2 pid q := by
  obtain ⟨e1, e2, e3, e4, e5, e6, e7, e8, e9, e10, e11, e12⟩ := hr
  unfold payloadOfSeat
  simp only [PlayerPayload.mk.injEq]
  refine ⟨e1, e2, e3, e4, e5, e6, e7, e9, e10, ?_, ?_⟩
  · rw [e1]
    cases hc1 : s1.current_player with
    | none =>
      cases hc2 : s2.current_player with
      | none => rfl
      | some cp2 =>
        rw [hc1, hc2] at hcpid
        simp at hcpid
    | some cp1 =>
      cases hc2 : s2.current_player with
      | none =>
        rw [hc1, hc2] at hcpid
        simp at hcpid
      | some cp2 =>
        rw [hc1, hc2] at hcpid
        simp only [Option.map_some', Option.some.injEq] at hcpid
        show (q.player_id == cp1.player_id) = (q.player_id == cp2.player_id)
        rw [hcpid]
  · by_cases hown : p.player_id = pid
    · have hown2 : q.player_id = pid := e1 ▸ hown
      rw [if_pos hown, if_pos hown2, e12 hown]
    · have hown2 : ¬ q.player_id = pid := fun h => hown (e1 ▸ h)
      rw [if_neg hown, if_neg hown2]
      have hl : ∀ (l : List PCard), l.map (fun _ => "??") = List.replicate l.length "??" := by
        intro l
        induction l with
        | nil => rfl
        | cons c cs ih => rw [List.map_cons, ih, List.length_cons, List.replicate_succ]
      rw [hl, hl, e11]

theorem map_payload_congr {pid : String} {s1 s2 : GameState}
    (hcpid : s1.current_player.map PlayerState.player_id =
      s2.current_player.map PlayerState.player_id) :
    ∀ {l1 l2 : List PlayerState}, List.Forall₂ (SeatAgrees pid) l1 l2 →
      l1.map (payloadOfSeat s1 pid) = l2.map (payloadOfSeat s2 pid) := by
  intro l1 l2 h
  induction h with
  | nil => rfl
  | cons hr _ ih =>
    simp only [List.map_cons, List.cons.injEq]
    exact ⟨payloadOfSeat_congr hcpid hr, ih⟩

theorem forall₂_get?_rel {α β : Type} {R : α → β → Prop} {l1 : List α} {l2 : List β}
    (h : List.Forall₂ R l1 l2) (i : Nat) :
    (l1.get? i = none ∧ l2.get? i = none) ∨
    (∃ a b, l1.get? i = some a ∧ l2.get? i = some b ∧ R a b) := by
  induction h generalizing i with
  | nil => left; simp
  | cons hr _ ih =>
    cases i with
    | zero => right; exact ⟨_, _, rfl, rfl, hr⟩
    | succ i => simpa using ih i

/-- C7: the payload a recipient receives masks every other seat's hole
cards as one `"??"` per held card (actual card strings appear only for
the recipient's own seat), and the payload is identical across any two
states that differ only in other seats' hole-card identities — so it
carries no information about opponents' cards, in every phase including
SHOWDOWN. -/
theorem state_payload_redaction (pid : String) :
    (∀ (s : GameState), ∀ p ∈ s.players, p.player_id ≠ pid →
      (payloadOfSeat s pid p).hole_cards = List.replicate p.hole_cards.length "??") ∧
    (∀ (s : GameState), ∀ p ∈ s.players, p.player_id = pid →
      (payloadOfSeat s pid p).hole_cards = p.hole_cards.map PCard.str) ∧
    (∀ (s : GameState),
      (state_payload_factory s pid).players = s.players.map (payloadOfSeat s pid)) ∧
    (∀ (s1 s2 : GameState), SameExceptOtherHoles pid s1 s2 →
      state_payload_factory s1 pid = state_payload_factory s2 pid) := by
  refine ⟨?_, ?_, fun _ => rfl, ?_⟩
  · intro s p _ hne
    show (if p.player_id = pid then p.hole_cards.map PCard.str
        else p.hole_cards.map (fun _ => "??")) = List.replicate p.hole_cards.length "??"
    rw [if_neg hne]
    induction p.hole_cards with
    | nil => rfl
    | cons c cs ih => rw [List.map_cons, ih, List.length_cons, List.replicate_succ]
  · intro s p _ heq
    show (if p.player_id = pid then p.hole_cards.map PCard.str
        else p.hole_cards.map (fun _ => "??")) = p.hole_cards.map PCard.str
    rw [if_pos heq]
  · intro s1 s2 h
    obtain ⟨h1, h2, h3, h4, h5, h6, h7, h8, h9, h10, h11, hps⟩ := h
    have hcpid : (s1.current_player.map PlayerState.player_id) =
        (s2.current_player.map PlayerState.player_id) := by
      unfold GameState.current_player
      rw [h10]
      split
      · rcases forall₂_get?_rel hps s2.current_player_index.toNat with
          ⟨ha, hb⟩ | ⟨a, b, ha, hb, hr⟩
        · rw [ha, hb]
        · rw [ha, hb]
          simp only [Option.map_some']
          rw [hr.1]
      · rfl
    unfold state_payload_factory
    simp only [StatePayload.mk.injEq]
    exact ⟨h1, by rw [h6], by rw [h2], map_payload_congr hcpid hps, by rw [h7], h8, h11,
      h9, h10, h3, h4⟩

/-- A seat whose hole cards must be masked for other recipients. -/
def seatMasked : PlayerState :=
  { player_id := "p1", name := "B", chips := 100, hole_cards := [⟨14, 0⟩, ⟨13, 1⟩] }

/-- A showdown-phase state with two dealt seats. -/
def sMask : GameState :=
  { game_id := "g"
    variant := GameVariant.no_limit
    small_blind := 1
    big_blind := 2
    max_players := 9
    phase := GamePhase.showdown
    players := [
      { player_id := "p0", name := "A", chips := 100, hole_cards := [⟨2, 0⟩, ⟨3, 0⟩] },
      seatMasked] }

theorem state_payload_redaction_witness :
    (payloadOfSeat sMask "p0" seatMasked).hole_cards =
      List.replicate seatMasked.hole_cards.length "??" :=
  (state_payload_redaction "p0").1 sMask seatMasked (by decide) (by decide)

/-! ### `PokerGame._run_showdown` award loop (`app/game/game.py`) -/

/-- `min(...)` over a non-empty list (the generator `min(scores[p] for p
in eligible)`); 0 for an empty list, which the caller never passes. -/
def listMinD (l : List Int) : Int :=
  match l with
  | [] => 0
  | x :: xs => xs.foldl min x

/-- The even split of one pot among its winners (`share` to everyone,
plus the integer `remainder` to the first listed winner).  Python's `//`
and `%` agree with `Int.ediv`/`Int.emod` for the positive divisors used
here. -/
def awardSplit (amount : Int) (pot_winners : List PlayerState) : List (String × Int) :=
  pot_winners.enum.map (fun iq =>
    (iq.2.player_id, amount / (pot_winners.length : Int) +
      if iq.1 = 0 then amount % (pot_winners.length : Int) else 0))

/-- The eligible seats tied at the minimum (best) score. -/
def potWinners (scores : String → Int) (eligible : List PlayerState) : List PlayerState :=
  eligible.filter (fun p => scores p.player_id = listMinD (eligible.map (fun p => scores p.player_id)))

/-- The body of the `for pot in side_pots` loop of `_run_showdown`:
eligibility is recomputed from `active`, a pot with no eligible seat is
skipped (`continue`), otherwise its amount is split among the seats tied
at the best (minimum) score. -/
def potAwards (active : List PlayerState) (scores : String → Int) (pot : SidePot) :
    List (String × Int) :=
  if (active.filter (fun p => pot.eligible_player_ids.contains p.player_id)).isEmpty then []
  else awardSplit pot.amount
    (potWinners scores (active.filter (fun p => pot.eligible_player_ids.contains p.player_id)))

/-- All awards of `_run_showdown`'s loop over the side pots. -/
def showdownAwards (pots : List SidePot) (active : List PlayerState)
    (scores : String → Int) : List (String × Int) :=
  pots.flatMap (potAwards active scores)

theorem listMinD_mem (l : List Int) (h : l ≠ []) : listMinD l ∈ l := by
  match l with
  | x :: xs =>
    show xs.foldl min x ∈ x :: xs
    clear h
    induction xs generalizing x with
    | nil => simp [List.foldl]
    | cons y ys ih =>
      rw [List.foldl_cons]
      have hm := ih (min x y)
      rw [List.mem_cons] at hm
      rcases hm with hm | hm
      · rw [hm]
        rcases le_total x y with hxy | hxy
        · rw [min_eq_left hxy]
          exact List.mem_cons_self _ _
        · rw [min_eq_right hxy]
          exact List.mem_cons_of_mem _ (List.mem_cons_self _ _)
      · exact List.mem_cons_of_mem _ (List.mem_cons_of_mem _ hm)

theorem enumFrom_awards_sum (share remainder : Int) :
    ∀ (ws : List PlayerState) (k : Nat),
      (((List.enumFrom (k + 1) ws).map (fun iq =>
        (iq.2.player_id, share + if iq.1 = 0 then remainder else 0))).map Prod.snd).sum =
        (ws.length : Int) * share := by
  intro ws
  induction ws with
  | nil => intro k; simp
  | cons w ws ih =>
    intro k
    simp only [List.enumFrom, List.map_cons, List.sum_cons]
    rw [ih (k + 1)]
    have : ¬ (k + 1 = 0) := by omega
    rw [if_neg this]
    simp only [List.length_cons]
    push_cast
    ring

theorem awardSplit_sum (amount : Int) (ws : List PlayerState) (h : ws ≠ []) :
    ((awardSplit amount ws).map Prod.snd).sum = amount := by
  match ws with
  | w :: ws' =>
    unfold awardSplit
    rw [List.enum_cons]
    simp only [List.map_cons, List.sum_cons, if_pos rfl]
    rw [enumFrom_awards_sum _ _ ws' 0]
    simp only [List.length_cons]
    have hdm := Int.ediv_add_emod amount ((ws'.length : Int) + 1)
    push_cast
    ring_nf
    ring_nf at hdm
    linarith

theorem potWinners_ne (scores : String → Int) (eligible : List PlayerState)
    (h : eligible ≠ []) : potWinners scores eligible ≠ [] := by
  have hmem : listMinD (eligible.map (fun p => scores p.player_id)) ∈
      eligible.map (fun p => scores p.player_id) := by
    apply listMinD_mem
    intro hx
    rw [List.map_eq_nil_iff] at hx
    exact h hx
  rw [List.mem_map] at hmem
  obtain ⟨p, hp, hps⟩ := hmem
  intro hx
  have : p ∈ potWinners scores eligible := by
    unfold potWinners
    rw [List.mem_filter]
    exact ⟨hp, by simp [hps]⟩
  rw [hx] at this
  simp at this

/-- Each pot with an eligible seat pays out exactly its amount. -/
theorem potAwards_sum (active : List PlayerState) (scores : String → Int) (pot : SidePot)
    (hne : ¬ (active.filter
      (fun p => pot.eligible_player_ids.contains p.player_id)).isEmpty) :
    ((potAwards active scores pot).map Prod.snd).sum = pot.amount := by
  unfold potAwards
  rw [if_neg hne]
  apply awardSplit_sum
  apply potWinners_ne
  intro h
  rw [h] at hne
  exact hne rfl

/-- C6 (amended): the showdown loop fully distributes every pot that has
at least one eligible active seat, and silently skips (does not
distribute) pots whose eligible set is disjoint from the active seats;
the total award equals the sum of the amounts of the non-skipped pots. -/
theorem showdown_awards_total (pots : List SidePot) (active : List PlayerState)
    (scores : String → Int) :
    ((showdownAwards pots active scores).map Prod.snd).sum =
      ((pots.filter (fun pot => !(active.filter
        (fun p => pot.eligible_player_ids.contains p.player_id)).isEmpty)).map
          SidePot.amount).sum := by
  induction pots with
  | nil => rfl
  | cons pot rest ih =>
    unfold showdownAwards at ih ⊢
    rw [List.flatMap_cons, List.map_append, List.sum_append, ih, List.filter_cons]
    by_cases hne : (active.filter
        (fun p => pot.eligible_player_ids.contains p.player_id)).isEmpty
    · have h1 : potAwards active scores pot = [] := by
        unfold potAwards
        rw [if_pos hne]
      rw [h1]
      simp only [hne, Bool.not_true, List.sum_nil, List.map_nil, List.nil_append]
      rw [if_neg (by simp)]
      simp
    · have hb : (active.filter
          (fun p => pot.eligible_player_ids.contains p.player_id)).isEmpty = false := by
        cases h : (active.filter
            (fun p => pot.eligible_player_ids.contains p.player_id)).isEmpty with
        | false => rfl
        | true => exact absurd h hne
      rw [potAwards_sum active scores pot hne]
      simp only [hb, Bool.not_false]
      rw [if_pos (by simp)]
      simp

/-- A reachable ledger with an undistributable main pot: p0 contributed
50 and then folded, p1 is all-in for 30, p2 called 30.  The 20 chips p0
put in above everyone's 30 sit in a pot whose eligible set is empty. -/
def pmS : PotManager :=
  ⟨[("p0", 50), ("p1", 30), ("p2", 30)], [("p1", 30)], 110⟩

/-- The active (non-folded) seats of that hand at showdown. -/
def seatsS : List PlayerState :=
  [{ player_id := "p1", name := "P1", chips := 0, is_all_in := true },
   { player_id := "p2", name := "P2", chips := 940 }]

/-- C6 counterexample: at this showdown the loop awards only 90 of the
110 chips in the pots — the 20-chip pot has no eligible seat and is
skipped, so the total awarded differs from the side-pot (and ledger)
total and those chips vanish. -/
theorem showdown_unclaimed_pot_counterexample :
    PotReachable pmS ∧
    pmS.calculate_side_pots (some ["p1", "p2"]) =
      [SidePot.mk 90 ["p1", "p2"], SidePot.mk 20 []] ∧
    ((showdownAwards (pmS.calculate_side_pots (some ["p1", "p2"])) seatsS
      (fun _ => 1)).map Prod.snd).sum = 90 ∧
    ((pmS.calculate_side_pots (some ["p1", "p2"])).map SidePot.amount).sum = 110 ∧
    (pmS.contributions.map Prod.snd).sum = 110 ∧
    (90 : Int) ≠ 110 := by
  refine ⟨?_, by decide, by decide, by decide, by decide, by decide⟩
  have h1 : PotManager.empty.add_contribution "p0" 50 false =
      .ok ⟨[("p0", 50)], [], 50⟩ := rfl
  have h2 : (PotManager.mk [("p0", 50)] [] 50).add_contribution "p1" 30 true =
      .ok ⟨[("p0", 50), ("p1", 30)], [("p1", 30)], 80⟩ := rfl
  have h3 : (PotManager.mk [("p0", 50), ("p1", 30)] [("p1", 30)] 80).add_contribution
      "p2" 30 false = .ok pmS := rfl
  exact PotReachable.step (PotReachable.step (PotReachable.step PotReachable.empty h1) h2) h3

/-! ### `app/core/hand_evaluator.py` — table construction -/

/-- `range(a, 1, -1)`: the ranks `a, a−1, …, 2`. -/
def pyRangeDesc (a : Nat) : List Nat :=
  (List.range (a - 1)).map (fun i => a - i)

/-- `itertools.combinations`: all length-`k` sublists, in the order
itertools emits them (lexicographic by position). -/
def combinations : Nat → List Nat → List (List Nat)
  | 0, _ => [[]]
  | _ + 1, [] => []
  | k + 1, x :: xs => (combinations k xs).map (fun c => x :: c) ++ combinations (k + 1) xs

/-- The `sf_straights` literal: A-high down to the wheel. -/
def sf_straights : List (List Nat) :=
  [[14, 13, 12, 11, 10], [13, 12, 11, 10, 9], [12, 11, 10, 9, 8], [11, 10, 9, 8, 7],
   [10, 9, 8, 7, 6], [9, 8, 7, 6, 5], [8, 7, 6, 5, 4], [7, 6, 5, 4, 3], [6, 5, 4, 3, 2],
   [5, 4, 3, 2, 14]]

/-- The `straight_hands` literal (same ten rank sets, re-listed in the
source for the non-flush straights). -/
def straight_hands : List (List Nat) :=
  [[14, 13, 12, 11, 10], [13, 12, 11, 10, 9], [12, 11, 10, 9, 8], [11, 10, 9, 8, 7],
   [10, 9, 8, 7, 6], [9, 8, 7, 6, 5], [8, 7, 6, 5, 4], [7, 6, 5, 4, 3], [6, 5, 4, 3, 2],
   [5, 4, 3, 2, 14]]

/-- `rank_bits`: one-hot mask over the ranks (bit 0 = rank 2). -/
def rank_bits (rank_list : List Nat) : Nat :=
  rank_list.foldl (fun bits r => bits ||| (1 <<< (r - 2))) 0

/-- `prime_product` over the rank primes. -/
def prime_product (rank_list : List Nat) : Nat :=
  rank_list.foldl (fun product r => product * rankPrime r) 1

/-- Four of a kind: quad rank then kicker, each descending. -/
def quadHands : List (List Nat) :=
  (pyRangeDesc 14).flatMap (fun quad_rank =>
    ((pyRangeDesc 14).filter (fun kicker => kicker ≠ quad_rank)).map
      (fun kicker => [quad_rank, quad_rank, quad_rank, quad_rank, kicker]))

/-- Full house: trips rank then pair rank, each descending. -/
def fullHouseHands : List (List Nat) :=
  (pyRangeDesc 14).flatMap (fun trips_rank =>
    ((pyRangeDesc 14).filter (fun pair_rank => pair_rank ≠ trips_rank)).map
      (fun pair_rank => [trips_rank, trips_rank, trips_rank, pair_rank, pair_rank]))

/-- Sort a rank list into descending order (used to compare rank sets,
standing in for Python's `frozenset` equality on duplicate-free lists). -/
def sortDesc (l : List Nat) : List Nat :=
  l.insertionSort (· ≥ ·)

/-- `flush_hands`: all 5-rank combinations that are not straights. -/
def flushHands : List (List Nat) :=
  (combinations 5 (pyRangeDesc 14)).filter
    (fun c => !(sf_straights.any (fun s => sortDesc s = sortDesc c)))

/-- Three of a kind: trips rank, then kicker pairs from `combinations`. -/
def tripsHands : List (List Nat) :=
  (pyRangeDesc 14).flatMap (fun trips_rank =>
    (combinations 2 ((pyRangeDesc 14).filter (fun r => r ≠ trips_rank))).map
      (fun ks => trips_rank :: trips_rank :: trips_rank :: ks))

/-- Two pair: higher pair, lower pair, kicker. -/
def twoPairHands : List (List Nat) :=
  (pyRangeDesc 14).flatMap (fun p1 =>
    (pyRangeDesc (p1 - 1)).flatMap (fun p2 =>
      ((pyRangeDesc 14).filter (fun r => r ≠ p1 ∧ r ≠ p2)).map
        (fun k => [p1, p1, p2, p2, k])))

/-- One pair: pair rank, then kicker triples from `combinations`. -/
def pairHands : List (List Nat) :=
  (pyRangeDesc 14).flatMap (fun pair_rank =>
    (combinations 3 ((pyRangeDesc 14).filter (fun r => r ≠ pair_rank))).map
      (fun ks => pair_rank :: pair_rank :: ks))

/-- Which lookup table a hand category is written to. -/
inductive TableTag
  | flushT | uniqueT | pairsT
deriving DecidableEq, Repr

/-- One table entry of `_build_tables`: a rank list and its table. -/
structure RankClass where
  ranks : List Nat
  tag : TableTag
deriving DecidableEq, Repr

/-- All 7462 hand classes in exactly the order `_build_tables` assigns
consecutive scores: straight flushes, quads, full houses, flushes,
straights, trips, two pair, one pair, high cards. -/
def classList : List RankClass :=
  sf_straights.map (fun h => ⟨h, TableTag.flushT⟩) ++
  quadHands.map (fun h => ⟨h, TableTag.pairsT⟩) ++
  fullHouseHands.map (fun h => ⟨h, TableTag.pairsT⟩) ++
  flushHands.map (fun h => ⟨h, TableTag.flushT⟩) ++
  straight_hands.map (fun h => ⟨h, TableTag.uniqueT⟩) ++
  tripsHands.map (fun h => ⟨h, TableTag.pairsT⟩) ++
  twoPairHands.map (fun h => ⟨h, TableTag.pairsT⟩) ++
  pairHands.map (fun h => ⟨h, TableTag.pairsT⟩) ++
  flushHands.map (fun h => ⟨h, TableTag.uniqueT⟩)

/-- The key a class is stored under: a rank bitmask in the flush table,
a prime product in the other two. -/
def classKey (c : RankClass) : Nat :=
  match c.tag with
  | TableTag.flushT => rank_bits c.ranks
  | _ => prime_product c.ranks

/-- Each class with its score: position in `classList`, starting at 1. -/
def scoredEntries : List (RankClass × Nat) :=
  classList.enum.map (fun ic => (ic.2, ic.1 + 1))

/-- The table for one tag, as a key-score association list. -/
def tableFor (t : TableTag) : List (Nat × Nat) :=
  (scoredEntries.filter (fun e => e.1.tag = t)).map (fun e => (classKey e.1, e.2))

def flush_table : List (Nat × Nat) := tableFor TableTag.flushT
def unique5_table : List (Nat × Nat) := tableFor TableTag.uniqueT
def pairs_table : List (Nat × Nat) := tableFor TableTag.pairsT

/-- Lookup in a table built by repeated `table[key] = score` assignments:
a later assignment overwrites an earlier one, so the *last* matching
entry wins, exactly as in a Python `dict`. -/
def dictLookup (k : Nat) : List (Nat × Nat) → Option Nat
  | [] => none
  | p :: t =>
    match dictLookup k t with
    | some v => some v
    | none => if p.1 = k then some p.2 else none

/-- `_eval_5_ints`: flush test on the suit nibble, then the flush table
by rank mask, otherwise the prime product probed against `unique5` then
`pairs` (a `KeyError` is `none`). -/
def eval_5_ints (c1 c2 c3 c4 c5 : Nat) : Option Nat :=
  if (c1 &&& 0xF000) = (c2 &&& 0xF000) ∧ (c2 &&& 0xF000) = (c3 &&& 0xF000) ∧
     (c3 &&& 0xF000) = (c4 &&& 0xF000) ∧ (c4 &&& 0xF000) = (c5 &&& 0xF000) then
    dictLookup (((c1 ||| c2 ||| c3 ||| c4 ||| c5) >>> 16) &&& 0x1FFF) flush_table
  else
    match dictLookup
        ((c1 &&& 0x3F) * (c2 &&& 0x3F) * (c3 &&& 0x3F) * (c4 &&& 0x3F) * (c5 &&& 0x3F))
        unique5_table with
    | some result => some result
    | none => dictLookup
        ((c1 &&& 0x3F) * (c2 &&& 0x3F) * (c3 &&& 0x3F) * (c4 &&& 0x3F) * (c5 &&& 0x3F))
        pairs_table

/-- `eval_5` (the length-5 assertion is a guard, not a runtime case). -/
def eval_5 (cards : List PCard) : Option Nat :=
  match cards with
  | [a, b, c, d, e] => eval_5_ints a.toInt b.toInt c.toInt d.toInt e.toInt
  | _ => none

/-! ### The standard poker ranking (specification side) -/

/-- A hand of five distinct valid cards. -/
def ValidHand (cards : List PCard) : Prop :=
  cards.length = 5 ∧ cards.Nodup ∧ ∀ c ∈ cards, c.Valid

instance : DecidablePred ValidHand := fun cards => by
  unfold ValidHand
  infer_instance

/-- Whether all five cards share a suit. -/
def isFlushHand (cards : List PCard) : Bool :=
  match cards with
  | [] => true
  | c :: rest => rest.all (fun x => x.suit = c.suit)

/-- The high card of a straight formed by these descending ranks
(`5` for the wheel A-2-3-4-5), if any. -/
def straightHigh (s : List Nat) : Option Nat :=
  match s with
  | [a, b, c, d, e] =>
    if a = b + 1 ∧ b = c + 1 ∧ c = d + 1 ∧ d = e + 1 then some a
    else if a = 14 ∧ b = 5 ∧ c = 4 ∧ d = 3 ∧ e = 2 then some 5
    else none
  | _ => none

/-- Base-15 encoding of a tie-break rank vector. -/
def encodeTie (l : List Nat) : Nat :=
  l.foldl (fun acc r => acc * 15 + r) 0

/-- Modelled from the spec: the standard poker ranking of a 5-card hand,
as a single numeric value — larger is strictly better.  The category
(straight flush 8, four of a kind 7, full house 6, flush 5, straight 4,
three of a kind 3, two pair 2, one pair 1, high card 0) dominates, and
within a category the hand is valued by its standard tie-break ranks in
order of significance: quad/trips/pair ranks first, then kickers in
descending order; straights by their high card with the wheel counting
as 5-high; flushes and high cards by their five ranks in descending
order. -/
def stdValue (ranks : List Nat) (isFlush : Bool) : Nat :=
  let s := sortDesc ranks
  let cf : Nat × List Nat :=
    match straightHigh s with
    | some h => if isFlush then (8, [h]) else (4, [h])
    | none =>
      if isFlush then (5, s)
      else
        let uniq := s.dedup
        let quads := uniq.filter (fun r => s.count r = 4)
        let trips := uniq.filter (fun r => s.count r = 3)
        let pairs := uniq.filter (fun r => s.count r = 2)
        let singles := uniq.filter (fun r => s.count r = 1)
        match quads, trips, pairs with
        | q :: _, _, _ => (7, q :: singles)
        | [], t :: _, p :: _ => (6, [t, p])
        | [], t :: _, [] => (3, t :: singles)
        | [], [], p1 :: p2 :: _ => (2, p1 :: p2 :: singles)
        | [], [], [p] => (1, p :: singles)
        | [], [], [] => (0, s)
  cf.1 * 15 ^ 5 + encodeTie cf.2

/-- The standard value of a hand of cards. -/
def handStdValue (cards : List PCard) : Nat :=
  stdValue (cards.map PCard.rank) (isFlushHand cards)

/-- `h1` strictly beats `h2` under the standard poker ranking. -/
def Beats (h1 h2 : List PCard) : Prop :=
  handStdValue h2 < handStdValue h1

/-- Whether a class entry lives in the flush table. -/
def entryIsFlush (e : RankClass) : Bool :=
  e.tag == TableTag.flushT

/-- The standard value of a table entry. -/
def stdValueEntry (e : RankClass) : Nat :=
  stdValue e.ranks (entryIsFlush e)

/-! ### Chunked kernel checks over the class list

The class list has 7462 entries; the kernel cannot reduce a single
recursion of that depth, so all exhaustive facts are checked on the
nine enumeration blocks (the one-pair block further cut in three) and
reassembled by congruence lemmas. -/

/-- The one-pair block restricted to a sublist of pair ranks. -/
def pairBlock (rs : List Nat) : List (List Nat) :=
  rs.flatMap (fun pair_rank =>
    (combinations 3 ((pyRangeDesc 14).filter (fun r => r ≠ pair_rank))).map
      (fun ks => pair_rank :: pair_rank :: ks))

/-- Boolean check that a list of numbers strictly decreases. -/
def chainGtB : List Nat → Bool
  | [] => true
  | [_] => true
  | a :: b :: t => decide (b < a) && chainGtB (b :: t)

def cSF : List RankClass := sf_straights.map (fun h => ⟨h, TableTag.flushT⟩)
def cQuad : List RankClass := quadHands.map (fun h => ⟨h, TableTag.pairsT⟩)
def cFH : List RankClass := fullHouseHands.map (fun h => ⟨h, TableTag.pairsT⟩)
def cFlush : List RankClass := flushHands.map (fun h => ⟨h, TableTag.flushT⟩)
def cStraight : List RankClass := straight_hands.map (fun h => ⟨h, TableTag.uniqueT⟩)
def cTrips : List RankClass := tripsHands.map (fun h => ⟨h, TableTag.pairsT⟩)
def cTwoPair : List RankClass := twoPairHands.map (fun h => ⟨h, TableTag.pairsT⟩)
def cPair : List RankClass := pairHands.map (fun h => ⟨h, TableTag.pairsT⟩)
def cHigh : List RankClass := flushHands.map (fun h => ⟨h, TableTag.uniqueT⟩)

/-- A one-pair sub-block, tagged. -/
def cPairBlk (rs : List Nat) : List RankClass :=
  (pairBlock rs).map (fun h => ⟨h, TableTag.pairsT⟩)

theorem classList_blocks :
    classList =
      ((((((((cSF ++ cQuad) ++ cFH) ++ cFlush) ++ cStraight) ++
        cTrips) ++ cTwoPair) ++ cPair) ++ cHigh) := rfl

theorem classList_eq :
    classList =
      cSF ++ (cQuad ++ (cFH ++ (cFlush ++ (cStraight ++
        (cTrips ++ (cTwoPair ++ (cPair ++ cHigh))))))) := by
  rw [classList_blocks]
  simp only [List.append_assoc]

theorem pairHands_eq :
    pairHands =
      pairBlock [14, 13, 12, 11, 10] ++ (pairBlock [9, 8, 7, 6] ++ pairBlock [5, 4, 3, 2]) := by
  unfold pairHands pairBlock
  rw [(by decide :
        pyRangeDesc 14 = [14, 13, 12, 11, 10] ++ ([9, 8, 7, 6] ++ [5, 4, 3, 2])),
      List.flatMap_append, List.flatMap_append]

theorem cPair_eq :
    cPair = cPairBlk [14, 13, 12, 11, 10] ++ (cPairBlk [9, 8, 7, 6] ++ cPairBlk [5, 4, 3, 2]) := by
  unfold cPair cPairBlk
  rw [pairHands_eq, List.map_append, List.map_append]

theorem chainGtB_iff : ∀ l : List Nat, chainGtB l = true ↔ List.Chain' (fun a b => b < a) l := by
  intro l
  induction l with
  | nil => simp [chainGtB]
  | cons a t ih =>
    cases t with
    | nil => simp [chainGtB]
    | cons b t2 =>
      rw [List.chain'_cons, ← ih]
      simp [chainGtB]

theorem chSF : List.Chain' (fun a b => b < a) (cSF.map stdValueEntry) :=
  (chainGtB_iff _).mp (by decide)

theorem chQuad : List.Chain' (fun a b => b < a) (cQuad.map stdValueEntry) :=
  (chainGtB_iff _).mp (by decide)

theorem chFH : List.Chain' (fun a b => b < a) (cFH.map stdValueEntry) :=
  (chainGtB_iff _).mp (by decide)

theorem chFlush : List.Chain' (fun a b => b < a) (cFlush.map stdValueEntry) :=
  (chainGtB_iff _).mp (by decide)

theorem chStraight : List.Chain' (fun a b => b < a) (cStraight.map stdValueEntry) :=
  (chainGtB_iff _).mp (by decide)

theorem chTrips : List.Chain' (fun a b => b < a) (cTrips.map stdValueEntry) :=
  (chainGtB_iff _).mp (by decide)

theorem chTwoPair : List.Chain' (fun a b => b < a) (cTwoPair.map stdValueEntry) :=
  (chainGtB_iff _).mp (by decide)

theorem chPair1 : List.Chain' (fun a b => b < a) ((cPairBlk [14, 13, 12, 11, 10]).map stdValueEntry) :=
  (chainGtB_iff _).mp (by decide)

theorem chPair2 : List.Chain' (fun a b => b < a) ((cPairBlk [9, 8, 7, 6]).map stdValueEntry) :=
  (chainGtB_iff _).mp (by decide)

theorem chPair3 : List.Chain' (fun a b => b < a) ((cPairBlk [5, 4, 3, 2]).map stdValueEntry) :=
  (chainGtB_iff _).mp (by decide)

theorem chHigh : List.Chain' (fun a b => b < a) (cHigh.map stdValueEntry) :=
  (chainGtB_iff _).mp (by decide)

theorem glueChunks {A B : List RankClass} {a b : RankClass}
    (hA : List.Chain' (fun x y => y < x) (A.map stdValueEntry))
    (hB : List.Chain' (fun x y => y < x) (B.map stdValueEntry))
    (ha : A.getLast? = some a) (hb : B.head? = some b)
    (hab : stdValueEntry b < stdValueEntry a) :
    List.Chain' (fun x y => y < x) ((A ++ B).map stdValueEntry) := by
  rw [List.map_append]
  refine List.chain'_append.mpr ⟨hA, hB, ?_⟩
  intro x hx y hy
  rw [List.getLast?_map, ha] at hx
  rw [List.head?_map, hb] at hy
  simp only [Option.map_some', Option.mem_some_iff] at hx hy
  rw [← hx, ← hy]
  exact hab

theorem headAppendChunk {A B : List RankClass} {a : RankClass}
    (ha : A.head? = some a) : (A ++ B).head? = some a := by
  rw [List.head?_append, ha]
  rfl

theorem lastSF : cSF.getLast? = some ⟨[5, 4, 3, 2, 14], TableTag.flushT⟩ := by decide

theorem headQuad : cQuad.head? = some ⟨[14, 14, 14, 14, 13], TableTag.pairsT⟩ := by decide

theorem lastQuad : cQuad.getLast? = some ⟨[2, 2, 2, 2, 3], TableTag.pairsT⟩ := by decide

theorem headFH : cFH.head? = some ⟨[14, 14, 14, 13, 13], TableTag.pairsT⟩ := by decide

theorem lastFH : cFH.getLast? = some ⟨[2, 2, 2, 3, 3], TableTag.pairsT⟩ := by decide

theorem headFlush : cFlush.head? = some ⟨[14, 13, 12, 11, 9], TableTag.flushT⟩ := by decide

theorem lastFlush : cFlush.getLast? = some ⟨[7, 5, 4, 3, 2], TableTag.flushT⟩ := by decide

theorem headStraight : cStraight.head? = some ⟨[14, 13, 12, 11, 10], TableTag.uniqueT⟩ := by
  decide

theorem lastStraight : cStraight.getLast? = some ⟨[5, 4, 3, 2, 14], TableTag.uniqueT⟩ := by
  decide

theorem headTrips : cTrips.head? = some ⟨[14, 14, 14, 13, 12], TableTag.pairsT⟩ := by decide

theorem lastTrips : cTrips.getLast? = some ⟨[2, 2, 2, 4, 3], TableTag.pairsT⟩ := by decide

theorem headTwoPair : cTwoPair.head? = some ⟨[14, 14, 13, 13, 12], TableTag.pairsT⟩ := by decide

theorem lastTwoPair : cTwoPair.getLast? = some ⟨[3, 3, 2, 2, 4], TableTag.pairsT⟩ := by decide

theorem headPair1 : (cPairBlk [14, 13, 12, 11, 10]).head? =
    some ⟨[14, 14, 13, 12, 11], TableTag.pairsT⟩ := by decide

theorem lastPair1 : (cPairBlk [14, 13, 12, 11, 10]).getLast? =
    some ⟨[10, 10, 4, 3, 2], TableTag.pairsT⟩ := by decide

theorem headPair2 : (cPairBlk [9, 8, 7, 6]).head? =
    some ⟨[9, 9, 14, 13, 12], TableTag.pairsT⟩ := by decide

theorem lastPair2 : (cPairBlk [9, 8, 7, 6]).getLast? =
    some ⟨[6, 6, 4, 3, 2], TableTag.pairsT⟩ := by decide

theorem headPair3 : (cPairBlk [5, 4, 3, 2]).head? =
    some ⟨[5, 5, 14, 13, 12], TableTag.pairsT⟩ := by decide

theorem lastPair3 : (cPairBlk [5, 4, 3, 2]).getLast? =
    some ⟨[2, 2, 5, 4, 3], TableTag.pairsT⟩ := by decide

theorem headHigh : cHigh.head? = some ⟨[14, 13, 12, 11, 9], TableTag.uniqueT⟩ := by decide

/-- The standard values of the 7462 classes strictly decrease along the
enumeration order of `_build_tables`. -/
theorem classList_chain :
    List.Chain' (fun x y => y < x) (classList.map stdValueEntry) := by
  rw [classList_eq, cPair_eq]
  simp only [List.append_assoc]
  have h10 := glueChunks chPair3 chHigh lastPair3 headHigh (by decide)
  have h9 := glueChunks chPair2 h10 lastPair2 (headAppendChunk headPair3) (by decide)
  have h8 := glueChunks chPair1 h9 lastPair1 (headAppendChunk headPair2) (by decide)
  have h7 := glueChunks chTwoPair h8 lastTwoPair (headAppendChunk headPair1) (by decide)
  have h6 := glueChunks chTrips h7 lastTrips (headAppendChunk headTwoPair) (by decide)
  have h5 := glueChunks chStraight h6 lastStraight (headAppendChunk headTrips) (by decide)
  have h4 := glueChunks chFlush h5 lastFlush (headAppendChunk headStraight) (by decide)
  have h3 := glueChunks chFH h4 lastFH (headAppendChunk headFlush) (by decide)
  have h2 := glueChunks chQuad h3 lastQuad (headAppendChunk headFH) (by decide)
  exact glueChunks chSF h2 lastSF (headAppendChunk headQuad) (by decide)

/-- Per-entry sanity: five ranks, each between 2 and 14, and — except in
the shared-prime-product `pairs` table — pairwise distinct. -/
def entryOKD (e : RankClass) : Bool :=
  decide (e.ranks.length = 5) &&
  e.ranks.all (fun r => decide (2 ≤ r) && decide (r ≤ 14)) &&
  (e.tag == TableTag.pairsT || decide e.ranks.Nodup)

theorem allSF : cSF.all entryOKD = true := by decide

theorem allQuad : cQuad.all entryOKD = true := by decide

theorem allFH : cFH.all entryOKD = true := by decide

theorem allFlush : cFlush.all entryOKD = true := by decide

theorem allStraight : cStraight.all entryOKD = true := by decide

theorem allTrips : cTrips.all entryOKD = true := by decide

theorem allTwoPair : cTwoPair.all entryOKD = true := by decide

theorem allPair1 : (cPairBlk [14, 13, 12, 11, 10]).all entryOKD = true := by decide

theorem allPair2 : (cPairBlk [9, 8, 7, 6]).all entryOKD = true := by decide

theorem allPair3 : (cPairBlk [5, 4, 3, 2]).all entryOKD = true := by decide

theorem allHigh : cHigh.all entryOKD = true := by decide

theorem classList_entryOKD : ∀ e ∈ classList, entryOKD e = true := by
  intro e he
  rw [classList_eq, cPair_eq] at he
  simp only [List.mem_append] at he
  rcases he with h | h | h | h | h | h | h | ((h | h | h) | h)
  · exact List.all_eq_true.mp allSF e h
  · exact List.all_eq_true.mp allQuad e h
  · exact List.all_eq_true.mp allFH e h
  · exact List.all_eq_true.mp allFlush e h
  · exact List.all_eq_true.mp allStraight e h
  · exact List.all_eq_true.mp allTrips e h
  · exact List.all_eq_true.mp allTwoPair e h
  · exact List.all_eq_true.mp allPair1 e h
  · exact List.all_eq_true.mp allPair2 e h
  · exact List.all_eq_true.mp allPair3 e h
  · exact List.all_eq_true.mp allHigh e h

theorem classList_ranks_ok :
    ∀ e ∈ classList, e.ranks.length = 5 ∧ ∀ r ∈ e.ranks, 2 ≤ r ∧ r ≤ 14 := by
  intro e he
  have h := classList_entryOKD e he
  simp only [entryOKD, Bool.and_eq_true, decide_eq_true_eq, List.all_eq_true] at h
  exact ⟨h.1.1, fun r hr => by
    have := h.1.2 r hr
    simp only [Bool.and_eq_true, decide_eq_true_eq] at this
    exact this⟩

theorem classList_nonpairs_nodup :
    ∀ e ∈ classList, e.tag ≠ TableTag.pairsT → e.ranks.Nodup := by
  intro e he htag
  have h := classList_entryOKD e he
  simp only [entryOKD, Bool.and_eq_true, Bool.or_eq_true, beq_iff_eq,
    decide_eq_true_eq] at h
  rcases h.2 with h2 | h2
  · exact absurd h2 htag
  · exact h2

theorem classList_length : classList.length = 7462 := by
  rw [classList_eq, cPair_eq]
  simp only [List.length_append]
  decide

/-! ### Structural lemmas about the building blocks -/

instance : IsTrans Nat (fun x y => y < x) :=
  ⟨fun _ _ _ h1 h2 => lt_trans h2 h1⟩

theorem dictLookup_mem {k v : Nat} :
    ∀ {t : List (Nat × Nat)}, dictLookup k t = some v → (k, v) ∈ t := by
  intro t
  induction t with
  | nil => intro h; exact absurd h (by simp [dictLookup])
  | cons p rest ih =>
    obtain ⟨pk, pv⟩ := p
    intro h
    rw [dictLookup] at h
    cases hrec : dictLookup k rest with
    | some w =>
      rw [hrec] at h
      injection h with h1
      exact List.mem_cons_of_mem _ (ih (hrec.trans (congrArg some h1)))
    | none =>
      rw [hrec] at h
      by_cases hpk : pk = k
      · subst hpk
        rw [if_pos rfl] at h
        injection h with h1
        subst h1
        exact List.mem_cons_self _ _
      · rw [if_neg hpk] at h
        cases h

theorem dictLookup_isSome_of_mem {k v : Nat} :
    ∀ {t : List (Nat × Nat)}, (k, v) ∈ t → ∃ w, dictLookup k t = some w := by
  intro t
  induction t with
  | nil => intro h; cases h
  | cons p rest ih =>
    obtain ⟨pk, pv⟩ := p
    intro h
    rw [dictLookup]
    cases hrec : dictLookup k rest with
    | some w => exact ⟨w, rfl⟩
    | none =>
      rcases List.mem_cons.mp h with heq | hmem
      · injection heq with h1 h2
        subst h1
        subst h2
        exact ⟨v, by rw [if_pos rfl]⟩
      · rcases ih hmem with ⟨w, hw⟩
        rw [hw] at hrec
        cases hrec

theorem dictLookup_eq_none {k : Nat} :
    ∀ {t : List (Nat × Nat)}, (∀ p ∈ t, p.1 ≠ k) → dictLookup k t = none := by
  intro t
  induction t with
  | nil => intro _; rfl
  | cons p rest ih =>
    obtain ⟨pk, pv⟩ := p
    intro h
    rw [dictLookup, ih (fun q hq => h q (List.mem_cons_of_mem _ hq)),
      if_neg (h (pk, pv) (List.mem_cons_self _ _))]

theorem mem_pyRangeDesc {a x : Nat} : x ∈ pyRangeDesc a ↔ 2 ≤ x ∧ x ≤ a := by
  unfold pyRangeDesc
  simp only [List.mem_map, List.mem_range]
  constructor
  · rintro ⟨i, hi, rfl⟩
    omega
  · rintro ⟨h2, hx⟩
    exact ⟨a - x, by omega, by omega⟩

theorem pyRangeDesc_cons {a : Nat} (h : 2 ≤ a) :
    pyRangeDesc a = a :: pyRangeDesc (a - 1) := by
  unfold pyRangeDesc
  conv_lhs => rw [(by omega : a - 1 = (a - 2) + 1), List.range_succ_eq_map]
  rw [List.map_cons, List.map_map]
  congr 1
  rw [(by omega : (a - 1) - 1 = a - 2)]
  apply List.map_congr_left
  intro i _
  simp only [Function.comp_apply, Nat.succ_eq_add_one]
  omega

theorem mem_combinations :
    ∀ (l : List Nat) (k : Nat) (c : List Nat),
      c ∈ combinations k l ↔ c.Sublist l ∧ c.length = k := by
  intro l
  induction l with
  | nil =>
    intro k c
    cases k with
    | zero =>
      simp only [combinations, List.mem_singleton, List.sublist_nil, List.length_eq_zero]
      constructor
      · rintro rfl; exact ⟨rfl, rfl⟩
      · rintro ⟨rfl, _⟩; rfl
    | succ k =>
      simp only [combinations, List.not_mem_nil, false_iff, not_and, List.sublist_nil]
      rintro rfl
      simp
  | cons x xs ih =>
    intro k c
    cases k with
    | zero =>
      simp only [combinations, List.mem_singleton, List.length_eq_zero]
      constructor
      · rintro rfl; exact ⟨List.nil_sublist _, rfl⟩
      · rintro ⟨_, rfl⟩; rfl
    | succ k =>
      simp only [combinations, List.mem_append, List.mem_map]
      constructor
      · rintro (⟨c', hc', rfl⟩ | hc)
        · have h := (ih k c').mp hc'
          exact ⟨h.1.cons₂ x, by simp [h.2]⟩
        · have h := (ih (k + 1) c).mp hc
          exact ⟨h.1.cons x, h.2⟩
      · rintro ⟨hsub, hlen⟩
        rcases List.sublist_cons_iff.mp hsub with h | ⟨r, rfl, hr⟩
        · exact Or.inr ((ih (k + 1) c).mpr ⟨h, hlen⟩)
        · refine Or.inl ⟨r, (ih k r).mpr ⟨hr, ?_⟩, rfl⟩
          simpa using hlen

theorem pairwise_sublist_pyRangeDesc :
    ∀ (a : Nat) (l : List Nat), List.Pairwise (fun x y => y < x) l →
      (∀ x ∈ l, 2 ≤ x ∧ x ≤ a) → l.Sublist (pyRangeDesc a) := by
  intro a
  induction a using Nat.strong_induction_on with
  | _ a ih =>
    intro l hpw hbd
    cases l with
    | nil => exact List.nil_sublist _
    | cons h t =>
      have hb := hbd h (List.mem_cons_self _ _)
      have ha2 : 2 ≤ a := le_trans hb.1 hb.2
      rw [pyRangeDesc_cons ha2]
      have hhead : ∀ x ∈ t, x < h := fun x hx => (List.pairwise_cons.mp hpw).1 x hx
      rcases eq_or_lt_of_le hb.2 with rfl | hlt
      · refine List.Sublist.cons₂ h ?_
        refine ih (h - 1) (by omega) t (List.pairwise_cons.mp hpw).2 ?_
        intro x hx
        have := hbd x (List.mem_cons_of_mem _ hx)
        have := hhead x hx
        omega
      · refine List.Sublist.cons a ?_
        refine ih (a - 1) (by omega) (h :: t) hpw ?_
        intro x hx
        have := hbd x hx
        rcases List.mem_cons.mp hx with rfl | hx'
        · omega
        · have := hhead x hx'
          omega

theorem sortDesc_perm (l : List Nat) : List.Perm (sortDesc l) l :=
  List.perm_insertionSort _ _

theorem sortDesc_sorted (l : List Nat) : List.Sorted (· ≥ ·) (sortDesc l) :=
  List.sorted_insertionSort _ _

theorem sortDesc_eq_self {l : List Nat} (h : List.Sorted (· ≥ ·) l) : sortDesc l = l :=
  List.Sorted.insertionSort_eq h

theorem sortDesc_eq_of_perm {l1 l2 : List Nat} (h : List.Perm l1 l2) : sortDesc l1 = sortDesc l2 :=
  List.eq_of_perm_of_sorted ((sortDesc_perm l1).trans (h.trans (sortDesc_perm l2).symm))
    (sortDesc_sorted l1) (sortDesc_sorted l2)

theorem stdValue_congr {l1 l2 : List Nat} (f : Bool) (h : sortDesc l1 = sortDesc l2) :
    stdValue l1 f = stdValue l2 f := by
  unfold stdValue
  rw [h]

/-! ### Card encodings and bit-level facts -/

theorem toInt_suit_mask {r s : Nat} (h2 : 2 ≤ r) (h14 : r ≤ 14) (hs : s < 4) :
    (PCard.mk r s).toInt &&& 0xF000 = suitBit s := by
  interval_cases r <;> interval_cases s <;> decide

theorem toInt_shift {r s : Nat} (h2 : 2 ≤ r) (h14 : r ≤ 14) (hs : s < 4) :
    (PCard.mk r s).toInt >>> 16 = 1 <<< (r - 2) := by
  interval_cases r <;> interval_cases s <;> decide

theorem toInt_prime {r s : Nat} (h2 : 2 ≤ r) (h14 : r ≤ 14) (hs : s < 4) :
    (PCard.mk r s).toInt &&& 0x3F = rankPrime r := by
  interval_cases r <;> interval_cases s <;> decide

theorem suitBit_inj : ∀ s1 < 4, ∀ s2 < 4, suitBit s1 = suitBit s2 → s1 = s2 := by decide

theorem shiftRight_or_distrib (a b n : Nat) :
    (a ||| b) >>> n = (a >>> n) ||| (b >>> n) := by
  apply Nat.eq_of_testBit_eq
  intro i
  simp [Nat.testBit_or, Nat.testBit_shiftRight]

theorem shiftLeft_one_lt {k : Nat} (h : k ≤ 12) : 1 <<< k < 2 ^ 13 := by
  rw [Nat.shiftLeft_eq, one_mul]
  exact lt_of_le_of_lt (Nat.pow_le_pow_right (by norm_num) h) (by norm_num)

theorem rank_bits_quint (r1 r2 r3 r4 r5 : Nat) :
    rank_bits [r1, r2, r3, r4, r5] =
      (((1 <<< (r1 - 2) ||| 1 <<< (r2 - 2)) ||| 1 <<< (r3 - 2)) ||| 1 <<< (r4 - 2)) |||
        1 <<< (r5 - 2) := by
  simp [rank_bits, List.foldl_cons, List.foldl_nil]

theorem prime_product_quint (r1 r2 r3 r4 r5 : Nat) :
    prime_product [r1, r2, r3, r4, r5] =
      (((rankPrime r1 * rankPrime r2) * rankPrime r3) * rankPrime r4) * rankPrime r5 := by
  simp [prime_product, List.foldl_cons, List.foldl_nil]

theorem rank_bits_perm {l1 l2 : List Nat} (h : List.Perm l1 l2) :
    rank_bits l1 = rank_bits l2 :=
  h.foldl_eq'
    (fun x _ y _ z => by
      show (z ||| 1 <<< (x - 2)) ||| 1 <<< (y - 2) = (z ||| 1 <<< (y - 2)) ||| 1 <<< (x - 2)
      rw [Nat.or_assoc, Nat.or_assoc, Nat.or_comm (1 <<< (x - 2))]) 0

theorem prime_product_perm {l1 l2 : List Nat} (h : List.Perm l1 l2) :
    prime_product l1 = prime_product l2 :=
  h.foldl_eq'
    (fun x _ y _ z => by
      show (z * rankPrime x) * rankPrime y = (z * rankPrime y) * rankPrime x
      rw [mul_assoc, mul_assoc, mul_comm (rankPrime x)]) 1

theorem testBit_rank_bits_aux :
    ∀ (l : List Nat) (acc i : Nat),
      (l.foldl (fun bits r => bits ||| (1 <<< (r - 2))) acc).testBit i =
        (acc.testBit i || l.any (fun r => decide (r - 2 = i))) := by
  intro l
  induction l with
  | nil => simp
  | cons r t ih =>
    intro acc i
    rw [List.foldl_cons, ih, List.any_cons]
    rw [Nat.testBit_or]
    have h1 : (1 <<< (r - 2)).testBit i = decide (r - 2 = i) := by
      rw [Nat.one_shiftLeft, Nat.testBit_two_pow]
    rw [h1, Bool.or_assoc]

theorem testBit_rank_bits {l : List Nat} (hall : ∀ r ∈ l, 2 ≤ r) (i : Nat) :
    (rank_bits l).testBit i = true ↔ (i + 2) ∈ l := by
  rw [rank_bits, testBit_rank_bits_aux]
  simp only [Nat.zero_testBit, Bool.false_or, List.any_eq_true, decide_eq_true_eq]
  constructor
  · rintro ⟨r, hr, hri⟩
    have := hall r hr
    have : r = i + 2 := by omega
    exact this ▸ hr
  · intro hmem
    exact ⟨i + 2, hmem, by omega⟩

theorem strictDesc_eq_of_mem_iff :
    ∀ (l1 l2 : List Nat), List.Pairwise (fun x y => y < x) l1 →
      List.Pairwise (fun x y => y < x) l2 → (∀ x, x ∈ l1 ↔ x ∈ l2) → l1 = l2 := by
  intro l1
  induction l1 with
  | nil =>
    intro l2 _ _ hmem
    cases l2 with
    | nil => rfl
    | cons b t2 => exact absurd ((hmem b).mpr (List.mem_cons_self _ _)) (List.not_mem_nil b)
  | cons a t1 ih =>
    intro l2 hp1 hp2 hmem
    cases l2 with
    | nil => exact absurd ((hmem a).mp (List.mem_cons_self _ _)) (List.not_mem_nil a)
    | cons b t2 =>
      have hab : a = b := by
        have ha2 : a ∈ b :: t2 := (hmem a).mp (List.mem_cons_self _ _)
        have hb1 : b ∈ a :: t1 := (hmem b).mpr (List.mem_cons_self _ _)
        rcases List.mem_cons.mp ha2 with h | h
        · exact h
        · have hba : a < b := (List.pairwise_cons.mp hp2).1 a h
          rcases List.mem_cons.mp hb1 with h' | h'
          · omega
          · have : b < a := (List.pairwise_cons.mp hp1).1 b h'
            omega
      subst hab
      have htail : ∀ x, x ∈ t1 ↔ x ∈ t2 := by
        intro x
        constructor
        · intro hx
          have hxa : x < a := (List.pairwise_cons.mp hp1).1 x hx
          rcases List.mem_cons.mp ((hmem x).mp (List.mem_cons_of_mem _ hx)) with h | h
          · omega
          · exact h
        · intro hx
          have hxa : x < a := (List.pairwise_cons.mp hp2).1 x hx
          rcases List.mem_cons.mp ((hmem x).mpr (List.mem_cons_of_mem _ hx)) with h | h
          · omega
          · exact h
      rw [ih t2 (List.pairwise_cons.mp hp1).2 (List.pairwise_cons.mp hp2).2 htail]

theorem sortDesc_strict {l : List Nat} (h : l.Nodup) :
    List.Pairwise (fun x y => y < x) (sortDesc l) := by
  have hs := sortDesc_sorted l
  have hn : (sortDesc l).Nodup := ((sortDesc_perm l).nodup_iff).mpr h
  have := List.Pairwise.and hs hn
  exact this.imp (fun hab => lt_of_le_of_ne hab.1 (Ne.symm hab.2))

/-! ### Prime products determine rank multisets (unique factorization) -/

theorem rankPrime_prime : ∀ r : Nat, 2 ≤ r → r ≤ 14 → Nat.Prime (rankPrime r) := by
  intro r h1 h2
  interval_cases r <;> norm_num [rankPrime]

theorem rankPrime_inj :
    ∀ r1 < 15, ∀ r2 < 15, 2 ≤ r1 → 2 ≤ r2 → rankPrime r1 = rankPrime r2 → r1 = r2 := by
  decide

theorem prime_product_eq_prod (l : List Nat) :
    prime_product l = (l.map rankPrime).prod := by
  rw [prime_product, List.prod_eq_foldl, List.foldl_map]

theorem prime_maps_perm {l1 l2 : List Nat}
    (b1 : ∀ r ∈ l1, 2 ≤ r ∧ r ≤ 14) (b2 : ∀ r ∈ l2, 2 ≤ r ∧ r ≤ 14)
    (h : prime_product l1 = prime_product l2) :
    List.Perm (l1.map rankPrime) (l2.map rankPrime) := by
  have hp1 : ∀ p ∈ l1.map rankPrime, Nat.Prime p := by
    intro p hp
    rcases List.mem_map.mp hp with ⟨r, hr, rfl⟩
    exact rankPrime_prime r (b1 r hr).1 (b1 r hr).2
  have hp2 : ∀ p ∈ l2.map rankPrime, Nat.Prime p := by
    intro p hp
    rcases List.mem_map.mp hp with ⟨r, hr, rfl⟩
    exact rankPrime_prime r (b2 r hr).1 (b2 r hr).2
  have e1 := Nat.primeFactorsList_unique (rfl : (l1.map rankPrime).prod = _) hp1
  have e2 := Nat.primeFactorsList_unique (rfl : (l2.map rankPrime).prod = _) hp2
  rw [prime_product_eq_prod, prime_product_eq_prod] at h
  rw [h] at e1
  exact e1.trans e2.symm

theorem count_map_rankPrime {l : List Nat} (b : ∀ r ∈ l, 2 ≤ r ∧ r ≤ 14)
    {r : Nat} (h2 : 2 ≤ r) (h14 : r ≤ 14) :
    (l.map rankPrime).count (rankPrime r) = l.count r := by
  rw [List.count_eq_countP, List.count_eq_countP, List.countP_map]
  apply List.countP_congr
  intro x hx
  have hb := b x hx
  simp only [Function.comp_apply, beq_iff_eq]
  constructor
  · intro heq
    exact rankPrime_inj x (by omega) r (by omega) hb.1 h2 heq
  · intro heq
    rw [heq]

theorem ranks_perm_of_prime_product_eq {l1 l2 : List Nat}
    (b1 : ∀ r ∈ l1, 2 ≤ r ∧ r ≤ 14) (b2 : ∀ r ∈ l2, 2 ≤ r ∧ r ≤ 14)
    (h : prime_product l1 = prime_product l2) : List.Perm l1 l2 := by
  have hperm := prime_maps_perm b1 b2 h
  apply List.perm_iff_count.mpr
  intro r
  by_cases hr : 2 ≤ r ∧ r ≤ 14
  · rw [← count_map_rankPrime b1 hr.1 hr.2, ← count_map_rankPrime b2 hr.1 hr.2]
    exact hperm.count_eq _
  · rw [List.count_eq_zero.mpr, List.count_eq_zero.mpr]
    · intro hmem; exact hr ⟨(b2 r hmem).1, (b2 r hmem).2⟩
    · intro hmem; exact hr ⟨(b1 r hmem).1, (b1 r hmem).2⟩

/-! ### Completeness: every rank multiset appears in the enumeration -/

theorem sublist_filter_pyRangeDesc {l : List Nat} {p : Nat → Bool}
    (hpw : List.Pairwise (fun x y => y < x) l)
    (hb : ∀ x ∈ l, 2 ≤ x ∧ x ≤ 14) (hp : ∀ x ∈ l, p x = true) :
    l.Sublist ((pyRangeDesc 14).filter p) := by
  have h1 : l.Sublist (pyRangeDesc 14) := pairwise_sublist_pyRangeDesc 14 l hpw hb
  have h2 : l.filter p = l := List.filter_eq_self.mpr hp
  rw [← h2]
  exact h1.filter p

theorem mem_quadHands {q k : Nat} (hq2 : 2 ≤ q) (hq14 : q ≤ 14) (hk2 : 2 ≤ k)
    (hk14 : k ≤ 14) (hne : k ≠ q) : [q, q, q, q, k] ∈ quadHands := by
  unfold quadHands
  refine List.mem_flatMap.mpr ⟨q, mem_pyRangeDesc.mpr ⟨hq2, hq14⟩, ?_⟩
  exact List.mem_map.mpr
    ⟨k, List.mem_filter.mpr ⟨mem_pyRangeDesc.mpr ⟨hk2, hk14⟩, by simp [hne]⟩, rfl⟩

theorem mem_fullHouseHands {t p : Nat} (ht2 : 2 ≤ t) (ht14 : t ≤ 14) (hp2 : 2 ≤ p)
    (hp14 : p ≤ 14) (hne : p ≠ t) : [t, t, t, p, p] ∈ fullHouseHands := by
  unfold fullHouseHands
  refine List.mem_flatMap.mpr ⟨t, mem_pyRangeDesc.mpr ⟨ht2, ht14⟩, ?_⟩
  exact List.mem_map.mpr
    ⟨p, List.mem_filter.mpr ⟨mem_pyRangeDesc.mpr ⟨hp2, hp14⟩, by simp [hne]⟩, rfl⟩

theorem mem_tripsHands {t k1 k2 : Nat} (ht2 : 2 ≤ t) (ht14 : t ≤ 14)
    (hk22 : 2 ≤ k2) (hk114 : k1 ≤ 14) (h21 : k2 < k1) (hne1 : k1 ≠ t) (hne2 : k2 ≠ t) :
    [t, t, t, k1, k2] ∈ tripsHands := by
  unfold tripsHands
  refine List.mem_flatMap.mpr ⟨t, mem_pyRangeDesc.mpr ⟨ht2, ht14⟩, ?_⟩
  refine List.mem_map.mpr ⟨[k1, k2], ?_, rfl⟩
  refine (mem_combinations _ _ _).mpr ⟨?_, rfl⟩
  apply sublist_filter_pyRangeDesc
  · refine List.Pairwise.cons (fun y hy => ?_) (List.Pairwise.cons (fun y hy => ?_) List.Pairwise.nil)
    · simp only [List.mem_singleton] at hy
      omega
    · simp at hy
  · intro x hx
    simp only [List.mem_cons, List.not_mem_nil, or_false] at hx
    rcases hx with rfl | rfl <;> omega
  · intro x hx
    simp only [List.mem_cons, List.not_mem_nil, or_false] at hx
    rcases hx with rfl | rfl <;> simp [hne1, hne2]

theorem mem_twoPairHands {p1 p2 k : Nat} (hp22 : 2 ≤ p2) (hp114 : p1 ≤ 14) (h21 : p2 < p1)
    (hk2 : 2 ≤ k) (hk14 : k ≤ 14) (hne1 : k ≠ p1) (hne2 : k ≠ p2) :
    [p1, p1, p2, p2, k] ∈ twoPairHands := by
  unfold twoPairHands
  refine List.mem_flatMap.mpr ⟨p1, mem_pyRangeDesc.mpr ⟨by omega, hp114⟩, ?_⟩
  refine List.mem_flatMap.mpr ⟨p2, mem_pyRangeDesc.mpr ⟨hp22, by omega⟩, ?_⟩
  exact List.mem_map.mpr
    ⟨k, List.mem_filter.mpr ⟨mem_pyRangeDesc.mpr ⟨hk2, hk14⟩, by simp [hne1, hne2]⟩, rfl⟩

theorem mem_pairHands {p k1 k2 k3 : Nat} (hp2 : 2 ≤ p) (hp14 : p ≤ 14)
    (hk32 : 2 ≤ k3) (hk114 : k1 ≤ 14) (h21 : k2 < k1) (h32 : k3 < k2)
    (hne1 : k1 ≠ p) (hne2 : k2 ≠ p) (hne3 : k3 ≠ p) :
    [p, p, k1, k2, k3] ∈ pairHands := by
  unfold pairHands
  refine List.mem_flatMap.mpr ⟨p, mem_pyRangeDesc.mpr ⟨hp2, hp14⟩, ?_⟩
  refine List.mem_map.mpr ⟨[k1, k2, k3], ?_, rfl⟩
  refine (mem_combinations _ _ _).mpr ⟨?_, rfl⟩
  apply sublist_filter_pyRangeDesc
  · refine List.Pairwise.cons (fun y hy => ?_)
      (List.Pairwise.cons (fun y hy => ?_) (List.Pairwise.cons (fun y hy => ?_) List.Pairwise.nil))
    · simp only [List.mem_cons, List.mem_singleton, List.not_mem_nil, or_false] at hy
      rcases hy with rfl | rfl <;> omega
    · simp only [List.mem_singleton] at hy
      omega
    · simp at hy
  · intro x hx
    simp only [List.mem_cons, List.not_mem_nil, or_false] at hx
    rcases hx with rfl | rfl | rfl <;> omega
  · intro x hx
    simp only [List.mem_cons, List.not_mem_nil, or_false] at hx
    rcases hx with rfl | rfl | rfl <;> simp [hne1, hne2, hne3]

theorem sf_straights_not_highcard :
    ∀ s ∈ sf_straights, straightHigh (sortDesc s) ≠ none := by decide

theorem mem_flushHands {l : List Nat} (hpw : List.Pairwise (fun x y => y < x) l)
    (hlen : l.length = 5) (hb : ∀ x ∈ l, 2 ≤ x ∧ x ≤ 14)
    (hns : straightHigh l = none) : l ∈ flushHands := by
  have hself : sortDesc l = l :=
    sortDesc_eq_self (hpw.imp (fun h => le_of_lt h))
  unfold flushHands
  refine List.mem_filter.mpr
    ⟨(mem_combinations _ _ _).mpr ⟨pairwise_sublist_pyRangeDesc 14 l hpw hb, hlen⟩, ?_⟩
  cases hany : sf_straights.any (fun s => decide (sortDesc s = sortDesc l)) with
  | false => rfl
  | true =>
    exfalso
    rcases List.any_eq_true.mp hany with ⟨s, hs, hdec⟩
    apply sf_straights_not_highcard s hs
    rw [of_decide_eq_true hdec, hself]
    exact hns

theorem mem_classList_iff {e : RankClass} :
    e ∈ classList ↔ e ∈ cSF ∨ e ∈ cQuad ∨ e ∈ cFH ∨ e ∈ cFlush ∨ e ∈ cStraight ∨
      e ∈ cTrips ∨ e ∈ cTwoPair ∨ e ∈ cPair ∨ e ∈ cHigh := by
  rw [classList_eq]
  simp only [List.mem_append]

theorem pairwise5_strict {a b c d e : Nat} (h1 : b < a) (h2 : c < b) (h3 : d < c)
    (h4 : e < d) : List.Pairwise (fun x y => y < x) [a, b, c, d, e] := by
  refine List.Pairwise.cons (fun y hy => ?_) (List.Pairwise.cons (fun y hy => ?_)
    (List.Pairwise.cons (fun y hy => ?_)
      (List.Pairwise.cons (fun y hy => ?_)
        (List.Pairwise.cons (fun y hy => ?_) List.Pairwise.nil))))
  · simp only [List.mem_cons, List.mem_singleton, List.not_mem_nil, or_false] at hy
    rcases hy with rfl | rfl | rfl | rfl <;> omega
  · simp only [List.mem_cons, List.mem_singleton, List.not_mem_nil, or_false] at hy
    rcases hy with rfl | rfl | rfl <;> omega
  · simp only [List.mem_cons, List.mem_singleton, List.not_mem_nil, or_false] at hy
    rcases hy with rfl | rfl <;> omega
  · simp only [List.mem_singleton] at hy
    omega
  · simp at hy

theorem sortDesc_sorted5 {x1 x2 x3 x4 x5 : Nat} (h12 : x2 ≤ x1) (h23 : x3 ≤ x2)
    (h34 : x4 ≤ x3) (h45 : x5 ≤ x4) :
    sortDesc [x1, x2, x3, x4, x5] = [x1, x2, x3, x4, x5] := by
  apply sortDesc_eq_self
  refine List.Pairwise.cons (fun y hy => ?_) (List.Pairwise.cons (fun y hy => ?_)
    (List.Pairwise.cons (fun y hy => ?_)
      (List.Pairwise.cons (fun y hy => ?_)
        (List.Pairwise.cons (fun y hy => ?_) List.Pairwise.nil))))
  · simp only [List.mem_cons, List.mem_singleton, List.not_mem_nil, or_false] at hy
    rcases hy with rfl | rfl | rfl | rfl <;> omega
  · simp only [List.mem_cons, List.mem_singleton, List.not_mem_nil, or_false] at hy
    rcases hy with rfl | rfl | rfl <;> omega
  · simp only [List.mem_cons, List.mem_singleton, List.not_mem_nil, or_false] at hy
    rcases hy with rfl | rfl <;> omega
  · simp only [List.mem_singleton] at hy
    omega
  · simp at hy

theorem sortS1 {x y : Nat} (h : x < y) : sortDesc [x, x, x, y, y] = [y, y, x, x, x] := by
  have p1 : x ≤ y := by omega
  have n1 : ¬ y ≤ x := by omega
  simp [sortDesc, List.insertionSort, List.orderedInsert, p1, n1, le_refl]

theorem sortS2 {y x k : Nat} (h1 : x < k) (h2 : k < y) :
    sortDesc [y, y, x, x, k] = [y, y, k, x, x] := by
  have p1 : x ≤ k := by omega
  have p2 : x ≤ y := by omega
  have p3 : k ≤ y := by omega
  have n1 : ¬ k ≤ x := by omega
  have n2 : ¬ y ≤ x := by omega
  have n3 : ¬ y ≤ k := by omega
  simp [sortDesc, List.insertionSort, List.orderedInsert, p1, p2, p3, n1, n2, n3, le_refl]

theorem sortS3 {x y : Nat} (h : x < y) : sortDesc [x, x, x, x, y] = [y, x, x, x, x] := by
  have p1 : x ≤ y := by omega
  have n1 : ¬ y ≤ x := by omega
  simp [sortDesc, List.insertionSort, List.orderedInsert, p1, n1, le_refl]

theorem sortS4 {x y z : Nat} (h1 : z < x) (h2 : x < y) :
    sortDesc [x, x, x, y, z] = [y, x, x, x, z] := by
  have p1 : z ≤ x := by omega
  have p2 : z ≤ y := by omega
  have p3 : x ≤ y := by omega
  have n1 : ¬ x ≤ z := by omega
  have n2 : ¬ y ≤ z := by omega
  have n3 : ¬ y ≤ x := by omega
  simp [sortDesc, List.insertionSort, List.orderedInsert, p1, p2, p3, n1, n2, n3, le_refl]

theorem sortS5 {x z y : Nat} (h1 : z < x) (h2 : x < y) :
    sortDesc [x, x, z, z, y] = [y, x, x, z, z] := by
  have p1 : z ≤ x := by omega
  have p2 : z ≤ y := by omega
  have p3 : x ≤ y := by omega
  have n1 : ¬ x ≤ z := by omega
  have n2 : ¬ y ≤ z := by omega
  have n3 : ¬ y ≤ x := by omega
  simp [sortDesc, List.insertionSort, List.orderedInsert, p1, p2, p3, n1, n2, n3, le_refl]

theorem sortS6 {x y z w : Nat} (h1 : w < z) (h2 : z < x) (h3 : x < y) :
    sortDesc [x, x, y, z, w] = [y, x, x, z, w] := by
  have p1 : w ≤ z := by omega
  have p2 : w ≤ x := by omega
  have p3 : w ≤ y := by omega
  have p4 : z ≤ x := by omega
  have p5 : z ≤ y := by omega
  have p6 : x ≤ y := by omega
  have n1 : ¬ z ≤ w := by omega
  have n2 : ¬ x ≤ w := by omega
  have n3 : ¬ y ≤ w := by omega
  have n4 : ¬ x ≤ z := by omega
  have n5 : ¬ y ≤ z := by omega
  have n6 : ¬ y ≤ x := by omega
  simp [sortDesc, List.insertionSort, List.orderedInsert, p1, p2, p3, p4, p5, p6,
    n1, n2, n3, n4, n5, n6, le_refl]

theorem sortS7 {x y z : Nat} (h1 : x < z) (h2 : z < y) :
    sortDesc [x, x, x, y, z] = [y, z, x, x, x] := by
  have p1 : x ≤ z := by omega
  have p2 : x ≤ y := by omega
  have p3 : z ≤ y := by omega
  have n1 : ¬ z ≤ x := by omega
  have n2 : ¬ y ≤ x := by omega
  have n3 : ¬ y ≤ z := by omega
  simp [sortDesc, List.insertionSort, List.orderedInsert, p1, p2, p3, n1, n2, n3, le_refl]

theorem sortS8 {x y z w : Nat} (h1 : w < x) (h2 : x < z) (h3 : z < y) :
    sortDesc [x, x, y, z, w] = [y, z, x, x, w] := by
  have p1 : w ≤ x := by omega
  have p2 : w ≤ z := by omega
  have p3 : w ≤ y := by omega
  have p4 : x ≤ z := by omega
  have p5 : x ≤ y := by omega
  have p6 : z ≤ y := by omega
  have n1 : ¬ x ≤ w := by omega
  have n2 : ¬ z ≤ w := by omega
  have n3 : ¬ y ≤ w := by omega
  have n4 : ¬ z ≤ x := by omega
  have n5 : ¬ y ≤ x := by omega
  have n6 : ¬ y ≤ z := by omega
  simp [sortDesc, List.insertionSort, List.orderedInsert, p1, p2, p3, p4, p5, p6,
    n1, n2, n3, n4, n5, n6, le_refl]

theorem sortS9 {x y z w : Nat} (h1 : x < w) (h2 : w < z) (h3 : z < y) :
    sortDesc [x, x, y, z, w] = [y, z, w, x, x] := by
  have p1 : x ≤ w := by omega
  have p2 : x ≤ z := by omega
  have p3 : x ≤ y := by omega
  have p4 : w ≤ z := by omega
  have p5 : w ≤ y := by omega
  have p6 : z ≤ y := by omega
  have n1 : ¬ w ≤ x := by omega
  have n2 : ¬ z ≤ x := by omega
  have n3 : ¬ y ≤ x := by omega
  have n4 : ¬ z ≤ w := by omega
  have n5 : ¬ y ≤ w := by omega
  have n6 : ¬ y ≤ z := by omega
  simp [sortDesc, List.insertionSort, List.orderedInsert, p1, p2, p3, p4, p5, p6,
    n1, n2, n3, n4, n5, n6, le_refl]

theorem straightHigh_quint (a b c d e : Nat) :
    straightHigh [a, b, c, d, e] =
      (if a = b + 1 ∧ b = c + 1 ∧ c = d + 1 ∧ d = e + 1 then some a
       else if a = 14 ∧ b = 5 ∧ c = 4 ∧ d = 3 ∧ e = 2 then some 5 else none) := rfl

theorem straightHigh_some_iff {a b c d e : Nat} :
    straightHigh [a, b, c, d, e] ≠ none ↔
      ((a = b + 1 ∧ b = c + 1 ∧ c = d + 1 ∧ d = e + 1) ∨
       (a = 14 ∧ b = 5 ∧ c = 4 ∧ d = 3 ∧ e = 2)) := by
  rw [straightHigh_quint]
  by_cases h1 : a = b + 1 ∧ b = c + 1 ∧ c = d + 1 ∧ d = e + 1
  · simp [h1]
  · rw [if_neg h1]
    by_cases h2 : a = 14 ∧ b = 5 ∧ c = 4 ∧ d = 3 ∧ e = 2
    · simp [h1, h2]
    · simp [h1, h2]

theorem straight_complete {a b c d e : Nat}
    (hcons : (a = b + 1 ∧ b = c + 1 ∧ c = d + 1 ∧ d = e + 1) ∨
             (a = 14 ∧ b = 5 ∧ c = 4 ∧ d = 3 ∧ e = 2))
    (he2 : 2 ≤ e) (ha14 : a ≤ 14) :
    ∃ t ∈ sf_straights, sortDesc t = [a, b, c, d, e] := by
  rcases hcons with ⟨h1, h2, h3, h4⟩ | ⟨h1, h2, h3, h4, h5⟩
  · subst h1
    subst h2
    subst h3
    subst h4
    have he10 : e ≤ 10 := by omega
    interval_cases e
    · exact ⟨[6, 5, 4, 3, 2], by decide, by decide⟩
    · exact ⟨[7, 6, 5, 4, 3], by decide, by decide⟩
    · exact ⟨[8, 7, 6, 5, 4], by decide, by decide⟩
    · exact ⟨[9, 8, 7, 6, 5], by decide, by decide⟩
    · exact ⟨[10, 9, 8, 7, 6], by decide, by decide⟩
    · exact ⟨[11, 10, 9, 8, 7], by decide, by decide⟩
    · exact ⟨[12, 11, 10, 9, 8], by decide, by decide⟩
    · exact ⟨[13, 12, 11, 10, 9], by decide, by decide⟩
    · exact ⟨[14, 13, 12, 11, 10], by decide, by decide⟩
  · subst h1
    subst h2
    subst h3
    subst h4
    subst h5
    exact ⟨[5, 4, 3, 2, 14], by decide, by decide⟩

/-- Every strictly descending in-range rank quintuple occurs among the
flush classes. -/
theorem flush_complete {a b c d e : Nat}
    (hba : b < a) (hcb : c < b) (hdc : d < c) (hed : e < d)
    (he2 : 2 ≤ e) (ha14 : a ≤ 14) :
    ∃ e₀ ∈ classList, sortDesc e₀.ranks = [a, b, c, d, e] ∧
      e₀.tag = TableTag.flushT := by
  by_cases hsh : straightHigh [a, b, c, d, e] = none
  · refine ⟨⟨[a, b, c, d, e], TableTag.flushT⟩, ?_, ?_, rfl⟩
    · apply mem_classList_iff.mpr
      refine Or.inr (Or.inr (Or.inr (Or.inl ?_)))
      exact List.mem_map.mpr
        ⟨[a, b, c, d, e],
         mem_flushHands (pairwise5_strict hba hcb hdc hed) rfl
           (fun x hx => by
             simp only [List.mem_cons, List.mem_singleton, List.not_mem_nil, or_false] at hx
             rcases hx with rfl | rfl | rfl | rfl | rfl <;> omega) hsh, rfl⟩
    · exact sortDesc_sorted5 (le_of_lt hba) (le_of_lt hcb) (le_of_lt hdc) (le_of_lt hed)
  · rcases straight_complete (straightHigh_some_iff.mp hsh) he2 ha14 with ⟨t, ht, hsort⟩
    refine ⟨⟨t, TableTag.flushT⟩, ?_, hsort, rfl⟩
    apply mem_classList_iff.mpr
    exact Or.inl (List.mem_map.mpr ⟨t, ht, rfl⟩)

/-- Every strictly descending in-range rank quintuple also occurs among
the non-flush distinct-rank classes. -/
theorem unique_complete {a b c d e : Nat}
    (hba : b < a) (hcb : c < b) (hdc : d < c) (hed : e < d)
    (he2 : 2 ≤ e) (ha14 : a ≤ 14) :
    ∃ e₀ ∈ classList, sortDesc e₀.ranks = [a, b, c, d, e] ∧
      e₀.tag = TableTag.uniqueT := by
  by_cases hsh : straightHigh [a, b, c, d, e] = none
  · refine ⟨⟨[a, b, c, d, e], TableTag.uniqueT⟩, ?_, ?_, rfl⟩
    · apply mem_classList_iff.mpr
      refine Or.inr (Or.inr (Or.inr (Or.inr (Or.inr (Or.inr (Or.inr (Or.inr ?_)))))))
      exact List.mem_map.mpr
        ⟨[a, b, c, d, e],
         mem_flushHands (pairwise5_strict hba hcb hdc hed) rfl
           (fun x hx => by
             simp only [List.mem_cons, List.mem_singleton, List.not_mem_nil, or_false] at hx
             rcases hx with rfl | rfl | rfl | rfl | rfl <;> omega) hsh, rfl⟩
    · exact sortDesc_sorted5 (le_of_lt hba) (le_of_lt hcb) (le_of_lt hdc) (le_of_lt hed)
  · rcases straight_complete (straightHigh_some_iff.mp hsh) he2 ha14 with ⟨t, ht, hsort⟩
    refine ⟨⟨t, TableTag.uniqueT⟩, ?_, hsort, rfl⟩
    apply mem_classList_iff.mpr
    refine Or.inr (Or.inr (Or.inr (Or.inr (Or.inl ?_))))
    exact List.mem_map.mpr ⟨t, (by exact ht : t ∈ straight_hands), rfl⟩

/-- Every descending in-range rank quintuple that is neither five of a
kind nor five distinct ranks occurs among the `pairs`-table classes. -/
theorem pairs_complete {a b c d e : Nat}
    (hab : b ≤ a) (hbc : c ≤ b) (hcd : d ≤ c) (hde : e ≤ d)
    (he2 : 2 ≤ e) (ha14 : a ≤ 14)
    (hne : ¬ (a = b ∧ b = c ∧ c = d ∧ d = e))
    (hrep : ¬ (a ≠ b ∧ b ≠ c ∧ c ≠ d ∧ d ≠ e)) :
    ∃ e₀ ∈ classList, sortDesc e₀.ranks = [a, b, c, d, e] ∧
      e₀.tag = TableTag.pairsT := by
  by_cases h1 : a = b
  · by_cases h2 : b = c
    · by_cases h3 : c = d
      · by_cases h4 : d = e
        · exact absurd ⟨h1, h2, h3, h4⟩ hne
        · -- a a a a e : four of a kind, kicker low
          subst h1; subst h2; subst h3
          refine ⟨⟨[a, a, a, a, e], TableTag.pairsT⟩, ?_, ?_, rfl⟩
          · exact mem_classList_iff.mpr (Or.inr (Or.inl (List.mem_map.mpr
              ⟨_, mem_quadHands (by omega) ha14 he2 (by omega)
                (fun h => h4 h.symm), rfl⟩)))
          · exact sortDesc_sorted5 (le_refl a) (le_refl a) (le_refl a) hde
      · by_cases h4 : d = e
        · -- a a a d d : full house, high trips
          subst h1; subst h2; subst h4
          refine ⟨⟨[a, a, a, d, d], TableTag.pairsT⟩, ?_, ?_, rfl⟩
          · exact mem_classList_iff.mpr (Or.inr (Or.inr (Or.inl (List.mem_map.mpr
              ⟨_, mem_fullHouseHands (by omega) ha14 he2 (by omega)
                (fun h => h3 h.symm), rfl⟩))))
          · exact sortDesc_sorted5 (le_refl a) (le_refl a) hcd (le_refl d)
        · -- a a a d e : trips, two low kickers
          subst h1; subst h2
          refine ⟨⟨[a, a, a, d, e], TableTag.pairsT⟩, ?_, ?_, rfl⟩
          · exact mem_classList_iff.mpr (Or.inr (Or.inr (Or.inr (Or.inr (Or.inr (Or.inl
              (List.mem_map.mpr ⟨_, mem_tripsHands (by omega) ha14 he2 (by omega)
                (by omega) (fun h => h3 h.symm) (by omega), rfl⟩)))))))
          · exact sortDesc_sorted5 (le_refl a) (le_refl a) hcd hde
    · by_cases h3 : c = d
      · by_cases h4 : d = e
        · -- a a c c c : full house, low trips
          subst h1; subst h3; subst h4
          refine ⟨⟨[c, c, c, a, a], TableTag.pairsT⟩, ?_, ?_, rfl⟩
          · exact mem_classList_iff.mpr (Or.inr (Or.inr (Or.inl (List.mem_map.mpr
              ⟨_, mem_fullHouseHands he2 (by omega) (by omega) ha14 h2, rfl⟩))))
          · exact sortS1 (by omega)
        · -- a a c c e : two pair, kicker low
          subst h1; subst h3
          refine ⟨⟨[a, a, c, c, e], TableTag.pairsT⟩, ?_, ?_, rfl⟩
          · exact mem_classList_iff.mpr (Or.inr (Or.inr (Or.inr (Or.inr (Or.inr (Or.inr
              (Or.inl (List.mem_map.mpr ⟨_, mem_twoPairHands (by omega) ha14
                (by omega) he2 (by omega) (by omega) (fun h => h4 h.symm), rfl⟩))))))))
          · exact sortDesc_sorted5 (le_refl a) hbc (le_refl c) hde
      · by_cases h4 : d = e
        · -- a a c d d : two pair, kicker middle
          subst h1; subst h4
          refine ⟨⟨[a, a, d, d, c], TableTag.pairsT⟩, ?_, ?_, rfl⟩
          · exact mem_classList_iff.mpr (Or.inr (Or.inr (Or.inr (Or.inr (Or.inr (Or.inr
              (Or.inl (List.mem_map.mpr ⟨_, mem_twoPairHands he2 ha14
                (by omega) (by omega) (by omega) (fun h => h2 h.symm) h3, rfl⟩))))))))
          · exact sortS2 (by omega) (by omega)
        · -- a a c d e : one pair high
          subst h1
          refine ⟨⟨[a, a, c, d, e], TableTag.pairsT⟩, ?_, ?_, rfl⟩
          · exact mem_classList_iff.mpr (Or.inr (Or.inr (Or.inr (Or.inr (Or.inr (Or.inr
              (Or.inr (Or.inl (List.mem_map.mpr ⟨_, mem_pairHands (by omega) ha14
                he2 (by omega) (by omega) (by omega) (fun h => h2 h.symm)
                (by omega) (by omega), rfl⟩)))))))))
          · exact sortDesc_sorted5 (le_refl a) hbc hcd hde
  · by_cases h2 : b = c
    · by_cases h3 : c = d
      · by_cases h4 : d = e
        · -- a b b b b : quads, kicker high
          subst h2; subst h3; subst h4
          refine ⟨⟨[b, b, b, b, a], TableTag.pairsT⟩, ?_, ?_, rfl⟩
          · exact mem_classList_iff.mpr (Or.inr (Or.inl (List.mem_map.mpr
              ⟨_, mem_quadHands he2 (by omega) (by omega) ha14 h1, rfl⟩)))
          · exact sortS3 (by omega)
        · -- a b b b e : trips, kickers high and low
          subst h2; subst h3
          refine ⟨⟨[b, b, b, a, e], TableTag.pairsT⟩, ?_, ?_, rfl⟩
          · exact mem_classList_iff.mpr (Or.inr (Or.inr (Or.inr (Or.inr (Or.inr (Or.inl
              (List.mem_map.mpr ⟨_, mem_tripsHands (by omega) (by omega) he2 ha14
                (by omega) h1 (fun h => h4 h.symm), rfl⟩)))))))
          · exact sortS4 (by omega) (by omega)
      · by_cases h4 : d = e
        · -- a b b d d : two pair, kicker high
          subst h2; subst h4
          refine ⟨⟨[b, b, d, d, a], TableTag.pairsT⟩, ?_, ?_, rfl⟩
          · exact mem_classList_iff.mpr (Or.inr (Or.inr (Or.inr (Or.inr (Or.inr (Or.inr
              (Or.inl (List.mem_map.mpr ⟨_, mem_twoPairHands he2 (by omega)
                (by omega) (by omega) ha14 h1 (by omega), rfl⟩))))))))
          · exact sortS5 (by omega) (by omega)
        · -- a b b d e : one pair, kicker above
          subst h2
          refine ⟨⟨[b, b, a, d, e], TableTag.pairsT⟩, ?_, ?_, rfl⟩
          · exact mem_classList_iff.mpr (Or.inr (Or.inr (Or.inr (Or.inr (Or.inr (Or.inr
              (Or.inr (Or.inl (List.mem_map.mpr ⟨_, mem_pairHands (by omega) (by omega)
                he2 ha14 (by omega) (by omega) h1 (fun h => h3 h.symm)
                (by omega), rfl⟩)))))))))
          · exact sortS6 (by omega) (by omega) (by omega)
    · by_cases h3 : c = d
      · by_cases h4 : d = e
        · -- a b c c c : trips, two high kickers
          subst h3; subst h4
          refine ⟨⟨[c, c, c, a, b], TableTag.pairsT⟩, ?_, ?_, rfl⟩
          · exact mem_classList_iff.mpr (Or.inr (Or.inr (Or.inr (Or.inr (Or.inr (Or.inl
              (List.mem_map.mpr ⟨_, mem_tripsHands he2 (by omega) (by omega) ha14
                (by omega) (by omega) h2, rfl⟩)))))))
          · exact sortS7 (by omega) (by omega)
        · -- a b c c e : one pair, two kickers above
          subst h3
          refine ⟨⟨[c, c, a, b, e], TableTag.pairsT⟩, ?_, ?_, rfl⟩
          · exact mem_classList_iff.mpr (Or.inr (Or.inr (Or.inr (Or.inr (Or.inr (Or.inr
              (Or.inr (Or.inl (List.mem_map.mpr ⟨_, mem_pairHands (by omega) (by omega)
                he2 ha14 (by omega) (by omega) (by omega) h2 (by omega), rfl⟩)))))))))
          · exact sortS8 (by omega) (by omega) (by omega)
      · by_cases h4 : d = e
        · -- a b c d d : one pair, three kickers above
          subst h4
          refine ⟨⟨[d, d, a, b, c], TableTag.pairsT⟩, ?_, ?_, rfl⟩
          · exact mem_classList_iff.mpr (Or.inr (Or.inr (Or.inr (Or.inr (Or.inr (Or.inr
              (Or.inr (Or.inl (List.mem_map.mpr ⟨_, mem_pairHands he2 (by omega)
                (by omega) ha14 (by omega) (by omega) (by omega) (by omega) h3, rfl⟩)))))))))
          · exact sortS9 (by omega) (by omega) (by omega)
        · exact absurd ⟨h1, h2, h3, h4⟩ hrep

/-! ### Scores, tables and lookup resolution -/

theorem mem_scoredEntries_iff {e : RankClass} {v : Nat} :
    (e, v) ∈ scoredEntries ↔
      ∃ i, classList[i]? = some e ∧ v = i + 1 := by
  unfold scoredEntries
  simp only [List.mem_map]
  constructor
  · rintro ⟨⟨i, e'⟩, hmem, heq⟩
    injection heq with he hv
    subst he
    subst hv
    exact ⟨i, (List.mk_mem_enum_iff_getElem?).mp hmem, rfl⟩
  · rintro ⟨i, hget, rfl⟩
    exact ⟨(i, e), (List.mk_mem_enum_iff_getElem?).mpr hget, rfl⟩

theorem mem_tableFor_iff {t : TableTag} {k v : Nat} :
    (k, v) ∈ tableFor t ↔
      ∃ e, (e, v) ∈ scoredEntries ∧ e.tag = t ∧ k = classKey e := by
  unfold tableFor
  simp only [List.mem_map, List.mem_filter]
  constructor
  · rintro ⟨⟨e, v'⟩, ⟨hmem, htag⟩, heq⟩
    injection heq with hk hv
    subst hk
    subst hv
    exact ⟨e, hmem, by simpa using htag, rfl⟩
  · rintro ⟨e, hmem, htag, rfl⟩
    exact ⟨(e, v), ⟨hmem, by simpa using htag⟩, rfl⟩

theorem scored_entry_mem_classList {e : RankClass} {v : Nat}
    (h : (e, v) ∈ scoredEntries) : e ∈ classList := by
  rcases mem_scoredEntries_iff.mp h with ⟨i, hget, _⟩
  rcases List.getElem?_eq_some_iff.mp hget with ⟨hi, hval⟩
  exact hval ▸ List.get_mem classList i hi

/-- Two entries of the prime-product tables with the same key have the
same standard value. -/
theorem prime_key_same_std {e1 e2 : RankClass}
    (m1 : e1 ∈ classList) (m2 : e2 ∈ classList)
    (ht1 : e1.tag ≠ TableTag.flushT) (ht2 : e2.tag ≠ TableTag.flushT)
    (hk : prime_product e1.ranks = prime_product e2.ranks) :
    stdValueEntry e1 = stdValueEntry e2 := by
  have b1 := (classList_ranks_ok e1 m1).2
  have b2 := (classList_ranks_ok e2 m2).2
  have hperm := ranks_perm_of_prime_product_eq b1 b2 hk
  unfold stdValueEntry
  have hflag1 : entryIsFlush e1 = false := by
    unfold entryIsFlush
    simpa using ht1
  have hflag2 : entryIsFlush e2 = false := by
    unfold entryIsFlush
    simpa using ht2
  rw [hflag1, hflag2]
  exact stdValue_congr false (sortDesc_eq_of_perm hperm)

/-- Two flush-table entries with the same rank mask have the same
standard value. -/
theorem flush_key_same_std {e1 e2 : RankClass}
    (m1 : e1 ∈ classList) (m2 : e2 ∈ classList)
    (ht1 : e1.tag = TableTag.flushT) (ht2 : e2.tag = TableTag.flushT)
    (hk : rank_bits e1.ranks = rank_bits e2.ranks) :
    stdValueEntry e1 = stdValueEntry e2 := by
  have b1 := (classList_ranks_ok e1 m1).2
  have b2 := (classList_ranks_ok e2 m2).2
  have nd1 : e1.ranks.Nodup := classList_nonpairs_nodup e1 m1 (by rw [ht1]; intro h; cases h)
  have nd2 : e2.ranks.Nodup := classList_nonpairs_nodup e2 m2 (by rw [ht2]; intro h; cases h)
  have hs1 : sortDesc e1.ranks = sortDesc e2.ranks := by
    apply strictDesc_eq_of_mem_iff _ _ (sortDesc_strict nd1) (sortDesc_strict nd2)
    intro x
    have hmem1 : ∀ y, y ∈ sortDesc e1.ranks ↔ y ∈ e1.ranks :=
      fun y => (sortDesc_perm e1.ranks).mem_iff
    have hmem2 : ∀ y, y ∈ sortDesc e2.ranks ↔ y ∈ e2.ranks :=
      fun y => (sortDesc_perm e2.ranks).mem_iff
    rw [hmem1, hmem2]
    by_cases hx : 2 ≤ x
    · have hx2 : x - 2 + 2 = x := by omega
      constructor
      · intro hm
        have := (testBit_rank_bits (fun r hr => (b2 r hr).1) (x - 2)).mp
        rw [hx2] at this
        apply this
        rw [← hk]
        exact (by
          have := (testBit_rank_bits (fun r hr => (b1 r hr).1) (x - 2)).mpr
          rw [hx2] at this
          exact this hm)
      · intro hm
        have := (testBit_rank_bits (fun r hr => (b1 r hr).1) (x - 2)).mp
        rw [hx2] at this
        apply this
        rw [hk]
        exact (by
          have := (testBit_rank_bits (fun r hr => (b2 r hr).1) (x - 2)).mpr
          rw [hx2] at this
          exact this hm)
    · constructor
      · intro hm; exact absurd (b1 x hm).1 hx
      · intro hm; exact absurd (b2 x hm).1 hx
  unfold stdValueEntry entryIsFlush
  rw [ht1, ht2]
  exact stdValue_congr _ hs1

/-- The position-indexed ordering of scores. -/
theorem classList_get_anti {i j : Nat} (hi : i < classList.length)
    (hj : j < classList.length) (hij : i < j) :
    stdValueEntry (classList.get ⟨j, hj⟩) < stdValueEntry (classList.get ⟨i, hi⟩) := by
  have hp : List.Pairwise (fun x y => y < x) (classList.map stdValueEntry) :=
    List.chain'_iff_pairwise.mp classList_chain
  have hlen : i < (classList.map stdValueEntry).length := by
    simpa using hi
  have hlen' : j < (classList.map stdValueEntry).length := by
    simpa using hj
  have := (List.pairwise_iff_getElem.mp hp) i j hlen hlen' hij
  simpa using this

/-! ### Hands and the main evaluation lemma -/

theorem exists_quintuple {α : Type} {l : List α} (h : l.length = 5) :
    ∃ a b c d e : α, l = [a, b, c, d, e] := by
  rcases l with _ | ⟨a, _ | ⟨b, _ | ⟨c, _ | ⟨d, _ | ⟨e, _ | ⟨f, t⟩⟩⟩⟩⟩⟩
  · simp at h
  · simp at h
  · simp at h
  · simp at h
  · simp at h
  · exact ⟨a, b, c, d, e, rfl⟩
  · simp at h

theorem not_all_ranks_eq {cards : List PCard} (hlen : cards.length = 5)
    (hnd : cards.Nodup) (hv : ∀ c ∈ cards, c.Valid) (r : Nat) :
    ¬ (∀ c ∈ cards, c.rank = r) := by
  intro hall
  have hsuits : (cards.map PCard.suit).Nodup := by
    refine List.Nodup.map_on ?_ hnd
    intro x hx y hy hsxy
    have hrx := hall x hx
    have hry := hall y hy
    obtain ⟨xr, xs⟩ := x
    obtain ⟨yr, ys⟩ := y
    simp only at hrx hry hsxy
    rw [hrx, hry, hsxy]
  have hsub : (cards.map PCard.suit) ⊆ [0, 1, 2, 3] := by
    intro s hs
    rcases List.mem_map.mp hs with ⟨c, hc, rfl⟩
    have := (hv c hc).2.2
    simp only [List.mem_cons, List.mem_singleton, List.not_mem_nil, or_false]
    omega
  have hsp := (List.Nodup.subperm hsuits hsub).length_le
  rw [List.length_map, hlen] at hsp
  simp at hsp

theorem flush_ranks_nodup {cards : List PCard} (hnd : cards.Nodup)
    (hf : isFlushHand cards = true) : (cards.map PCard.rank).Nodup := by
  cases cards with
  | nil => simp
  | cons c0 rest =>
    refine List.Nodup.map_on ?_ hnd
    have hsuit : ∀ z ∈ c0 :: rest, z.suit = c0.suit := by
      intro z hz
      rcases List.mem_cons.mp hz with rfl | hz2
      · rfl
      · have hall : rest.all (fun x => decide (x.suit = c0.suit)) = true := by
          simpa [isFlushHand] using hf
        exact of_decide_eq_true (List.all_eq_true.mp hall z hz2)
    intro x hx y hy hrxy
    have h1 := hsuit x hx
    have h2 := hsuit y hy
    obtain ⟨xr, xs⟩ := x
    obtain ⟨yr, ys⟩ := y
    simp only at h1 h2 hrxy
    rw [hrxy, h1, h2]

theorem toInt_suit_mask2 {c : PCard} (h : c.Valid) :
    c.toInt &&& 0xF000 = suitBit c.suit := by
  obtain ⟨r, s⟩ := c
  exact toInt_suit_mask h.1 h.2.1 h.2.2

theorem toInt_shift2 {c : PCard} (h : c.Valid) :
    c.toInt >>> 16 = 1 <<< (c.rank - 2) := by
  obtain ⟨r, s⟩ := c
  exact toInt_shift h.1 h.2.1 h.2.2

theorem toInt_prime2 {c : PCard} (h : c.Valid) :
    c.toInt &&& 0x3F = rankPrime c.rank := by
  obtain ⟨r, s⟩ := c
  exact toInt_prime h.1 h.2.1 h.2.2

/-- The central lemma: a valid 5-card hand evaluates to `some (i + 1)`
where entry `i` of the class list has the hand's standard value. -/
theorem eval_5_spec {cards : List PCard} (hv : ValidHand cards) :
    ∃ i, ∃ hi : i < classList.length, eval_5 cards = some (i + 1) ∧
      stdValueEntry (classList.get ⟨i, hi⟩) = handStdValue cards := by
  obtain ⟨hlen, hnd, hval⟩ := hv
  obtain ⟨C1, C2, C3, C4, C5, rfl⟩ := exists_quintuple hlen
  have hv1 : C1.Valid := hval C1 (by simp)
  have hv2 : C2.Valid := hval C2 (by simp)
  have hv3 : C3.Valid := hval C3 (by simp)
  have hv4 : C4.Valid := hval C4 (by simp)
  have hv5 : C5.Valid := hval C5 (by simp)
  obtain ⟨a, b, c, d, e, hs⟩ :=
    exists_quintuple (l := sortDesc [C1.rank, C2.rank, C3.rank, C4.rank, C5.rank])
      (by rw [(sortDesc_perm _).length_eq]; rfl)
  have hpw : List.Pairwise (fun x y : Nat => x ≥ y) [a, b, c, d, e] := by
    rw [← hs]
    exact sortDesc_sorted _
  have hab : b ≤ a := (List.pairwise_cons.mp hpw).1 b (by simp)
  have hpw2 := (List.pairwise_cons.mp hpw).2
  have hbc : c ≤ b := (List.pairwise_cons.mp hpw2).1 c (by simp)
  have hpw3 := (List.pairwise_cons.mp hpw2).2
  have hcd : d ≤ c := (List.pairwise_cons.mp hpw3).1 d (by simp)
  have hpw4 := (List.pairwise_cons.mp hpw3).2
  have hde : e ≤ d := (List.pairwise_cons.mp hpw4).1 e (by simp)
  have hbnd : ∀ x ∈ ([a, b, c, d, e] : List Nat), 2 ≤ x ∧ x ≤ 14 := by
    intro x hx
    have hx2 : x ∈ [C1.rank, C2.rank, C3.rank, C4.rank, C5.rank] :=
      (hs ▸ sortDesc_perm _).mem_iff.mp hx
    simp only [List.mem_cons, List.mem_singleton, List.not_mem_nil, or_false] at hx2
    rcases hx2 with rfl | rfl | rfl | rfl | rfl
    · exact ⟨hv1.1, hv1.2.1⟩
    · exact ⟨hv2.1, hv2.2.1⟩
    · exact ⟨hv3.1, hv3.2.1⟩
    · exact ⟨hv4.1, hv4.2.1⟩
    · exact ⟨hv5.1, hv5.2.1⟩
  have he2 : 2 ≤ e := (hbnd e (by simp)).1
  have ha14 : a ≤ 14 := (hbnd a (by simp)).2
  have hne : ¬ (a = b ∧ b = c ∧ c = d ∧ d = e) := by
    rintro ⟨rfl, rfl, rfl, rfl⟩
    apply not_all_ranks_eq hlen hnd hval a
    intro c' hc'
    have hmem : c'.rank ∈ ([a, a, a, a, a] : List Nat) := by
      apply (hs ▸ sortDesc_perm _).mem_iff.mpr
      simp only [List.mem_cons, List.mem_singleton, List.not_mem_nil, or_false] at hc' ⊢
      rcases hc' with rfl | rfl | rfl | rfl | rfl <;> simp
    simpa using hmem
  have hkeyP : (C1.toInt &&& 0x3F) * (C2.toInt &&& 0x3F) * (C3.toInt &&& 0x3F) *
      (C4.toInt &&& 0x3F) * (C5.toInt &&& 0x3F) =
      prime_product [C1.rank, C2.rank, C3.rank, C4.rank, C5.rank] := by
    rw [toInt_prime2 hv1, toInt_prime2 hv2, toInt_prime2 hv3, toInt_prime2 hv4,
      toInt_prime2 hv5, prime_product_quint]
  have hkeyB : ((C1.toInt ||| C2.toInt ||| C3.toInt ||| C4.toInt ||| C5.toInt) >>> 16) &&&
      0x1FFF = rank_bits [C1.rank, C2.rank, C3.rank, C4.rank, C5.rank] := by
    rw [shiftRight_or_distrib, shiftRight_or_distrib, shiftRight_or_distrib,
      shiftRight_or_distrib, toInt_shift2 hv1, toInt_shift2 hv2, toInt_shift2 hv3,
      toInt_shift2 hv4, toInt_shift2 hv5, rank_bits_quint]
    have hlt : ∀ r : Nat, r ≤ 14 → 1 <<< (r - 2) < 2 ^ 13 := by
      intro r hr
      exact shiftLeft_one_lt (by omega)
    have hor : (((1 <<< (C1.rank - 2) ||| 1 <<< (C2.rank - 2)) ||| 1 <<< (C3.rank - 2)) |||
        1 <<< (C4.rank - 2)) ||| 1 <<< (C5.rank - 2) < 2 ^ 13 :=
      Nat.or_lt_two_pow
        (Nat.or_lt_two_pow
          (Nat.or_lt_two_pow
            (Nat.or_lt_two_pow (hlt _ hv1.2.1) (hlt _ hv2.2.1)) (hlt _ hv3.2.1))
          (hlt _ hv4.2.1)) (hlt _ hv5.2.1)
    have h8191 : (0x1FFF : Nat) = 2 ^ 13 - 1 := by norm_num
    rw [h8191]
    exact Nat.and_pow_two_sub_one_of_lt_two_pow hor
  have hbndr : ∀ x ∈ ([C1.rank, C2.rank, C3.rank, C4.rank, C5.rank] : List Nat),
      2 ≤ x ∧ x ≤ 14 := by
    intro x hx
    simp only [List.mem_cons, List.mem_singleton, List.not_mem_nil, or_false] at hx
    rcases hx with rfl | rfl | rfl | rfl | rfl
    · exact ⟨hv1.1, hv1.2.1⟩
    · exact ⟨hv2.1, hv2.2.1⟩
    · exact ⟨hv3.1, hv3.2.1⟩
    · exact ⟨hv4.1, hv4.2.1⟩
    · exact ⟨hv5.1, hv5.2.1⟩
  by_cases hf : isFlushHand [C1, C2, C3, C4, C5] = true
  · -- flush branch
    have hsuits : C2.suit = C1.suit ∧ C3.suit = C1.suit ∧ C4.suit = C1.suit ∧
        C5.suit = C1.suit := by
      have h := hf
      simp only [isFlushHand, List.all_cons, List.all_nil, Bool.and_eq_true,
        decide_eq_true_eq, and_true] at h
      exact h
    have hcond : (C1.toInt &&& 0xF000) = (C2.toInt &&& 0xF000) ∧
        (C2.toInt &&& 0xF000) = (C3.toInt &&& 0xF000) ∧
        (C3.toInt &&& 0xF000) = (C4.toInt &&& 0xF000) ∧
        (C4.toInt &&& 0xF000) = (C5.toInt &&& 0xF000) := by
      rw [toInt_suit_mask2 hv1, toInt_suit_mask2 hv2, toInt_suit_mask2 hv3,
        toInt_suit_mask2 hv4, toInt_suit_mask2 hv5, hsuits.1, hsuits.2.1,
        hsuits.2.2.1, hsuits.2.2.2]
      exact ⟨rfl, rfl, rfl, rfl⟩
    have hndr : ([C1.rank, C2.rank, C3.rank, C4.rank, C5.rank] : List Nat).Nodup := by
      have h := flush_ranks_nodup hnd hf
      simpa using h
    have hstrict : List.Pairwise (fun x y => y < x) [a, b, c, d, e] := by
      rw [← hs]
      exact sortDesc_strict hndr
    have hba : b < a := (List.pairwise_cons.mp hstrict).1 b (by simp)
    have hst2 := (List.pairwise_cons.mp hstrict).2
    have hcb : c < b := (List.pairwise_cons.mp hst2).1 c (by simp)
    have hst3 := (List.pairwise_cons.mp hst2).2
    have hdc : d < c := (List.pairwise_cons.mp hst3).1 d (by simp)
    have hst4 := (List.pairwise_cons.mp hst3).2
    have hed : e < d := (List.pairwise_cons.mp hst4).1 e (by simp)
    obtain ⟨e₀, hm0, hsort0, htag0⟩ := flush_complete hba hcb hdc hed he2 ha14
    have hck0 : classKey e₀ = rank_bits e₀.ranks := by
      unfold classKey
      rw [htag0]
    have hkeyeq : rank_bits [C1.rank, C2.rank, C3.rank, C4.rank, C5.rank] =
        classKey e₀ := by
      rw [hck0]
      calc rank_bits [C1.rank, C2.rank, C3.rank, C4.rank, C5.rank]
          = rank_bits (sortDesc [C1.rank, C2.rank, C3.rank, C4.rank, C5.rank]) :=
            (rank_bits_perm (sortDesc_perm _)).symm
        _ = rank_bits [a, b, c, d, e] := by rw [hs]
        _ = rank_bits (sortDesc e₀.ranks) := by rw [hsort0]
        _ = rank_bits e₀.ranks := rank_bits_perm (sortDesc_perm _)
    obtain ⟨i0, hget0⟩ := List.mem_iff_getElem?.mp hm0
    have hscored : (e₀, i0 + 1) ∈ scoredEntries := mem_scoredEntries_iff.mpr ⟨i0, hget0, rfl⟩
    have htbl : (classKey e₀, i0 + 1) ∈ flush_table :=
      mem_tableFor_iff.mpr ⟨e₀, hscored, htag0, rfl⟩
    rw [← hkeyeq] at htbl
    obtain ⟨w, hw⟩ := dictLookup_isSome_of_mem htbl
    obtain ⟨e₁, hscored1, htag1, hkey1⟩ := mem_tableFor_iff.mp (dictLookup_mem hw)
    obtain ⟨i1, hget1, hw_eq⟩ := mem_scoredEntries_iff.mp hscored1
    obtain ⟨hi1, hval1⟩ := List.getElem?_eq_some_iff.mp hget1
    subst hw_eq
    refine ⟨i1, hi1, ?_, ?_⟩
    · show eval_5_ints C1.toInt C2.toInt C3.toInt C4.toInt C5.toInt = some (i1 + 1)
      unfold eval_5_ints
      rw [if_pos hcond, hkeyB, hw]
    · have hstd1 : stdValueEntry e₁ = stdValueEntry e₀ := by
        apply flush_key_same_std (scored_entry_mem_classList hscored1) hm0 htag1 htag0
        have hck1 : classKey e₁ = rank_bits e₁.ranks := by
          unfold classKey
          rw [htag1]
        rw [← hck1, ← hck0, ← hkey1, hkeyeq]
      have hget_eq : classList.get ⟨i1, hi1⟩ = e₁ := by
        simpa using hval1
      rw [hget_eq, hstd1]
      unfold stdValueEntry handStdValue
      have hflag : entryIsFlush e₀ = true := by
        unfold entryIsFlush
        rw [htag0]
        rfl
      rw [hflag]
      have hmapr : ([C1, C2, C3, C4, C5].map PCard.rank) =
          [C1.rank, C2.rank, C3.rank, C4.rank, C5.rank] := rfl
      rw [hmapr, hf]
      apply stdValue_congr
      rw [hsort0]
      exact hs.symm
  · -- non-flush branch
    have hfF : isFlushHand [C1, C2, C3, C4, C5] = false := by
      cases hflush : isFlushHand [C1, C2, C3, C4, C5] with
      | true => exact absurd hflush hf
      | false => rfl
    have hncond : ¬ ((C1.toInt &&& 0xF000) = (C2.toInt &&& 0xF000) ∧
        (C2.toInt &&& 0xF000) = (C3.toInt &&& 0xF000) ∧
        (C3.toInt &&& 0xF000) = (C4.toInt &&& 0xF000) ∧
        (C4.toInt &&& 0xF000) = (C5.toInt &&& 0xF000)) := by
      rintro ⟨m12, m23, m34, m45⟩
      apply hf
      rw [toInt_suit_mask2 hv1, toInt_suit_mask2 hv2] at m12
      rw [toInt_suit_mask2 hv2, toInt_suit_mask2 hv3] at m23
      rw [toInt_suit_mask2 hv3, toInt_suit_mask2 hv4] at m34
      rw [toInt_suit_mask2 hv4, toInt_suit_mask2 hv5] at m45
      have s12 := suitBit_inj _ hv1.2.2 _ hv2.2.2 m12
      have s23 := suitBit_inj _ hv2.2.2 _ hv3.2.2 m23
      have s34 := suitBit_inj _ hv3.2.2 _ hv4.2.2 m34
      have s45 := suitBit_inj _ hv4.2.2 _ hv5.2.2 m45
      simp only [isFlushHand, List.all_cons, List.all_nil, Bool.and_eq_true,
        decide_eq_true_eq, and_true]
      omega
    have hkey_ranks : prime_product [C1.rank, C2.rank, C3.rank, C4.rank, C5.rank] =
        prime_product [a, b, c, d, e] := by
      calc prime_product [C1.rank, C2.rank, C3.rank, C4.rank, C5.rank]
          = prime_product (sortDesc [C1.rank, C2.rank, C3.rank, C4.rank, C5.rank]) :=
            (prime_product_perm (sortDesc_perm _)).symm
        _ = prime_product [a, b, c, d, e] := by rw [hs]
    by_cases hnodup : ([a, b, c, d, e] : List Nat).Nodup
    · -- distinct ranks: unique5 table
      have hstrict : List.Pairwise (fun x y => y < x) [a, b, c, d, e] :=
        (List.Pairwise.and hpw hnodup).imp
          (fun h => lt_of_le_of_ne h.1 (Ne.symm h.2))
      have hba : b < a := (List.pairwise_cons.mp hstrict).1 b (by simp)
      have hst2 := (List.pairwise_cons.mp hstrict).2
      have hcb : c < b := (List.pairwise_cons.mp hst2).1 c (by simp)
      have hst3 := (List.pairwise_cons.mp hst2).2
      have hdc : d < c := (List.pairwise_cons.mp hst3).1 d (by simp)
      have hst4 := (List.pairwise_cons.mp hst3).2
      have hed : e < d := (List.pairwise_cons.mp hst4).1 e (by simp)
      obtain ⟨e₀, hm0, hsort0, htag0⟩ := unique_complete hba hcb hdc hed he2 ha14
      have hck0 : classKey e₀ = prime_product e₀.ranks := by
        unfold classKey
        rw [htag0]
      have hkeyeq : prime_product [C1.rank, C2.rank, C3.rank, C4.rank, C5.rank] =
          classKey e₀ := by
        rw [hck0, hkey_ranks]
        calc prime_product [a, b, c, d, e]
            = prime_product (sortDesc e₀.ranks) := by rw [hsort0]
          _ = prime_product e₀.ranks := prime_product_perm (sortDesc_perm _)
      obtain ⟨i0, hget0⟩ := List.mem_iff_getElem?.mp hm0
      have hscored : (e₀, i0 + 1) ∈ scoredEntries :=
        mem_scoredEntries_iff.mpr ⟨i0, hget0, rfl⟩
      have htbl : (classKey e₀, i0 + 1) ∈ unique5_table :=
        mem_tableFor_iff.mpr ⟨e₀, hscored, htag0, rfl⟩
      rw [← hkeyeq] at htbl
      obtain ⟨w, hw⟩ := dictLookup_isSome_of_mem htbl
      obtain ⟨e₁, hscored1, htag1, hkey1⟩ := mem_tableFor_iff.mp (dictLookup_mem hw)
      obtain ⟨i1, hget1, hw_eq⟩ := mem_scoredEntries_iff.mp hscored1
      obtain ⟨hi1, hval1⟩ := List.getElem?_eq_some_iff.mp hget1
      subst hw_eq
      refine ⟨i1, hi1, ?_, ?_⟩
      · show eval_5_ints C1.toInt C2.toInt C3.toInt C4.toInt C5.toInt = some (i1 + 1)
        unfold eval_5_ints
        rw [if_neg hncond, hkeyP, hw]
      · have hstd1 : stdValueEntry e₁ = stdValueEntry e₀ := by
          apply prime_key_same_std (scored_entry_mem_classList hscored1) hm0
          · rw [htag1]
            intro h
            cases h
          · rw [htag0]
            intro h
            cases h
          · have hck1 : classKey e₁ = prime_product e₁.ranks := by
              unfold classKey
              rw [htag1]
            rw [← hck1, ← hck0, ← hkey1, hkeyeq]
        have hget_eq : classList.get ⟨i1, hi1⟩ = e₁ := by
          simpa using hval1
        rw [hget_eq, hstd1]
        unfold stdValueEntry handStdValue
        have hflag : entryIsFlush e₀ = false := by
          unfold entryIsFlush
          rw [htag0]
          rfl
        have hmapr : ([C1, C2, C3, C4, C5].map PCard.rank) =
            [C1.rank, C2.rank, C3.rank, C4.rank, C5.rank] := rfl
        rw [hflag, hmapr, hfF]
        apply stdValue_congr
        rw [hsort0]
        exact hs.symm
    · -- repeated ranks: pairs table, after a unique5 miss
      have hrep : ¬ (a ≠ b ∧ b ≠ c ∧ c ≠ d ∧ d ≠ e) := by
        rintro ⟨d1, d2, d3, d4⟩
        apply hnodup
        have hstrict : List.Pairwise (fun x y => y < x) [a, b, c, d, e] :=
          pairwise5_strict (lt_of_le_of_ne hab (fun h => d1 h.symm))
            (lt_of_le_of_ne hbc (fun h => d2 h.symm))
            (lt_of_le_of_ne hcd (fun h => d3 h.symm))
            (lt_of_le_of_ne hde (fun h => d4 h.symm))
        exact hstrict.imp (fun h => (ne_of_lt h).symm)
      obtain ⟨e₀, hm0, hsort0, htag0⟩ :=
        pairs_complete hab hbc hcd hde he2 ha14 hne hrep
      have hck0 : classKey e₀ = prime_product e₀.ranks := by
        unfold classKey
        rw [htag0]
      have hkeyeq : prime_product [C1.rank, C2.rank, C3.rank, C4.rank, C5.rank] =
          classKey e₀ := by
        rw [hck0, hkey_ranks]
        calc prime_product [a, b, c, d, e]
            = prime_product (sortDesc e₀.ranks) := by rw [hsort0]
          _ = prime_product e₀.ranks := prime_product_perm (sortDesc_perm _)
      have hmiss : dictLookup
          (prime_product [C1.rank, C2.rank, C3.rank, C4.rank, C5.rank])
          unique5_table = none := by
        apply dictLookup_eq_none
        rintro ⟨k2, v2⟩ hp hkk
        obtain ⟨e2, hscored2, htag2, hkey2⟩ := mem_tableFor_iff.mp hp
        have hm2 := scored_entry_mem_classList hscored2
        have hnd2 : e2.ranks.Nodup := classList_nonpairs_nodup e2 hm2
          (by rw [htag2]; intro h; cases h)
        have hck2 : classKey e2 = prime_product e2.ranks := by
          unfold classKey
          rw [htag2]
        have hkk2 : k2 = prime_product [C1.rank, C2.rank, C3.rank, C4.rank, C5.rank] := hkk
        have hprod : prime_product [C1.rank, C2.rank, C3.rank, C4.rank, C5.rank] =
            prime_product e2.ranks := by
          rw [← hck2, ← hkey2, hkk2]
        have hperm2 := ranks_perm_of_prime_product_eq hbndr
          ((classList_ranks_ok e2 hm2).2) hprod
        apply hnodup
        have hndranks : ([C1.rank, C2.rank, C3.rank, C4.rank, C5.rank] : List Nat).Nodup :=
          hperm2.nodup_iff.mpr hnd2
        rw [← hs]
        exact ((sortDesc_perm _).nodup_iff).mpr hndranks
      obtain ⟨i0, hget0⟩ := List.mem_iff_getElem?.mp hm0
      have hscored : (e₀, i0 + 1) ∈ scoredEntries :=
        mem_scoredEntries_iff.mpr ⟨i0, hget0, rfl⟩
      have htbl : (classKey e₀, i0 + 1) ∈ pairs_table :=
        mem_tableFor_iff.mpr ⟨e₀, hscored, htag0, rfl⟩
      rw [← hkeyeq] at htbl
      obtain ⟨w, hw⟩ := dictLookup_isSome_of_mem htbl
      obtain ⟨e₁, hscored1, htag1, hkey1⟩ := mem_tableFor_iff.mp (dictLookup_mem hw)
      obtain ⟨i1, hget1, hw_eq⟩ := mem_scoredEntries_iff.mp hscored1
      obtain ⟨hi1, hval1⟩ := List.getElem?_eq_some_iff.mp hget1
      subst hw_eq
      refine ⟨i1, hi1, ?_, ?_⟩
      · show eval_5_ints C1.toInt C2.toInt C3.toInt C4.toInt C5.toInt = some (i1 + 1)
        unfold eval_5_ints
        rw [if_neg hncond, hkeyP, hmiss, hw]
      · have hstd1 : stdValueEntry e₁ = stdValueEntry e₀ := by
          apply prime_key_same_std (scored_entry_mem_classList hscored1) hm0
          · rw [htag1]
            intro h
            cases h
          · rw [htag0]
            intro h
            cases h
          · have hck1 : classKey e₁ = prime_product e₁.ranks := by
              unfold classKey
              rw [htag1]
            rw [← hck1, ← hck0, ← hkey1, hkeyeq]
        have hget_eq : classList.get ⟨i1, hi1⟩ = e₁ := by
          simpa using hval1
        rw [hget_eq, hstd1]
        unfold stdValueEntry handStdValue
        have hflag : entryIsFlush e₀ = false := by
          unfold entryIsFlush
          rw [htag0]
          rfl
        have hmapr : ([C1, C2, C3, C4, C5].map PCard.rank) =
            [C1.rank, C2.rank, C3.rank, C4.rank, C5.rank] := rfl
        rw [hflag, hmapr, hfF]
        apply stdValue_congr
        rw [hsort0]
        exact hs.symm

/-- C1: for every pair of 5-card hands of distinct valid cards, `eval_5`
returns an integer in [1, 7462], and the scores compare strictly below
exactly when the first hand strictly beats the second under the standard
poker ranking (`stdValue`, modelled from the spec), with equal scores
exactly on ties. -/
theorem eval_5_matches_standard_ranking (h1 h2 : List PCard)
    (hv1 : ValidHand h1) (hv2 : ValidHand h2) :
    ∃ s1 s2, eval_5 h1 = some s1 ∧ eval_5 h2 = some s2 ∧
      1 ≤ s1 ∧ s1 ≤ 7462 ∧ 1 ≤ s2 ∧ s2 ≤ 7462 ∧
      (s1 < s2 ↔ Beats h1 h2) ∧
      (s1 = s2 ↔ handStdValue h1 = handStdValue h2) := by
  obtain ⟨i1, hi1, he1, hs1⟩ := eval_5_spec hv1
  obtain ⟨i2, hi2, he2, hs2⟩ := eval_5_spec hv2
  have hb1 : i1 < 7462 := by
    have := hi1
    rwa [classList_length] at this
  have hb2 : i2 < 7462 := by
    have := hi2
    rwa [classList_length] at this
  refine ⟨i1 + 1, i2 + 1, he1, he2, by omega, by omega, by omega, by omega, ?_, ?_⟩
  · unfold Beats
    rw [← hs1, ← hs2]
    constructor
    · intro hlt
      exact classList_get_anti hi1 hi2 (by omega)
    · intro hgt
      by_contra hnot
      rcases lt_trichotomy i1 i2 with h | h | h
      · omega
      · subst h
        exact absurd hgt (lt_irrefl _)
      · have hanti := classList_get_anti hi2 hi1 h
        exact absurd (lt_trans hgt hanti) (lt_irrefl _)
  · constructor
    · intro heq
      have hii : i1 = i2 := by omega
      subst hii
      rw [← hs1, ← hs2]
    · intro heq
      by_contra hne
      have hne2 : i1 ≠ i2 := by omega
      rcases lt_or_gt_of_ne hne2 with h | h
      · have hanti := classList_get_anti hi1 hi2 h
        rw [hs1, hs2, heq] at hanti
        exact absurd hanti (lt_irrefl _)
      · have hanti := classList_get_anti hi2 hi1 h
        rw [hs1, hs2, heq] at hanti
        exact absurd hanti (lt_irrefl _)

/-- Witness for `eval_5_matches_standard_ranking` at two concrete hands:
a royal flush in spades against an offsuit ace-high straight. -/
theorem eval_5_matches_standard_ranking_witness :
    ValidHand [⟨14, 3⟩, ⟨13, 3⟩, ⟨12, 3⟩, ⟨11, 3⟩, ⟨10, 3⟩] ∧
    ValidHand [⟨14, 0⟩, ⟨13, 1⟩, ⟨12, 2⟩, ⟨11, 3⟩, ⟨10, 0⟩] ∧
    (∃ s1 s2,
      eval_5 [⟨14, 3⟩, ⟨13, 3⟩, ⟨12, 3⟩, ⟨11, 3⟩, ⟨10, 3⟩] = some s1 ∧
      eval_5 [⟨14, 0⟩, ⟨13, 1⟩, ⟨12, 2⟩, ⟨11, 3⟩, ⟨10, 0⟩] = some s2 ∧
      1 ≤ s1 ∧ s1 ≤ 7462 ∧ 1 ≤ s2 ∧ s2 ≤ 7462 ∧
      (s1 < s2 ↔ Beats [⟨14, 3⟩, ⟨13, 3⟩, ⟨12, 3⟩, ⟨11, 3⟩, ⟨10, 3⟩]
        [⟨14, 0⟩, ⟨13, 1⟩, ⟨12, 2⟩, ⟨11, 3⟩, ⟨10, 0⟩]) ∧
      (s1 = s2 ↔ handStdValue [⟨14, 3⟩, ⟨13, 3⟩, ⟨12, 3⟩, ⟨11, 3⟩, ⟨10, 3⟩] =
        handStdValue [⟨14, 0⟩, ⟨13, 1⟩, ⟨12, 2⟩, ⟨11, 3⟩, ⟨10, 0⟩])) :=
  ⟨by decide, by decide,
   eval_5_matches_standard_ranking
     [⟨14, 3⟩, ⟨13, 3⟩, ⟨12, 3⟩, ⟨11, 3⟩, ⟨10, 3⟩]
     [⟨14, 0⟩, ⟨13, 1⟩, ⟨12, 2⟩, ⟨11, 3⟩, ⟨10, 0⟩]
     (by decide) (by decide)⟩

end Poker
